import Mathlib

/-!
Verification of the implicit-array AVL tree (avl_array.py) against the
pointer-based reference implementation (avl_reference.py).

The array store is modelled as a structure of a capacity and two lists
(key slots and cached heights), mirroring the numpy arrays of the source.
The sentinel -1 marks an empty slot.  Reads of the form self.tree[i] are
modelled with List.getD with default -1: every such unguarded read in the
source is in bounds at its call sites (established below), and the guarded
reads test the bound first exactly as the Python does.  Keys are modelled
as Int; valid keys are the int32-representable integers other than the
sentinel -1, matching the storage type of the source arrays.
-/

/-- State of AVLTreeArray: capacity plus the two parallel numpy arrays. -/
structure AVLTreeArray where
  capacity : Nat
  tree : List Int
  heights : List Int
deriving DecidableEq, Repr

/-- Value of slot i as the source reads it: self.tree[i], with -1 when out of bounds
(in-bounds at all unguarded uses). -/
def AVLTreeArray.slotVal (s : AVLTreeArray) (i : Nat) : Int :=
  s.tree.getD i (-1)

/-- Stored height of slot i: self.heights[i], with 0 when out of bounds. -/
def AVLTreeArray.hVal (s : AVLTreeArray) (i : Nat) : Int :=
  s.heights.getD i 0

/-- The two backing arrays have length equal to the capacity field, as numpy
allocation guarantees in the source. -/
def AVLTreeArray.Sized (s : AVLTreeArray) : Prop :=
  s.tree.length = s.capacity ∧ s.heights.length = s.capacity

/-- AVLTreeArray.__init__: capacity slots, all keys -1, all heights 0. -/
def AVLTreeArray.mk0 (capacity : Nat) : AVLTreeArray :=
  { capacity := capacity
    tree := List.replicate capacity (-1)
    heights := List.replicate capacity 0 }

/-- AVLTreeArray._resize: strict allocation to required_index+1 slots when
required_index ≥ capacity; the copy new_tree[:capacity] = self.tree presupposes
the numpy arrays have length capacity, hence the take. -/
def AVLTreeArray.resize (s : AVLTreeArray) (required_index : Nat) : AVLTreeArray :=
  if s.capacity ≤ required_index then
    { capacity := required_index + 1
      tree := s.tree.take s.capacity ++ List.replicate (required_index + 1 - s.capacity) (-1)
      heights := s.heights.take s.capacity ++ List.replicate (required_index + 1 - s.capacity) 0 }
  else s

/-- AVLTreeArray.get_height: 0 for empty or out-of-bounds slots. -/
def AVLTreeArray.get_height (s : AVLTreeArray) (idx : Nat) : Int :=
  if s.capacity ≤ idx ∨ s.tree.getD idx (-1) = -1 then 0
  else s.heights.getD idx 0

/-- AVLTreeArray.update_height: recompute heights[idx] from the two child slots. -/
def AVLTreeArray.update_height (s : AVLTreeArray) (idx : Nat) : AVLTreeArray :=
  if idx < s.capacity ∧ s.tree.getD idx (-1) ≠ -1 then
    { s with heights := (s.heights.set idx (1 + max (s.get_height (2 * idx + 1)) (s.get_height (2 * idx + 2)))) }
  else s

/-- AVLTreeArray.get_balance: left height minus right height, 0 for empty slots. -/
def AVLTreeArray.get_balance (s : AVLTreeArray) (idx : Nat) : Int :=
  if s.capacity ≤ idx ∨ s.tree.getD idx (-1) = -1 then 0
  else s.get_height (2 * idx + 1) - s.get_height (2 * idx + 2)

/-- AVLTreeArray._extract_subtree_data: pre-order snapshot of the subtree at
root_idx as (relative index, key, stored height) records. -/
def AVLTreeArray.extract_subtree_data (s : AVLTreeArray) (root_idx rel_base : Nat) :
    List (Nat × Int × Int) :=
  if s.capacity ≤ root_idx ∨ s.tree.getD root_idx (-1) = -1 then []
  else
    (rel_base, s.tree.getD root_idx (-1), s.heights.getD root_idx 0) ::
      (s.extract_subtree_data (2 * root_idx + 1) (2 * rel_base + 1) ++
       s.extract_subtree_data (2 * root_idx + 2) (2 * rel_base + 2))
termination_by s.capacity - root_idx
decreasing_by all_goals (rename_i h; rw [not_or] at h; omega)

/-- Worker for AVLTreeArray._clear_subtree on the raw arrays; the capacity is
constant throughout the recursion because clearing only writes slots. -/
def AVLTreeArray.clear_go (cap : Nat) (tr hs : List Int) (idx : Nat) : List Int × List Int :=
  if cap ≤ idx ∨ tr.getD idx (-1) = -1 then (tr, hs)
  else
    let p := AVLTreeArray.clear_go cap (tr.set idx (-1)) (hs.set idx 0) (2 * idx + 1)
    AVLTreeArray.clear_go cap p.1 p.2 (2 * idx + 2)
termination_by cap - idx
decreasing_by all_goals (rename_i h; rw [not_or] at h; omega)

/-- AVLTreeArray._clear_subtree: erase the occupied subtree rooted at idx. -/
def AVLTreeArray.clear_subtree (s : AVLTreeArray) (idx : Nat) : AVLTreeArray :=
  { capacity := s.capacity
    tree := (AVLTreeArray.clear_go s.capacity s.tree s.heights idx).1
    heights := (AVLTreeArray.clear_go s.capacity s.tree s.heights idx).2 }

/-- Step 1 of AVLTreeArray._map_index: trace the path from the relative index up
to the virtual root 0; true records a Left move (odd index), false a Right move.
The list is ordered from the node up to the root, as the Python appends it. -/
def AVLTreeArray.path_up (rel_idx : Nat) : List Bool :=
  if rel_idx = 0 then []
  else if rel_idx % 2 = 1 then true :: AVLTreeArray.path_up ((rel_idx - 1) / 2)
  else false :: AVLTreeArray.path_up ((rel_idx - 2) / 2)
termination_by rel_idx
decreasing_by all_goals omega

/-- AVLTreeArray._map_index: replay the path of rel_idx, popped from the root end
downwards, starting from base_idx (foldr applies the last list entry first,
matching path.pop()). -/
def AVLTreeArray.map_index (base_idx rel_idx : Nat) : Nat :=
  if rel_idx = 0 then base_idx
  else (AVLTreeArray.path_up rel_idx).foldr
    (fun move target => if move then 2 * target + 1 else 2 * target + 2) base_idx

/-- AVLTreeArray._write_subtree_data: write each buffered record at its mapped
absolute index, resizing before each write. -/
def AVLTreeArray.write_subtree_data (s : AVLTreeArray) (dest_root_idx : Nat)
    (data : List (Nat × Int × Int)) : AVLTreeArray :=
  data.foldl (fun st r =>
    let target := AVLTreeArray.map_index dest_root_idx r.1
    let st := st.resize target
    { st with tree := st.tree.set target r.2.1, heights := st.heights.set target r.2.2 }) s

/-- AVLTreeArray.right_rotate: physically move the three subtrees and the two
pivots; the unguarded reads tree[x_idx], tree[y_idx] and the unguarded write
tree[y_idx] are in bounds at every call site (see the safety theorem). -/
def AVLTreeArray.right_rotate (s : AVLTreeArray) (y_idx : Nat) : AVLTreeArray :=
  let x_idx := 2 * y_idx + 1
  let t2_idx := 2 * x_idx + 2
  let val_x := s.tree.getD x_idx (-1)
  let val_y := s.tree.getD y_idx (-1)
  let buffer_A := s.extract_subtree_data (2 * x_idx + 1) 0
  let buffer_T2 := s.extract_subtree_data t2_idx 0
  let buffer_C := s.extract_subtree_data (2 * y_idx + 2) 0
  let s1 := s.clear_subtree y_idx
  let s2 := { s1 with tree := s1.tree.set y_idx val_x }
  let new_y_pos := 2 * y_idx + 2
  let s3 := s2.resize new_y_pos
  let s4 := { s3 with tree := s3.tree.set new_y_pos val_y }
  let s5 := s4.write_subtree_data (2 * y_idx + 1) buffer_A
  let s6 := s5.write_subtree_data (2 * new_y_pos + 2) buffer_C
  let s7 := s6.write_subtree_data (2 * new_y_pos + 1) buffer_T2
  let s8 := s7.update_height new_y_pos
  s8.update_height y_idx

/-- AVLTreeArray.left_rotate, mirror image of right_rotate. -/
def AVLTreeArray.left_rotate (s : AVLTreeArray) (x_idx : Nat) : AVLTreeArray :=
  let y_idx := 2 * x_idx + 2
  let t2_idx := 2 * y_idx + 1
  let val_x := s.tree.getD x_idx (-1)
  let val_y := s.tree.getD y_idx (-1)
  let buffer_A := s.extract_subtree_data (2 * x_idx + 1) 0
  let buffer_T2 := s.extract_subtree_data t2_idx 0
  let buffer_C := s.extract_subtree_data (2 * y_idx + 2) 0
  let s1 := s.clear_subtree x_idx
  let s2 := { s1 with tree := s1.tree.set x_idx val_y }
  let new_x_pos := 2 * x_idx + 1
  let s3 := s2.resize new_x_pos
  let s4 := { s3 with tree := s3.tree.set new_x_pos val_x }
  let s5 := s4.write_subtree_data (2 * x_idx + 2) buffer_C
  let s6 := s5.write_subtree_data (2 * new_x_pos + 1) buffer_A
  let s7 := s6.write_subtree_data (2 * new_x_pos + 2) buffer_T2
  let s8 := s7.update_height new_x_pos
  s8.update_height x_idx

/-- Steps 2 to 4 of AVLTreeArray._insert_rec, performed on the unwind after the
recursive call: update the height, compute the balance, and fire at most one of
the LL, RR, LR, RL cases, each returning immediately. -/
def AVLTreeArray.rebalance_after (s : AVLTreeArray) (idx : Nat) (key : Int) : AVLTreeArray :=
  let s2 := s.update_height idx
  let balance := s2.get_balance idx
  let left_child := 2 * idx + 1
  let right_child := 2 * idx + 2
  if 1 < balance ∧ key < s2.tree.getD left_child (-1) then
    s2.right_rotate idx
  else if balance < -1 ∧ s2.tree.getD right_child (-1) < key then
    s2.left_rotate idx
  else if 1 < balance ∧ s2.tree.getD left_child (-1) < key then
    (s2.left_rotate left_child).right_rotate idx
  else if balance < -1 ∧ key < s2.tree.getD right_child (-1) then
    (s2.right_rotate right_child).left_rotate idx
  else s2

/-- AVLTreeArray._insert_rec: resize for the visited index, do the BST descent
(writing a fresh leaf into an empty slot, ignoring a duplicate key), then
rebalance on the unwind. -/
def AVLTreeArray.insert_rec (s0 : AVLTreeArray) (idx : Nat) (key : Int) : AVLTreeArray :=
  if hv : (s0.resize idx).tree.getD idx (-1) = -1 then
    { s0.resize idx with
      tree := (s0.resize idx).tree.set idx key
      heights := (s0.resize idx).heights.set idx 1 }
  else if hlt : key < (s0.resize idx).tree.getD idx (-1) then
    AVLTreeArray.rebalance_after ((s0.resize idx).insert_rec (2 * idx + 1) key) idx key
  else if hgt : (s0.resize idx).tree.getD idx (-1) < key then
    AVLTreeArray.rebalance_after ((s0.resize idx).insert_rec (2 * idx + 2) key) idx key
  else s0.resize idx
termination_by s0.capacity - idx
decreasing_by
  all_goals
    have hlt2 : idx < s0.capacity := by
      by_contra hge
      refine hv ?_
      unfold AVLTreeArray.resize
      rw [if_pos (by omega : s0.capacity ≤ idx)]
      show (s0.tree.take s0.capacity ++
        List.replicate (idx + 1 - s0.capacity) (-1)).getD idx (-1) = -1
      rw [List.getD_append_right _ _ _ _ (by rw [List.length_take]; omega)]
      rcases lt_or_le (idx - (s0.tree.take s0.capacity).length)
          (idx + 1 - s0.capacity) with h | h
      · rw [List.getD_eq_getElem?_getD, List.getElem?_replicate, if_pos h]; rfl
      · rw [List.getD_eq_getElem?_getD, List.getElem?_replicate, if_neg (by omega)]; rfl
    have hres : s0.resize idx = s0 := by
      unfold AVLTreeArray.resize; rw [if_neg (by omega)]
    rw [hres]
    omega

/-- AVLTreeArray.insert: public entry point. -/
def AVLTreeArray.insert (s : AVLTreeArray) (key : Int) : AVLTreeArray :=
  s.insert_rec 0 key

/-- Loop body of AVLTreeArray.search as a recursion on the current index. -/
def AVLTreeArray.search_from (s : AVLTreeArray) (curr : Nat) (key : Int) : Bool :=
  if curr < s.capacity ∧ s.tree.getD curr (-1) ≠ -1 then
    if key = s.tree.getD curr (-1) then true
    else if key < s.tree.getD curr (-1) then s.search_from (2 * curr + 1) key
    else s.search_from (2 * curr + 2) key
  else false
termination_by s.capacity - curr
decreasing_by all_goals omega

/-- AVLTreeArray.search: descend from slot 0. -/
def AVLTreeArray.search (s : AVLTreeArray) (key : Int) : Bool :=
  s.search_from 0 key

/-- Insert a whole sequence of keys, in order, as the callers in the repository do. -/
def AVLTreeArray.insert_list (s : AVLTreeArray) (keys : List Int) : AVLTreeArray :=
  keys.foldl AVLTreeArray.insert s

/-- Modelled from the spec: the in-order traversal of the occupied slots of the
implied tree (left subtree, node, right subtree), the observation the spec uses
to compare the two implementations; the repository has no traversal function of
its own under src. -/
def AVLTreeArray.inorder (s : AVLTreeArray) (idx : Nat) : List Int :=
  if s.capacity ≤ idx ∨ s.tree.getD idx (-1) = -1 then []
  else s.inorder (2 * idx + 1) ++ s.tree.getD idx (-1) :: s.inorder (2 * idx + 2)
termination_by s.capacity - idx
decreasing_by all_goals (rename_i h; rw [not_or] at h; omega)

/-- A key that the int32 slot array can store and that is not the empty-slot
sentinel. -/
def ValidKey (k : Int) : Prop :=
  -(2 ^ 31) ≤ k ∧ k < 2 ^ 31 ∧ k ≠ -1

/-- A key the int32 slot array can store (the sentinel -1 is allowed here). -/
def StorableKey (k : Int) : Prop :=
  -(2 ^ 31) ≤ k ∧ k < 2 ^ 31

instance (k : Int) : Decidable (ValidKey k) :=
  decidable_of_iff (-(2 ^ 31) ≤ k ∧ k < 2 ^ 31 ∧ k ≠ -1) Iff.rfl

instance (k : Int) : Decidable (StorableKey k) :=
  decidable_of_iff (-(2 ^ 31) ≤ k ∧ k < 2 ^ 31) Iff.rfl

/-- Pointer-based node of avl_reference.py; nil is the Python None. -/
inductive Node where
  | nil : Node
  | node (key : Int) (left : Node) (right : Node) (height : Int) : Node
deriving DecidableEq, Repr

/-- AVLTreeReference.get_height: 0 for None, else the cached height. -/
def ref_get_height : Node → Int
  | .nil => 0
  | .node _ _ _ h => h

/-- AVLTreeReference.get_balance. -/
def ref_get_balance : Node → Int
  | .nil => 0
  | .node _ l r _ => ref_get_height l - ref_get_height r

/-- AVLTreeReference._update_height (no-op on None, as the Python guard gives). -/
def ref_update_height : Node → Node
  | .nil => .nil
  | .node k l r _ => .node k l r (1 + max (ref_get_height l) (ref_get_height r))

/-- AVLTreeReference.right_rotate; on a pivot without a left child the Python
would raise AttributeError, a case unreachable from insert, modelled as the
identity. The demoted node y is re-heighted before the promoted node x. -/
def ref_right_rotate : Node → Node
  | .node yk (.node xk t1 t2 hx) t3 hy =>
    ref_update_height (.node xk t1 (ref_update_height (.node yk t2 t3 hy)) hx)
  | t => t

/-- AVLTreeReference.left_rotate, mirror image. -/
def ref_left_rotate : Node → Node
  | .node xk t1 (.node yk t2 t3 hy) hx =>
    ref_update_height (.node yk (ref_update_height (.node xk t1 t2 hx)) t3 hy)
  | t => t

/-- Key of a node; reading .key of None would raise in Python, and the -1
default mirrors what the array store reads from an empty region, so guarded
comparisons agree between the two models. -/
def Node.keyOf : Node → Int
  | .nil => -1
  | .node k _ _ _ => k

/-- Steps 2 to 4 of AVLTreeReference.insert after the recursive descent:
update the height, then fire at most one rebalancing case. -/
def ref_rebalance (root : Node) (key : Int) : Node :=
  match ref_update_height root with
  | .nil => .nil
  | .node k l r h =>
    if 1 < ref_get_balance (.node k l r h) ∧ key < l.keyOf then
      ref_right_rotate (.node k l r h)
    else if ref_get_balance (.node k l r h) < -1 ∧ r.keyOf < key then
      ref_left_rotate (.node k l r h)
    else if 1 < ref_get_balance (.node k l r h) ∧ l.keyOf < key then
      ref_right_rotate (.node k (ref_left_rotate l) r h)
    else if ref_get_balance (.node k l r h) < -1 ∧ key < r.keyOf then
      ref_left_rotate (.node k l (ref_right_rotate r) h)
    else .node k l r h

/-- AVLTreeReference.insert: BST descent building a fresh leaf of height 1,
duplicates returned unchanged, rebalancing on the unwind. -/
def ref_insert : Node → Int → Node
  | .nil, key => .node key .nil .nil 1
  | .node k l r h, key =>
    if key < k then ref_rebalance (.node k (ref_insert l key) r h) key
    else if k < key then ref_rebalance (.node k l (ref_insert r key) h) key
    else .node k l r h

/-- Insert a whole sequence into the reference tree, as main.py does. -/
def ref_insert_list (t : Node) (keys : List Int) : Node :=
  keys.foldl ref_insert t

/-- Modelled from the spec: in-order traversal of the reference tree, the
comparison observation for shape equivalence. -/
def ref_inorder : Node → List Int
  | .nil => []
  | .node k l r _ => ref_inorder l ++ k :: ref_inorder r

/-- Actual height of a reference tree, ignoring the cached fields. -/
def heightR : Node → Int
  | .nil => 0
  | .node _ l r _ => 1 + max (heightR l) (heightR r)

/-- Actual balance factor, ignoring the cached fields. -/
def balanceR : Node → Int
  | .nil => 0
  | .node _ l r _ => heightR l - heightR r

/-- All cached heights agree with the actual heights. -/
def HtOK : Node → Prop
  | .nil => True
  | .node _ l r h => h = 1 + max (heightR l) (heightR r) ∧ HtOK l ∧ HtOK r

/-- The AVL balance condition at every node. -/
def BalancedT : Node → Prop
  | .nil => True
  | .node _ l r _ =>
    (heightR l - heightR r ≤ 1 ∧ heightR r - heightR l ≤ 1) ∧ BalancedT l ∧ BalancedT r

/-- Every key of the tree satisfies P. -/
def AllKeys (P : Int → Prop) : Node → Prop
  | .nil => True
  | .node k l r _ => P k ∧ AllKeys P l ∧ AllKeys P r

/-- Strict binary-search ordering. -/
def BST : Node → Prop
  | .nil => True
  | .node k l r _ =>
    AllKeys (fun x => x < k) l ∧ AllKeys (fun x => k < x) r ∧ BST l ∧ BST r

/-- Key membership. -/
def MemT (x : Int) : Node → Prop
  | .nil => False
  | .node k l r _ => x = k ∨ MemT x l ∨ MemT x r

/-- Every key is valid (storable and not the sentinel). -/
def ValidT : Node → Prop :=
  AllKeys ValidKey

/-- The full well-formedness package for reference trees. -/
def AVLT (t : Node) : Prop :=
  BST t ∧ BalancedT t ∧ HtOK t ∧ ValidT t

/-- j lies in the subtree region implied by index arithmetic below a
(including a itself): repeatedly taking the implied parent of j reaches a. -/
def isAnc : Nat → Nat → Prop
  | a, 0 => a = 0
  | a, j + 1 => a = j + 1 ∨ isAnc a (if (j + 1) % 2 = 1 then j / 2 else (j - 1) / 2)
termination_by _ j => j
decreasing_by split <;> omega

/-- The array region rooted at idx holds exactly the reference tree t: an empty
tree means every slot of the region reads as empty, and a node pins the key and
the cached height of its slot and recurses into the two child regions. -/
def Represents (s : AVLTreeArray) (idx : Nat) : Node → Prop
  | .nil => ∀ j, isAnc idx j → s.slotVal j = -1
  | .node k l r h =>
    s.slotVal idx = k ∧ s.hVal idx = h ∧
      Represents s (2 * idx + 1) l ∧ Represents s (2 * idx + 2) r

/-- Fuelled evaluator for extract_subtree_data, used only to evaluate concrete
instances by kernel reduction; proved equal to it below. -/
def AVLTreeArray.extract_subtree_dataF (fuel : Nat) (s : AVLTreeArray) (root_idx rel_base : Nat) :
    List (Nat × Int × Int) :=
  match fuel with
  | 0 => []
  | fuel + 1 =>
    if s.capacity ≤ root_idx ∨ s.tree.getD root_idx (-1) = -1 then []
    else
      (rel_base, s.tree.getD root_idx (-1), s.heights.getD root_idx 0) ::
        (s.extract_subtree_dataF fuel (2 * root_idx + 1) (2 * rel_base + 1) ++
         s.extract_subtree_dataF fuel (2 * root_idx + 2) (2 * rel_base + 2))

/-- Fuelled evaluator for clear_go; proved equal to it below. -/
def AVLTreeArray.clear_goF (fuel : Nat) (cap : Nat) (tr hs : List Int) (idx : Nat) :
    List Int × List Int :=
  match fuel with
  | 0 => (tr, hs)
  | fuel + 1 =>
    if cap ≤ idx ∨ tr.getD idx (-1) = -1 then (tr, hs)
    else
      let p := AVLTreeArray.clear_goF fuel cap (tr.set idx (-1)) (hs.set idx 0) (2 * idx + 1)
      AVLTreeArray.clear_goF fuel cap p.1 p.2 (2 * idx + 2)

/-- Evaluator for clear_subtree; proved equal to it below. -/
def AVLTreeArray.clear_subtreeE (s : AVLTreeArray) (idx : Nat) : AVLTreeArray :=
  { capacity := s.capacity
    tree := (AVLTreeArray.clear_goF (s.capacity + 1) s.capacity s.tree s.heights idx).1
    heights := (AVLTreeArray.clear_goF (s.capacity + 1) s.capacity s.tree s.heights idx).2 }

/-- Fuelled evaluator for path_up; proved equal to it below. -/
def AVLTreeArray.path_upF (fuel : Nat) (rel_idx : Nat) : List Bool :=
  match fuel with
  | 0 => []
  | fuel + 1 =>
    if rel_idx = 0 then []
    else if rel_idx % 2 = 1 then true :: AVLTreeArray.path_upF fuel ((rel_idx - 1) / 2)
    else false :: AVLTreeArray.path_upF fuel ((rel_idx - 2) / 2)

/-- Evaluator for map_index; proved equal to it below. -/
def AVLTreeArray.map_indexE (base_idx rel_idx : Nat) : Nat :=
  if rel_idx = 0 then base_idx
  else (AVLTreeArray.path_upF rel_idx rel_idx).foldr
    (fun move target => if move then 2 * target + 1 else 2 * target + 2) base_idx

/-- Evaluator for write_subtree_data; proved equal to it below. -/
def AVLTreeArray.write_subtree_dataE (s : AVLTreeArray) (dest_root_idx : Nat)
    (data : List (Nat × Int × Int)) : AVLTreeArray :=
  data.foldl (fun st r =>
    let target := AVLTreeArray.map_indexE dest_root_idx r.1
    let st := st.resize target
    { st with tree := st.tree.set target r.2.1, heights := st.heights.set target r.2.2 }) s

/-- Evaluator for right_rotate; proved equal to it below. -/
def AVLTreeArray.right_rotateE (s : AVLTreeArray) (y_idx : Nat) : AVLTreeArray :=
  let x_idx := 2 * y_idx + 1
  let t2_idx := 2 * x_idx + 2
  let val_x := s.tree.getD x_idx (-1)
  let val_y := s.tree.getD y_idx (-1)
  let buffer_A := s.extract_subtree_dataF (s.capacity + 1) (2 * x_idx + 1) 0
  let buffer_T2 := s.extract_subtree_dataF (s.capacity + 1) t2_idx 0
  let buffer_C := s.extract_subtree_dataF (s.capacity + 1) (2 * y_idx + 2) 0
  let s1 := s.clear_subtreeE y_idx
  let s2 := { s1 with tree := s1.tree.set y_idx val_x }
  let new_y_pos := 2 * y_idx + 2
  let s3 := s2.resize new_y_pos
  let s4 := { s3 with tree := s3.tree.set new_y_pos val_y }
  let s5 := s4.write_subtree_dataE (2 * y_idx + 1) buffer_A
  let s6 := s5.write_subtree_dataE (2 * new_y_pos + 2) buffer_C
  let s7 := s6.write_subtree_dataE (2 * new_y_pos + 1) buffer_T2
  let s8 := s7.update_height new_y_pos
  s8.update_height y_idx

/-- Evaluator for left_rotate; proved equal to it below. -/
def AVLTreeArray.left_rotateE (s : AVLTreeArray) (x_idx : Nat) : AVLTreeArray :=
  let y_idx := 2 * x_idx + 2
  let t2_idx := 2 * y_idx + 1
  let val_x := s.tree.getD x_idx (-1)
  let val_y := s.tree.getD y_idx (-1)
  let buffer_A := s.extract_subtree_dataF (s.capacity + 1) (2 * x_idx + 1) 0
  let buffer_T2 := s.extract_subtree_dataF (s.capacity + 1) t2_idx 0
  let buffer_C := s.extract_subtree_dataF (s.capacity + 1) (2 * y_idx + 2) 0
  let s1 := s.clear_subtreeE x_idx
  let s2 := { s1 with tree := s1.tree.set x_idx val_y }
  let new_x_pos := 2 * x_idx + 1
  let s3 := s2.resize new_x_pos
  let s4 := { s3 with tree := s3.tree.set new_x_pos val_x }
  let s5 := s4.write_subtree_dataE (2 * x_idx + 2) buffer_C
  let s6 := s5.write_subtree_dataE (2 * new_x_pos + 1) buffer_A
  let s7 := s6.write_subtree_dataE (2 * new_x_pos + 2) buffer_T2
  let s8 := s7.update_height new_x_pos
  s8.update_height x_idx

/-- Evaluator for rebalance_after; proved equal to it below. -/
def AVLTreeArray.rebalance_afterE (s : AVLTreeArray) (idx : Nat) (key : Int) : AVLTreeArray :=
  let s2 := s.update_height idx
  let balance := s2.get_balance idx
  let left_child := 2 * idx + 1
  let right_child := 2 * idx + 2
  if 1 < balance ∧ key < s2.tree.getD left_child (-1) then
    s2.right_rotateE idx
  else if balance < -1 ∧ s2.tree.getD right_child (-1) < key then
    s2.left_rotateE idx
  else if 1 < balance ∧ s2.tree.getD left_child (-1) < key then
    (s2.left_rotateE left_child).right_rotateE idx
  else if balance < -1 ∧ key < s2.tree.getD right_child (-1) then
    (s2.right_rotateE right_child).left_rotateE idx
  else s2

/-- Fuelled evaluator for insert_rec; proved equal to it below. -/
def AVLTreeArray.insert_recF (fuel : Nat) (s0 : AVLTreeArray) (idx : Nat) (key : Int) :
    AVLTreeArray :=
  match fuel with
  | 0 => s0
  | fuel + 1 =>
    if (s0.resize idx).tree.getD idx (-1) = -1 then
      { s0.resize idx with
        tree := (s0.resize idx).tree.set idx key
        heights := (s0.resize idx).heights.set idx 1 }
    else if key < (s0.resize idx).tree.getD idx (-1) then
      AVLTreeArray.rebalance_afterE ((s0.resize idx).insert_recF fuel (2 * idx + 1) key) idx key
    else if (s0.resize idx).tree.getD idx (-1) < key then
      AVLTreeArray.rebalance_afterE ((s0.resize idx).insert_recF fuel (2 * idx + 2) key) idx key
    else s0.resize idx

/-- Evaluator for insert; proved equal to it below. -/
def AVLTreeArray.insertE (s : AVLTreeArray) (key : Int) : AVLTreeArray :=
  s.insert_recF (s.capacity + 1) 0 key

/-- Evaluator for insert_list; proved equal to it below. -/
def AVLTreeArray.insert_listE (s : AVLTreeArray) (keys : List Int) : AVLTreeArray :=
  keys.foldl AVLTreeArray.insertE s

/-- Fuelled evaluator for search_from; proved equal to it below. -/
def AVLTreeArray.search_fromF (fuel : Nat) (s : AVLTreeArray) (curr : Nat) (key : Int) : Bool :=
  match fuel with
  | 0 => false
  | fuel + 1 =>
    if curr < s.capacity ∧ s.tree.getD curr (-1) ≠ -1 then
      if key = s.tree.getD curr (-1) then true
      else if key < s.tree.getD curr (-1) then s.search_fromF fuel (2 * curr + 1) key
      else s.search_fromF fuel (2 * curr + 2) key
    else false

/-- Evaluator for search; proved equal to it below. -/
def AVLTreeArray.searchE (s : AVLTreeArray) (key : Int) : Bool :=
  s.search_fromF (s.capacity + 1) 0 key

/-- Fuelled evaluator for inorder; proved equal to it below. -/
def AVLTreeArray.inorderF (fuel : Nat) (s : AVLTreeArray) (idx : Nat) : List Int :=
  match fuel with
  | 0 => []
  | fuel + 1 =>
    if s.capacity ≤ idx ∨ s.tree.getD idx (-1) = -1 then []
    else s.inorderF fuel (2 * idx + 1) ++ s.tree.getD idx (-1) :: s.inorderF fuel (2 * idx + 2)

/-- Evaluator for inorder; proved equal to it below. -/
def AVLTreeArray.inorderE (s : AVLTreeArray) (idx : Nat) : List Int :=
  s.inorderF (s.capacity + 1) idx

/-- Count how many of the four rebalancing guards of _insert_rec hold in a
given post-update state at a given index for a given freshly inserted key. -/
def firedCount (s2 : AVLTreeArray) (idx : Nat) (key : Int) : Nat :=
  (if 1 < s2.get_balance idx ∧ key < s2.slotVal (2 * idx + 1) then 1 else 0) +
  (if s2.get_balance idx < -1 ∧ s2.slotVal (2 * idx + 2) < key then 1 else 0) +
  (if 1 < s2.get_balance idx ∧ s2.slotVal (2 * idx + 1) < key then 1 else 0) +
  (if s2.get_balance idx < -1 ∧ key < s2.slotVal (2 * idx + 2) then 1 else 0)

/-- The record list _extract_subtree_data produces for a region holding a given
reference tree: a pre-order walk with relative indices rooted at rel_base. -/
def encodeRecords : Node → Nat → List (Nat × Int × Int)
  | .nil, _ => []
  | .node k l r h, rel_base =>
    (rel_base, k, h) :: (encodeRecords l (2 * rel_base + 1) ++ encodeRecords r (2 * rel_base + 2))

/-- Bounds-checked right_rotate: the two unguarded reads tree[x_idx] and
tree[y_idx] are checked; the unguarded write tree[y_idx] = val_x happens after
_clear_subtree, which preserves the capacity, so its bound is the same check;
the write at new_y_pos follows _resize(new_y_pos), and every remaining access
is bounds-guarded (get_height, update_height, extract, clear) or preceded by a
_resize (write_subtree_data). Returns none when an unguarded access would be
out of bounds (an IndexError in the source). -/
def AVLTreeArray.right_rotate_chk (s : AVLTreeArray) (y_idx : Nat) : Option AVLTreeArray :=
  if 2 * y_idx + 1 < s.capacity ∧ y_idx < s.capacity then some (s.right_rotate y_idx) else none

/-- Bounds-checked left_rotate, mirror image of right_rotate_chk. -/
def AVLTreeArray.left_rotate_chk (s : AVLTreeArray) (x_idx : Nat) : Option AVLTreeArray :=
  if 2 * x_idx + 2 < s.capacity ∧ x_idx < s.capacity then some (s.left_rotate x_idx) else none

/-- Bounds-checked unwind of _insert_rec: the Python short-circuit reads
tree[left_child] and tree[right_child] only when the corresponding balance test
passes, and each such unguarded read is checked here; the rotations use their
checked variants. -/
def AVLTreeArray.rebalance_after_chk (s : AVLTreeArray) (idx : Nat) (key : Int) :
    Option AVLTreeArray :=
  let s2 := s.update_height idx
  let balance := s2.get_balance idx
  if 1 < balance then
    if 2 * idx + 1 < s2.capacity then
      if key < s2.tree.getD (2 * idx + 1) (-1) then s2.right_rotate_chk idx
      else if s2.tree.getD (2 * idx + 1) (-1) < key then
        (s2.left_rotate_chk (2 * idx + 1)).bind (fun s3 => s3.right_rotate_chk idx)
      else some s2
    else none
  else if balance < -1 then
    if 2 * idx + 2 < s2.capacity then
      if s2.tree.getD (2 * idx + 2) (-1) < key then s2.left_rotate_chk idx
      else if key < s2.tree.getD (2 * idx + 2) (-1) then
        (s2.right_rotate_chk (2 * idx + 2)).bind (fun s3 => s3.left_rotate_chk idx)
      else some s2
    else none
  else some s2

/-- Bounds-checked _insert_rec: the visited slot is read and written only after
_resize(idx), whose bound is checked here as well. -/
def AVLTreeArray.insert_rec_chk (s0 : AVLTreeArray) (idx : Nat) (key : Int) :
    Option AVLTreeArray :=
  if hv : (s0.resize idx).tree.getD idx (-1) = -1 then
    if idx < (s0.resize idx).capacity then
      some { s0.resize idx with
             tree := (s0.resize idx).tree.set idx key
             heights := (s0.resize idx).heights.set idx 1 }
    else none
  else if hlt : key < (s0.resize idx).tree.getD idx (-1) then
    ((s0.resize idx).insert_rec_chk (2 * idx + 1) key).bind
      (fun s1 => AVLTreeArray.rebalance_after_chk s1 idx key)
  else if hgt : (s0.resize idx).tree.getD idx (-1) < key then
    ((s0.resize idx).insert_rec_chk (2 * idx + 2) key).bind
      (fun s1 => AVLTreeArray.rebalance_after_chk s1 idx key)
  else some (s0.resize idx)
termination_by s0.capacity - idx
decreasing_by
  all_goals
    have hlt2 : idx < s0.capacity := by
      by_contra hge
      refine hv ?_
      unfold AVLTreeArray.resize
      rw [if_pos (by omega : s0.capacity ≤ idx)]
      show (s0.tree.take s0.capacity ++
        List.replicate (idx + 1 - s0.capacity) (-1)).getD idx (-1) = -1
      rw [List.getD_append_right _ _ _ _ (by rw [List.length_take]; omega)]
      rcases lt_or_le (idx - (s0.tree.take s0.capacity).length)
          (idx + 1 - s0.capacity) with h | h
      · rw [List.getD_eq_getElem?_getD, List.getElem?_replicate, if_pos h]; rfl
      · rw [List.getD_eq_getElem?_getD, List.getElem?_replicate, if_neg (by omega)]; rfl
    have hres : s0.resize idx = s0 := by
      unfold AVLTreeArray.resize; rw [if_neg (by omega)]
    rw [hres]
    omega

/-- Bounds-checked insert. -/
def AVLTreeArray.insert_chk (s : AVLTreeArray) (key : Int) : Option AVLTreeArray :=
  s.insert_rec_chk 0 key

/-! ## Basic facts about the state and the memory operations -/

theorem slotVal_lt_capacity {s : AVLTreeArray} {i : Nat} (hs : s.Sized)
    (h : s.slotVal i ≠ -1) : i < s.capacity := by
  by_contra hge
  refine h ?_
  show s.tree.getD i (-1) = -1
  exact List.getD_eq_default _ _ (by rw [hs.1]; omega)

theorem getD_replicate_int (n j : Nat) (c : Int) : (List.replicate n c).getD j c = c := by
  rcases lt_or_le j n with h | h
  · rw [List.getD_eq_getElem?_getD, List.getElem?_replicate, if_pos h]; rfl
  · rw [List.getD_eq_getElem?_getD, List.getElem?_replicate, if_neg (by omega)]; rfl

theorem mk0_sized (c : Nat) : (AVLTreeArray.mk0 c).Sized := by
  constructor <;> simp [AVLTreeArray.mk0]

theorem mk0_slotVal (c : Nat) (j : Nat) : (AVLTreeArray.mk0 c).slotVal j = -1 := by
  simp only [AVLTreeArray.mk0, AVLTreeArray.slotVal]
  exact getD_replicate_int c j (-1)

theorem mk0_capacity (c : Nat) : (AVLTreeArray.mk0 c).capacity = c := rfl

theorem resize_of_lt {s : AVLTreeArray} {ri : Nat} (h : ri < s.capacity) : s.resize ri = s := by
  unfold AVLTreeArray.resize; rw [if_neg (by omega)]

theorem resize_capacity_le (s : AVLTreeArray) (ri : Nat) :
    s.capacity ≤ (s.resize ri).capacity := by
  unfold AVLTreeArray.resize
  split
  · show s.capacity ≤ ri + 1
    omega
  · omega

theorem resize_lt_capacity (s : AVLTreeArray) (ri : Nat) : ri < (s.resize ri).capacity := by
  unfold AVLTreeArray.resize
  split
  · simp
  · omega

theorem resize_sized {s : AVLTreeArray} (hs : s.Sized) (ri : Nat) : (s.resize ri).Sized := by
  unfold AVLTreeArray.resize
  split
  · refine ⟨?_, ?_⟩ <;> (simp [List.length_take, hs.1, hs.2]; omega)
  · exact hs

theorem resize_slotVal {s : AVLTreeArray} (hs : s.Sized) (ri j : Nat) :
    (s.resize ri).slotVal j = s.slotVal j := by
  unfold AVLTreeArray.resize
  split
  · show (s.tree.take s.capacity ++ List.replicate (ri + 1 - s.capacity) (-1)).getD j (-1) =
      s.tree.getD j (-1)
    rw [← hs.1, List.take_length]
    rcases lt_or_le j s.tree.length with h | h
    · rw [List.getD_append _ _ _ _ h]
    · rw [List.getD_append_right _ _ _ _ h, List.getD_eq_default _ _ h]
      exact getD_replicate_int _ _ _
  · rfl

theorem resize_hVal {s : AVLTreeArray} (hs : s.Sized) (ri j : Nat) :
    (s.resize ri).hVal j = s.hVal j := by
  unfold AVLTreeArray.resize
  split
  · show (s.heights.take s.capacity ++ List.replicate (ri + 1 - s.capacity) 0).getD j 0 =
      s.heights.getD j 0
    rw [← hs.2, List.take_length]
    rcases lt_or_le j s.heights.length with h | h
    · rw [List.getD_append _ _ _ _ h]
    · rw [List.getD_append_right _ _ _ _ h, List.getD_eq_default _ _ h]
      exact getD_replicate_int _ _ _
  · rfl

theorem resize_getD_of_ge {s : AVLTreeArray} {idx : Nat} (h : s.capacity ≤ idx) :
    (s.resize idx).tree.getD idx (-1) = -1 := by
  unfold AVLTreeArray.resize
  rw [if_pos h]
  show (s.tree.take s.capacity ++ List.replicate (idx + 1 - s.capacity) (-1)).getD idx (-1) = -1
  rw [List.getD_append_right _ _ _ _ (by rw [List.length_take]; omega)]
  exact getD_replicate_int _ _ _

theorem occupied_of_resize_ne {s : AVLTreeArray} {idx : Nat}
    (hv : (s.resize idx).tree.getD idx (-1) ≠ -1) :
    idx < s.capacity ∧ s.resize idx = s := by
  have h : idx < s.capacity := by
    by_contra hge
    exact hv (resize_getD_of_ge (by omega))
  exact ⟨h, resize_of_lt h⟩

/-! ## The fuelled evaluators agree with the source functions -/

theorem extractF_eq : ∀ (fuel : Nat) (s : AVLTreeArray) (root_idx rel_base : Nat),
    s.capacity - root_idx < fuel →
    s.extract_subtree_dataF fuel root_idx rel_base = s.extract_subtree_data root_idx rel_base := by
  intro fuel
  induction fuel with
  | zero => intro s r b h; omega
  | succ n ih =>
    intro s r b h
    rw [AVLTreeArray.extract_subtree_dataF]
    rw [AVLTreeArray.extract_subtree_data]
    by_cases hc : s.capacity ≤ r ∨ s.tree.getD r (-1) = -1
    · rw [if_pos hc, if_pos hc]
    · rw [if_neg hc, if_neg hc]
      have hr : r < s.capacity := by rw [not_or] at hc; omega
      rw [ih _ _ _ (by omega), ih _ _ _ (by omega)]

theorem extractF_succ_eq (s : AVLTreeArray) (r b : Nat) :
    s.extract_subtree_dataF (s.capacity + 1) r b = s.extract_subtree_data r b :=
  extractF_eq _ _ _ _ (by omega)

theorem clear_goF_eq : ∀ (fuel cap : Nat) (tr hs : List Int) (idx : Nat),
    cap - idx < fuel →
    AVLTreeArray.clear_goF fuel cap tr hs idx = AVLTreeArray.clear_go cap tr hs idx := by
  intro fuel
  induction fuel with
  | zero => intro cap tr hs idx h; omega
  | succ n ih =>
    intro cap tr hs idx h
    rw [AVLTreeArray.clear_goF]
    rw [AVLTreeArray.clear_go]
    by_cases hc : cap ≤ idx ∨ tr.getD idx (-1) = -1
    · rw [if_pos hc, if_pos hc]
    · rw [if_neg hc, if_neg hc]
      have hr : idx < cap := by rw [not_or] at hc; omega
      rw [ih _ _ _ _ (by omega), ih _ _ _ _ (by omega)]

theorem clear_subtreeE_eq (s : AVLTreeArray) (idx : Nat) :
    s.clear_subtreeE idx = s.clear_subtree idx := by
  unfold AVLTreeArray.clear_subtreeE AVLTreeArray.clear_subtree
  rw [clear_goF_eq _ _ _ _ _ (by omega)]

theorem path_upF_eq : ∀ (fuel r : Nat), r ≤ fuel →
    AVLTreeArray.path_upF fuel r = AVLTreeArray.path_up r := by
  intro fuel
  induction fuel with
  | zero =>
    intro r h
    have : r = 0 := by omega
    subst this
    rw [AVLTreeArray.path_upF, AVLTreeArray.path_up, if_pos rfl]
  | succ n ih =>
    intro r h
    rw [AVLTreeArray.path_upF]
    rw [AVLTreeArray.path_up]
    by_cases h0 : r = 0
    · rw [if_pos h0, if_pos h0]
    · rw [if_neg h0, if_neg h0]
      by_cases h1 : r % 2 = 1
      · rw [if_pos h1, if_pos h1, ih _ (by omega)]
      · rw [if_neg h1, if_neg h1, ih _ (by omega)]

theorem map_indexE_eq (b r : Nat) :
    AVLTreeArray.map_indexE b r = AVLTreeArray.map_index b r := by
  unfold AVLTreeArray.map_indexE AVLTreeArray.map_index
  rw [path_upF_eq _ _ (by omega)]

theorem write_subtree_dataE_eq (s : AVLTreeArray) (d : Nat) (data : List (Nat × Int × Int)) :
    s.write_subtree_dataE d data = s.write_subtree_data d data := by
  unfold AVLTreeArray.write_subtree_dataE AVLTreeArray.write_subtree_data
  have hfn : (fun (st : AVLTreeArray) (r : Nat × Int × Int) =>
      let target := AVLTreeArray.map_indexE d r.1
      let st := st.resize target
      { st with tree := st.tree.set target r.2.1, heights := st.heights.set target r.2.2 }) =
      (fun (st : AVLTreeArray) (r : Nat × Int × Int) =>
      let target := AVLTreeArray.map_index d r.1
      let st := st.resize target
      { st with tree := st.tree.set target r.2.1, heights := st.heights.set target r.2.2 }) := by
    funext st r
    rw [map_indexE_eq]
  rw [hfn]

theorem right_rotateE_eq (s : AVLTreeArray) (y : Nat) :
    s.right_rotateE y = s.right_rotate y := by
  simp only [AVLTreeArray.right_rotateE, AVLTreeArray.right_rotate, extractF_succ_eq,
    clear_subtreeE_eq, write_subtree_dataE_eq]

theorem left_rotateE_eq (s : AVLTreeArray) (x : Nat) :
    s.left_rotateE x = s.left_rotate x := by
  simp only [AVLTreeArray.left_rotateE, AVLTreeArray.left_rotate, extractF_succ_eq,
    clear_subtreeE_eq, write_subtree_dataE_eq]

theorem rebalance_afterE_eq (s : AVLTreeArray) (idx : Nat) (key : Int) :
    s.rebalance_afterE idx key = s.rebalance_after idx key := by
  simp only [AVLTreeArray.rebalance_afterE, AVLTreeArray.rebalance_after, right_rotateE_eq,
    left_rotateE_eq]

theorem insert_recF_eq : ∀ (fuel : Nat) (s : AVLTreeArray) (idx : Nat) (key : Int),
    s.capacity - idx < fuel →
    s.insert_recF fuel idx key = s.insert_rec idx key := by
  intro fuel
  induction fuel with
  | zero => intro s idx key h; omega
  | succ n ih =>
    intro s idx key h
    rw [AVLTreeArray.insert_recF]
    rw [AVLTreeArray.insert_rec]
    by_cases hv : (s.resize idx).tree.getD idx (-1) = -1
    · rw [if_pos hv, dif_pos hv]
    · rw [if_neg hv, dif_neg hv]
      obtain ⟨hidx, hres⟩ := occupied_of_resize_ne hv
      by_cases hlt : key < (s.resize idx).tree.getD idx (-1)
      · rw [if_pos hlt, dif_pos hlt, rebalance_afterE_eq,
          ih _ _ _ (by rw [hres]; omega)]
      · rw [if_neg hlt, dif_neg hlt]
        by_cases hgt : (s.resize idx).tree.getD idx (-1) < key
        · rw [if_pos hgt, dif_pos hgt, rebalance_afterE_eq,
            ih _ _ _ (by rw [hres]; omega)]
        · rw [if_neg hgt, dif_neg hgt]

theorem insertE_eq (s : AVLTreeArray) (key : Int) : s.insertE key = s.insert key :=
  insert_recF_eq _ _ _ _ (by omega)

theorem insert_listE_eq (s : AVLTreeArray) (ks : List Int) :
    s.insert_listE ks = s.insert_list ks := by
  unfold AVLTreeArray.insert_listE AVLTreeArray.insert_list
  rw [funext (fun a => funext (insertE_eq a))]

theorem search_fromF_eq : ∀ (fuel : Nat) (s : AVLTreeArray) (curr : Nat) (key : Int),
    s.capacity - curr < fuel →
    s.search_fromF fuel curr key = s.search_from curr key := by
  intro fuel
  induction fuel with
  | zero => intro s curr key h; omega
  | succ n ih =>
    intro s curr key h
    rw [AVLTreeArray.search_fromF]
    rw [AVLTreeArray.search_from]
    by_cases hc : curr < s.capacity ∧ s.tree.getD curr (-1) ≠ -1
    · rw [if_pos hc, if_pos hc]
      by_cases he : key = s.tree.getD curr (-1)
      · rw [if_pos he, if_pos he]
      · rw [if_neg he, if_neg he]
        by_cases hl : key < s.tree.getD curr (-1)
        · rw [if_pos hl, if_pos hl, ih _ _ _ (by omega)]
        · rw [if_neg hl, if_neg hl, ih _ _ _ (by omega)]
    · rw [if_neg hc, if_neg hc]

theorem searchE_eq (s : AVLTreeArray) (key : Int) : s.searchE key = s.search key :=
  search_fromF_eq _ _ _ _ (by omega)

theorem inorderF_eq : ∀ (fuel : Nat) (s : AVLTreeArray) (idx : Nat),
    s.capacity - idx < fuel →
    s.inorderF fuel idx = s.inorder idx := by
  intro fuel
  induction fuel with
  | zero => intro s idx h; omega
  | succ n ih =>
    intro s idx h
    rw [AVLTreeArray.inorderF]
    rw [AVLTreeArray.inorder]
    by_cases hc : s.capacity ≤ idx ∨ s.tree.getD idx (-1) = -1
    · rw [if_pos hc, if_pos hc]
    · rw [if_neg hc, if_neg hc]
      have hr : idx < s.capacity := by rw [not_or] at hc; omega
      rw [ih _ _ (by omega), ih _ _ (by omega)]

theorem inorderE_eq (s : AVLTreeArray) (idx : Nat) : s.inorderE idx = s.inorder idx :=
  inorderF_eq _ _ _ (by omega)

/-! ## Index-arithmetic region lemmas -/

theorem isAnc_zero_iff (a : Nat) : isAnc a 0 ↔ a = 0 := by
  rw [isAnc]

theorem isAnc_refl (a : Nat) : isAnc a a := by
  cases a with
  | zero => rw [isAnc]
  | succ j => rw [isAnc]; left; rfl

theorem isAnc_parent {a j : Nat} (h0 : 0 < j)
    (h : isAnc a (if j % 2 = 1 then (j - 1) / 2 else (j - 2) / 2)) : isAnc a j := by
  cases j with
  | zero => omega
  | succ m =>
    rw [isAnc]
    right
    have h1 : (m + 1 - 1) / 2 = m / 2 := by omega
    have h2 : (m + 1 - 2) / 2 = (m - 1) / 2 := by omega
    rw [h1, h2] at h
    exact h

theorem isAnc_cases {a j : Nat} (h : isAnc a j) :
    a = j ∨ (0 < j ∧ isAnc a (if j % 2 = 1 then (j - 1) / 2 else (j - 2) / 2)) := by
  cases j with
  | zero => rw [isAnc] at h; left; exact h
  | succ m =>
    rw [isAnc] at h
    rcases h with h | h
    · left; exact h
    · right
      refine ⟨by omega, ?_⟩
      have h1 : (m + 1 - 1) / 2 = m / 2 := by omega
      have h2 : (m + 1 - 2) / 2 = (m - 1) / 2 := by omega
      rw [h1, h2]
      exact h

theorem isAnc_left (a j : Nat) (h : isAnc a j) : isAnc a (2 * j + 1) := by
  refine isAnc_parent (by omega) ?_
  have h1 : (2 * j + 1) % 2 = 1 := by omega
  rw [if_pos h1]
  have h2 : (2 * j + 1 - 1) / 2 = j := by omega
  rw [h2]
  exact h

theorem isAnc_right (a j : Nat) (h : isAnc a j) : isAnc a (2 * j + 2) := by
  refine isAnc_parent (by omega) ?_
  have h1 : (2 * j + 2) % 2 = 0 := by omega
  rw [if_neg (by omega)]
  have h2 : (2 * j + 2 - 2) / 2 = j := by omega
  rw [h2]
  exact h

theorem isAnc_le {a : Nat} : ∀ j, isAnc a j → a ≤ j := by
  intro j
  induction j using Nat.strong_induction_on with
  | _ j ih =>
    intro h
    rcases isAnc_cases h with rfl | ⟨h0, h1⟩
    · exact le_refl _
    · have := ih _ (by split <;> omega) h1
      split at this <;> omega

theorem isAnc_trans {a b : Nat} : ∀ j, isAnc a b → isAnc b j → isAnc a j := by
  intro j
  induction j using Nat.strong_induction_on with
  | _ j ih =>
    intro hab hbj
    rcases isAnc_cases hbj with rfl | ⟨h0, h1⟩
    · exact hab
    · exact isAnc_parent h0 (ih _ (by split <;> omega) hab h1)

theorem isAnc_decomp {i : Nat} : ∀ j, isAnc i j ↔ (j = i ∨ isAnc (2 * i + 1) j ∨ isAnc (2 * i + 2) j) := by
  intro j
  induction j using Nat.strong_induction_on with
  | _ j ih =>
    constructor
    · intro h
      rcases isAnc_cases h with rfl | ⟨h0, h1⟩
      · left; rfl
      · rcases (ih _ (by split <;> omega)).1 h1 with hp | hp | hp
        · -- the parent of j is i itself, so j is one of the two children of i
          by_cases hodd : j % 2 = 1
          · right; left
            rw [if_pos hodd] at hp
            have : j = 2 * i + 1 := by omega
            rw [this]
            exact isAnc_refl _
          · right; right
            rw [if_neg hodd] at hp
            have : j = 2 * i + 2 := by omega
            rw [this]
            exact isAnc_refl _
        · right; left
          exact isAnc_parent h0 hp
        · right; right
          exact isAnc_parent h0 hp
    · intro h
      rcases h with rfl | h | h
      · exact isAnc_refl _
      · exact isAnc_trans _ (isAnc_left _ _ (isAnc_refl i)) h
      · exact isAnc_trans _ (isAnc_right _ _ (isAnc_refl i)) h

theorem isAnc_sibling {i : Nat} : ∀ j, isAnc (2 * i + 1) j → isAnc (2 * i + 2) j → False := by
  intro j
  induction j using Nat.strong_induction_on with
  | _ j ih =>
    intro h1 h2
    rcases isAnc_cases h1 with rfl | ⟨h0, hp1⟩
    · rcases isAnc_cases h2 with he | ⟨h0, hp2⟩
      · omega
      · have h3 : (2 * i + 1) % 2 = 1 := by omega
        rw [if_pos h3] at hp2
        have h4 : (2 * i + 1 - 1) / 2 = i := by omega
        rw [h4] at hp2
        have := isAnc_le _ hp2
        omega
    · rcases isAnc_cases h2 with he | ⟨h0b, hp2⟩
      · subst he
        have h3 : (2 * i + 2) % 2 = 0 := by omega
        rw [if_neg (by omega)] at hp1
        have h4 : (2 * i + 2 - 2) / 2 = i := by omega
        rw [h4] at hp1
        have := isAnc_le _ hp1
        omega
      · exact ih _ (by split <;> omega) hp1 hp2

theorem not_isAnc_of_lt {a j : Nat} (h : j < a) : ¬ isAnc a j :=
  fun hanc => absurd (isAnc_le _ hanc) (by omega)

/-- Regions strictly below two distinct children never meet, in the general
form used for frame reasoning: a region below one child of i is disjoint from
the region below the other child of i. -/
theorem isAnc_sibling_descendant {i d j : Nat} (hd : isAnc (2 * i + 2) d)
    (h1 : isAnc (2 * i + 1) j) (h2 : isAnc d j) : False :=
  isAnc_sibling _ h1 (isAnc_trans _ hd h2)

theorem isAnc_sibling_descendant_left {i d j : Nat} (hd : isAnc (2 * i + 1) d)
    (h1 : isAnc (2 * i + 2) j) (h2 : isAnc d j) : False :=
  isAnc_sibling _ (isAnc_trans _ hd h2) h1

/-! ## Representation-relation infrastructure -/

theorem Represents_congr {s s' : AVLTreeArray} :
    ∀ (t : Node) (idx : Nat),
    (∀ j, isAnc idx j → s'.slotVal j = s.slotVal j ∧ s'.hVal j = s.hVal j) →
    Represents s idx t → Represents s' idx t := by
  intro t
  induction t with
  | nil =>
    intro idx hagree hrep j hj
    rw [(hagree j hj).1]
    exact hrep j hj
  | node k l r h ihl ihr =>
    intro idx hagree hrep
    obtain ⟨hk, hh, hl, hr⟩ := hrep
    refine ⟨?_, ?_, ?_, ?_⟩
    · rw [(hagree idx (isAnc_refl idx)).1]; exact hk
    · rw [(hagree idx (isAnc_refl idx)).2]; exact hh
    · exact ihl _ (fun j hj => hagree j (isAnc_trans _ (isAnc_left _ _ (isAnc_refl idx)) hj)) hl
    · exact ihr _ (fun j hj => hagree j (isAnc_trans _ (isAnc_right _ _ (isAnc_refl idx)) hj)) hr

theorem rep_slotVal_keyOf {s : AVLTreeArray} {t : Node} {i : Nat}
    (hrep : Represents s i t) : s.slotVal i = t.keyOf := by
  cases t with
  | nil => exact hrep i (isAnc_refl i)
  | node k l r h => exact hrep.1

theorem ValidKey_ne_neg_one {k : Int} (h : ValidKey k) : k ≠ -1 := h.2.2

theorem rep_occupied {s : AVLTreeArray} {k : Int} {l r : Node} {h : Int} {i : Nat}
    (hrep : Represents s i (.node k l r h)) (hv : ValidT (.node k l r h)) :
    s.slotVal i ≠ -1 := by
  rw [hrep.1]
  exact ValidKey_ne_neg_one hv.1

theorem get_height_rep {s : AVLTreeArray} {t : Node} {i : Nat} (hs : s.Sized)
    (hrep : Represents s i t) (hv : ValidT t) : s.get_height i = ref_get_height t := by
  cases t with
  | nil =>
    have he : s.tree.getD i (-1) = -1 := hrep i (isAnc_refl i)
    unfold AVLTreeArray.get_height
    rw [if_pos (Or.inr he)]
    rfl
  | node k l r h =>
    have hocc : s.tree.getD i (-1) ≠ -1 := rep_occupied hrep hv
    have hi : i < s.capacity := slotVal_lt_capacity hs hocc
    unfold AVLTreeArray.get_height
    rw [if_neg (by rw [not_or]; exact ⟨by omega, hocc⟩)]
    exact hrep.2.1

/-! ## Characterization of the single-cell write used by _write_subtree_data
and the pivot writes in the rotations -/

theorem setTree_slotVal_same {s : AVLTreeArray} {i : Nat} (v : Int)
    (hi : i < s.tree.length) :
    (AVLTreeArray.mk s.capacity (s.tree.set i v) s.heights).slotVal i = v := by
  show (s.tree.set i v).getD i (-1) = v
  rw [List.getD_eq_getElem?_getD, List.getElem?_set_self hi]
  rfl

theorem setTree_slotVal_other {s : AVLTreeArray} {i j : Nat} (v : Int) (hij : i ≠ j) :
    (AVLTreeArray.mk s.capacity (s.tree.set i v) s.heights).slotVal j = s.slotVal j := by
  show (s.tree.set i v).getD j (-1) = s.tree.getD j (-1)
  rw [List.getD_eq_getElem?_getD, List.getElem?_set_ne hij, ← List.getD_eq_getElem?_getD]

theorem setH_hVal_same {s : AVLTreeArray} {i : Nat} (v : Int)
    (hi : i < s.heights.length) :
    (AVLTreeArray.mk s.capacity s.tree (s.heights.set i v)).hVal i = v := by
  show (s.heights.set i v).getD i 0 = v
  rw [List.getD_eq_getElem?_getD, List.getElem?_set_self hi]
  rfl

theorem setH_hVal_other {s : AVLTreeArray} {i j : Nat} (v : Int) (hij : i ≠ j) :
    (AVLTreeArray.mk s.capacity s.tree (s.heights.set i v)).hVal j = s.hVal j := by
  show (s.heights.set i v).getD j 0 = s.heights.getD j 0
  rw [List.getD_eq_getElem?_getD, List.getElem?_set_ne hij, ← List.getD_eq_getElem?_getD]

theorem getD_set_self (l : List Int) (i : Nat) (v d : Int) (h : i < l.length) :
    (l.set i v).getD i d = v := by
  rw [List.getD_eq_getElem?_getD, List.getElem?_set_self h]
  rfl

theorem getD_set_other (l : List Int) {i j : Nat} (v d : Int) (h : i ≠ j) :
    (l.set i v).getD j d = l.getD j d := by
  rw [List.getD_eq_getElem?_getD, List.getElem?_set_ne h, ← List.getD_eq_getElem?_getD]

/-! ## What _clear_subtree does to a represented region -/

theorem clear_subtree_empty {s : AVLTreeArray} {idx : Nat}
    (h : s.capacity ≤ idx ∨ s.tree.getD idx (-1) = -1) : s.clear_subtree idx = s := by
  unfold AVLTreeArray.clear_subtree
  conv_lhs => rw [AVLTreeArray.clear_go]
  rw [if_pos h]

theorem clear_subtree_occ {s : AVLTreeArray} {idx : Nat}
    (h : ¬(s.capacity ≤ idx ∨ s.tree.getD idx (-1) = -1)) :
    s.clear_subtree idx =
      ((AVLTreeArray.mk s.capacity (s.tree.set idx (-1))
        (s.heights.set idx 0)).clear_subtree (2 * idx + 1)).clear_subtree (2 * idx + 2) := by
  unfold AVLTreeArray.clear_subtree
  conv_lhs => rw [AVLTreeArray.clear_go]
  rw [if_neg h]

theorem clear_subtree_spec : ∀ (t : Node) (s : AVLTreeArray) (idx : Nat), s.Sized →
    Represents s idx t → ValidT t →
    ((s.clear_subtree idx).capacity = s.capacity ∧ (s.clear_subtree idx).Sized ∧
     (∀ j, isAnc idx j → (s.clear_subtree idx).slotVal j = -1) ∧
     (∀ j, ¬ isAnc idx j → (s.clear_subtree idx).slotVal j = s.slotVal j ∧
        (s.clear_subtree idx).hVal j = s.hVal j)) := by
  intro t
  induction t with
  | nil =>
    intro s idx hs hrep hv
    have he : s.tree.getD idx (-1) = -1 := hrep idx (isAnc_refl idx)
    rw [clear_subtree_empty (Or.inr he)]
    exact ⟨rfl, hs, fun j hj => hrep j hj, fun j _ => ⟨rfl, rfl⟩⟩
  | node k l r h ihl ihr =>
    intro s idx hs hrep hv
    have hocc : s.tree.getD idx (-1) ≠ -1 := rep_occupied hrep hv
    have hidx : idx < s.capacity := slotVal_lt_capacity hs hocc
    have hguard : ¬(s.capacity ≤ idx ∨ s.tree.getD idx (-1) = -1) := by
      rw [not_or]; exact ⟨by omega, hocc⟩
    rw [clear_subtree_occ hguard]
    set s1 := AVLTreeArray.mk s.capacity (s.tree.set idx (-1)) (s.heights.set idx 0) with hs1
    have hs1sized : s1.Sized := by
      refine ⟨?_, ?_⟩ <;> simp [hs1, hs.1, hs.2]
    have hs1slot : ∀ j, j ≠ idx → s1.slotVal j = s.slotVal j := by
      intro j hj
      show (s.tree.set idx (-1)).getD j (-1) = s.tree.getD j (-1)
      exact getD_set_other _ _ _ (fun he => hj he.symm)
    have hs1h : ∀ j, j ≠ idx → s1.hVal j = s.hVal j := by
      intro j hj
      show (s.heights.set idx 0).getD j 0 = s.heights.getD j 0
      exact getD_set_other _ _ _ (fun he => hj he.symm)
    have hs1idx : s1.slotVal idx = -1 := by
      show (s.tree.set idx (-1)).getD idx (-1) = -1
      exact getD_set_self _ _ _ _ (by rw [hs.1]; omega)
    -- the left clear
    have hrepl : Represents s1 (2 * idx + 1) l := by
      refine Represents_congr _ _ (fun j hj => ?_) hrep.2.2.1
      have hne : j ≠ idx := fun he => not_isAnc_of_lt (by omega) (he ▸ hj)
      exact ⟨hs1slot j hne, hs1h j hne⟩
    obtain ⟨hc2, hsz2, hclr2, hfr2⟩ := ihl s1 (2 * idx + 1) hs1sized hrepl hv.2.1
    set s2 := s1.clear_subtree (2 * idx + 1) with hs2
    -- the right clear
    have hrepr : Represents s2 (2 * idx + 2) r := by
      refine Represents_congr _ _ (fun j hj => ?_) hrep.2.2.2
      have hnot1 : ¬ isAnc (2 * idx + 1) j := fun hc => isAnc_sibling _ hc hj
      have hne : j ≠ idx := fun he => not_isAnc_of_lt (by omega) (he ▸ hj)
      obtain ⟨ha, hb⟩ := hfr2 j hnot1
      rw [ha, hb, hs1slot j hne, hs1h j hne]
      exact ⟨rfl, rfl⟩
    obtain ⟨hc3, hsz3, hclr3, hfr3⟩ := ihr s2 (2 * idx + 2) hsz2 hrepr hv.2.2
    refine ⟨by rw [hc3, hc2], hsz3, ?_, ?_⟩
    · intro j hj
      rcases (isAnc_decomp j).1 hj with rfl | hj1 | hj2
      · have hn2 : ¬ isAnc (2 * j + 2) j := not_isAnc_of_lt (by omega)
        have hn1 : ¬ isAnc (2 * j + 1) j := not_isAnc_of_lt (by omega)
        rw [(hfr3 j hn2).1, (hfr2 j hn1).1]
        exact hs1idx
      · have hn2 : ¬ isAnc (2 * idx + 2) j := fun hc => isAnc_sibling _ hj1 hc
        rw [(hfr3 j hn2).1]
        exact hclr2 j hj1
      · exact hclr3 j hj2
    · intro j hj
      have hne : j ≠ idx := fun he => hj (he ▸ isAnc_refl idx)
      have hn1 : ¬ isAnc (2 * idx + 1) j := fun hc =>
        hj ((isAnc_decomp j).2 (Or.inr (Or.inl hc)))
      have hn2 : ¬ isAnc (2 * idx + 2) j := fun hc =>
        hj ((isAnc_decomp j).2 (Or.inr (Or.inr hc)))
      obtain ⟨ha3, hb3⟩ := hfr3 j hn2
      obtain ⟨ha2, hb2⟩ := hfr2 j hn1
      rw [ha3, ha2, hb3, hb2, hs1slot j hne, hs1h j hne]
      exact ⟨rfl, rfl⟩

/-! ## What _extract_subtree_data reads from a represented region -/

theorem extract_spec : ∀ (t : Node) (s : AVLTreeArray) (idx rb : Nat), s.Sized →
    Represents s idx t → ValidT t →
    s.extract_subtree_data idx rb = encodeRecords t rb := by
  intro t
  induction t with
  | nil =>
    intro s idx rb hs hrep hv
    have he : s.tree.getD idx (-1) = -1 := hrep idx (isAnc_refl idx)
    rw [AVLTreeArray.extract_subtree_data, if_pos (Or.inr he)]
    rfl
  | node k l r h ihl ihr =>
    intro s idx rb hs hrep hv
    have hocc : s.tree.getD idx (-1) ≠ -1 := rep_occupied hrep hv
    have hidx : idx < s.capacity := slotVal_lt_capacity hs hocc
    rw [AVLTreeArray.extract_subtree_data, if_neg (by rw [not_or]; exact ⟨by omega, hocc⟩)]
    show (rb, s.slotVal idx, s.hVal idx) :: _ = _
    rw [rep_slotVal_keyOf hrep, hrep.2.1, ihl _ _ _ hs hrep.2.2.1 hv.2.1,
      ihr _ _ _ hs hrep.2.2.2 hv.2.2]
    rfl

/-! ## The index-remapping recurrences -/

theorem path_up_zero : AVLTreeArray.path_up 0 = [] := by
  rw [AVLTreeArray.path_up]
  rfl

theorem path_up_left (r : Nat) :
    AVLTreeArray.path_up (2 * r + 1) = true :: AVLTreeArray.path_up r := by
  rw [AVLTreeArray.path_up]
  rw [if_neg (by omega), if_pos (by omega)]
  have h : (2 * r + 1 - 1) / 2 = r := by omega
  rw [h]

theorem path_up_right (r : Nat) :
    AVLTreeArray.path_up (2 * r + 2) = false :: AVLTreeArray.path_up r := by
  rw [AVLTreeArray.path_up]
  rw [if_neg (by omega), if_neg (by omega)]
  have h : (2 * r + 2 - 2) / 2 = r := by omega
  rw [h]

theorem map_index_zero (b : Nat) : AVLTreeArray.map_index b 0 = b := by
  rw [AVLTreeArray.map_index, if_pos rfl]

theorem map_index_foldr (b r : Nat) :
    AVLTreeArray.map_index b r = (AVLTreeArray.path_up r).foldr
      (fun move target => if move then 2 * target + 1 else 2 * target + 2) b := by
  rw [AVLTreeArray.map_index]
  by_cases h : r = 0
  · rw [if_pos h, h, path_up_zero]
    rfl
  · rw [if_neg h]

theorem map_index_left (b r : Nat) :
    AVLTreeArray.map_index b (2 * r + 1) = 2 * AVLTreeArray.map_index b r + 1 := by
  rw [map_index_foldr, map_index_foldr, path_up_left, List.foldr_cons, if_pos rfl]

theorem map_index_right (b r : Nat) :
    AVLTreeArray.map_index b (2 * r + 2) = 2 * AVLTreeArray.map_index b r + 2 := by
  rw [map_index_foldr, map_index_foldr, path_up_right, List.foldr_cons, if_neg (by simp)]

theorem map_index_id : ∀ r : Nat, AVLTreeArray.map_index 0 r = r := by
  intro r
  induction r using Nat.strong_induction_on with
  | _ r ih =>
    rcases Nat.eq_zero_or_pos r with rfl | hpos
    · exact map_index_zero 0
    · by_cases hodd : r % 2 = 1
      · obtain ⟨q, rfl⟩ : ∃ q, r = 2 * q + 1 := ⟨(r - 1) / 2, by omega⟩
        rw [map_index_left, ih _ (by omega)]
      · obtain ⟨q, rfl⟩ : ∃ q, r = 2 * q + 2 := ⟨(r - 2) / 2, by omega⟩
        rw [map_index_right, ih _ (by omega)]

theorem isAnc_map_index (b : Nat) : ∀ r : Nat, isAnc b (AVLTreeArray.map_index b r) := by
  intro r
  induction r using Nat.strong_induction_on with
  | _ r ih =>
    rcases Nat.eq_zero_or_pos r with rfl | hpos
    · rw [map_index_zero]
      exact isAnc_refl b
    · by_cases hodd : r % 2 = 1
      · obtain ⟨q, rfl⟩ : ∃ q, r = 2 * q + 1 := ⟨(r - 1) / 2, by omega⟩
        rw [map_index_left]
        exact isAnc_left _ _ (ih _ (by omega))
      · obtain ⟨q, rfl⟩ : ∃ q, r = 2 * q + 2 := ⟨(r - 2) / 2, by omega⟩
        rw [map_index_right]
        exact isAnc_right _ _ (ih _ (by omega))

/-! ## What _write_subtree_data builds in a cleared region -/

theorem write_subtree_data_nil (s : AVLTreeArray) (d : Nat) :
    s.write_subtree_data d [] = s := rfl

theorem write_subtree_data_cons (s : AVLTreeArray) (d : Nat) (a : Nat × Int × Int)
    (rest : List (Nat × Int × Int)) :
    s.write_subtree_data d (a :: rest) =
      (AVLTreeArray.mk (s.resize (AVLTreeArray.map_index d a.1)).capacity
        ((s.resize (AVLTreeArray.map_index d a.1)).tree.set (AVLTreeArray.map_index d a.1) a.2.1)
        ((s.resize (AVLTreeArray.map_index d a.1)).heights.set (AVLTreeArray.map_index d a.1) a.2.2)
        ).write_subtree_data d rest := rfl

theorem write_subtree_data_append (s : AVLTreeArray) (d : Nat)
    (xs ys : List (Nat × Int × Int)) :
    s.write_subtree_data d (xs ++ ys) =
      (s.write_subtree_data d xs).write_subtree_data d ys := by
  unfold AVLTreeArray.write_subtree_data
  rw [List.foldl_append]

theorem write_cell_spec (s : AVLTreeArray) (hs : s.Sized) (m : Nat) (v hv : Int) :
    (AVLTreeArray.mk (s.resize m).capacity ((s.resize m).tree.set m v)
      ((s.resize m).heights.set m hv)).Sized ∧
    s.capacity ≤ (AVLTreeArray.mk (s.resize m).capacity ((s.resize m).tree.set m v)
      ((s.resize m).heights.set m hv)).capacity ∧
    (AVLTreeArray.mk (s.resize m).capacity ((s.resize m).tree.set m v)
      ((s.resize m).heights.set m hv)).slotVal m = v ∧
    (AVLTreeArray.mk (s.resize m).capacity ((s.resize m).tree.set m v)
      ((s.resize m).heights.set m hv)).hVal m = hv ∧
    (∀ j, j ≠ m →
      (AVLTreeArray.mk (s.resize m).capacity ((s.resize m).tree.set m v)
        ((s.resize m).heights.set m hv)).slotVal j = s.slotVal j ∧
      (AVLTreeArray.mk (s.resize m).capacity ((s.resize m).tree.set m v)
        ((s.resize m).heights.set m hv)).hVal j = s.hVal j) := by
  have hrs : (s.resize m).Sized := resize_sized hs m
  have hmlt : m < (s.resize m).capacity := resize_lt_capacity s m
  refine ⟨⟨by simp [hrs.1], by simp [hrs.2]⟩, resize_capacity_le s m, ?_, ?_, ?_⟩
  · show ((s.resize m).tree.set m v).getD m (-1) = v
    exact getD_set_self _ _ _ _ (by rw [hrs.1]; omega)
  · show ((s.resize m).heights.set m hv).getD m 0 = hv
    exact getD_set_self _ _ _ _ (by rw [hrs.2]; omega)
  · intro j hj
    constructor
    · show ((s.resize m).tree.set m v).getD j (-1) = s.slotVal j
      rw [getD_set_other _ _ _ (fun he => hj he.symm)]
      exact resize_slotVal hs m j
    · show ((s.resize m).heights.set m hv).getD j 0 = s.hVal j
      rw [getD_set_other _ _ _ (fun he => hj he.symm)]
      exact resize_hVal hs m j

theorem write_subtree_data_spec : ∀ (t : Node) (u : AVLTreeArray) (dest rb : Nat),
    u.Sized →
    (∀ j, isAnc (AVLTreeArray.map_index dest rb) j → u.slotVal j = -1) →
    ((u.write_subtree_data dest (encodeRecords t rb)).Sized ∧
     u.capacity ≤ (u.write_subtree_data dest (encodeRecords t rb)).capacity ∧
     Represents (u.write_subtree_data dest (encodeRecords t rb))
       (AVLTreeArray.map_index dest rb) t ∧
     (∀ j, ¬ isAnc (AVLTreeArray.map_index dest rb) j →
       (u.write_subtree_data dest (encodeRecords t rb)).slotVal j = u.slotVal j ∧
       (u.write_subtree_data dest (encodeRecords t rb)).hVal j = u.hVal j)) := by
  intro t
  induction t with
  | nil =>
    intro u dest rb hs hclear
    rw [show encodeRecords .nil rb = [] from rfl, write_subtree_data_nil]
    exact ⟨hs, le_refl _, fun j hj => hclear j hj, fun j _ => ⟨rfl, rfl⟩⟩
  | node k l r h ihl ihr =>
    intro u dest rb hs hclear
    set m := AVLTreeArray.map_index dest rb with hm
    rw [show encodeRecords (.node k l r h) rb =
      (rb, k, h) :: (encodeRecords l (2 * rb + 1) ++ encodeRecords r (2 * rb + 2)) from rfl]
    rw [write_subtree_data_cons, write_subtree_data_append]
    obtain ⟨hsz1, hcap1, hslot1, hh1, hfr1⟩ := write_cell_spec u hs m k h
    set u1 := AVLTreeArray.mk (u.resize m).capacity ((u.resize m).tree.set m k)
      ((u.resize m).heights.set m h) with hu1
    have hml : AVLTreeArray.map_index dest (2 * rb + 1) = 2 * m + 1 := by
      rw [map_index_left, hm]
    have hmr : AVLTreeArray.map_index dest (2 * rb + 2) = 2 * m + 2 := by
      rw [map_index_right, hm]
    -- left subtree write
    have hclear1 : ∀ j, isAnc (AVLTreeArray.map_index dest (2 * rb + 1)) j →
        u1.slotVal j = -1 := by
      intro j hj
      rw [hml] at hj
      have hne : j ≠ m := fun he => not_isAnc_of_lt (by omega) (he ▸ hj)
      rw [(hfr1 j hne).1]
      exact hclear j (isAnc_trans _ (isAnc_left _ _ (isAnc_refl m)) hj)
    obtain ⟨hsz2, hcap2, hrep2, hfr2⟩ := ihl u1 dest (2 * rb + 1) hsz1 hclear1
    set u2 := u1.write_subtree_data dest (encodeRecords l (2 * rb + 1)) with hu2
    rw [hml] at hrep2 hfr2
    -- right subtree write
    have hclear2 : ∀ j, isAnc (AVLTreeArray.map_index dest (2 * rb + 2)) j →
        u2.slotVal j = -1 := by
      intro j hj
      rw [hmr] at hj
      have hnot1 : ¬ isAnc (2 * m + 1) j := fun hc => isAnc_sibling _ hc hj
      have hne : j ≠ m := fun he => not_isAnc_of_lt (by omega) (he ▸ hj)
      rw [(hfr2 j hnot1).1, (hfr1 j hne).1]
      exact hclear j (isAnc_trans _ (isAnc_right _ _ (isAnc_refl m)) hj)
    obtain ⟨hsz3, hcap3, hrep3, hfr3⟩ := ihr u2 dest (2 * rb + 2) hsz2 hclear2
    set u3 := u2.write_subtree_data dest (encodeRecords r (2 * rb + 2)) with hu3
    rw [hmr] at hrep3 hfr3
    have hn1m : ¬ isAnc (2 * m + 1) m := not_isAnc_of_lt (by omega)
    have hn2m : ¬ isAnc (2 * m + 2) m := not_isAnc_of_lt (by omega)
    refine ⟨hsz3, by omega, ⟨?_, ?_, ?_, ?_⟩, ?_⟩
    · rw [(hfr3 m hn2m).1, (hfr2 m hn1m).1]
      exact hslot1
    · rw [(hfr3 m hn2m).2, (hfr2 m hn1m).2]
      exact hh1
    · refine Represents_congr _ _ (fun j hj => ?_) hrep2
      exact hfr3 j (fun hc => isAnc_sibling _ hj hc)
    · exact hrep3
    · intro j hj
      have hne : j ≠ m := fun he => hj (he ▸ isAnc_refl m)
      have hj1 : ¬ isAnc (2 * m + 1) j := fun hc =>
        hj ((isAnc_decomp j).2 (Or.inr (Or.inl hc)))
      have hj2 : ¬ isAnc (2 * m + 2) j := fun hc =>
        hj ((isAnc_decomp j).2 (Or.inr (Or.inr hc)))
      obtain ⟨ha3, hb3⟩ := hfr3 j hj2
      obtain ⟨ha2, hb2⟩ := hfr2 j hj1
      obtain ⟨ha1, hb1⟩ := hfr1 j hne
      rw [ha3, ha2, ha1, hb3, hb2, hb1]
      exact ⟨rfl, rfl⟩

/-! ## update_height characterization -/

theorem update_height_capacity (s : AVLTreeArray) (idx : Nat) :
    (s.update_height idx).capacity = s.capacity := by
  unfold AVLTreeArray.update_height
  split <;> rfl

theorem update_height_tree (s : AVLTreeArray) (idx : Nat) :
    (s.update_height idx).tree = s.tree := by
  unfold AVLTreeArray.update_height
  split <;> rfl

theorem update_height_slotVal (s : AVLTreeArray) (idx j : Nat) :
    (s.update_height idx).slotVal j = s.slotVal j := by
  show (s.update_height idx).tree.getD j (-1) = s.tree.getD j (-1)
  rw [update_height_tree]

theorem update_height_sized {s : AVLTreeArray} (hs : s.Sized) (idx : Nat) :
    (s.update_height idx).Sized := by
  unfold AVLTreeArray.update_height
  split
  · exact ⟨hs.1, by simpa using hs.2⟩
  · exact hs

theorem update_height_hVal_other (s : AVLTreeArray) {idx j : Nat} (h : j ≠ idx) :
    (s.update_height idx).hVal j = s.hVal j := by
  unfold AVLTreeArray.update_height
  split
  · show (s.heights.set idx _).getD j 0 = s.heights.getD j 0
    exact getD_set_other _ _ _ (fun he => h he.symm)
  · rfl

theorem update_height_hVal_occ {s : AVLTreeArray} (hs : s.Sized) {idx : Nat}
    (hidx : idx < s.capacity) (hocc : s.tree.getD idx (-1) ≠ -1) :
    (s.update_height idx).hVal idx =
      1 + max (s.get_height (2 * idx + 1)) (s.get_height (2 * idx + 2)) := by
  unfold AVLTreeArray.update_height
  rw [if_pos ⟨hidx, hocc⟩]
  show (s.heights.set idx _).getD idx 0 = _
  exact getD_set_self _ _ _ _ (by rw [hs.2]; omega)

theorem get_height_occ {s : AVLTreeArray} {i : Nat} (hi : i < s.capacity)
    (hocc : s.tree.getD i (-1) ≠ -1) : s.get_height i = s.hVal i := by
  unfold AVLTreeArray.get_height
  rw [if_neg (by rw [not_or]; exact ⟨by omega, hocc⟩)]
  rfl

theorem write_subtree_data_spec0 (t : Node) (u : AVLTreeArray) (d : Nat)
    (hs : u.Sized) (hclear : ∀ j, isAnc d j → u.slotVal j = -1) :
    ((u.write_subtree_data d (encodeRecords t 0)).Sized ∧
     u.capacity ≤ (u.write_subtree_data d (encodeRecords t 0)).capacity ∧
     Represents (u.write_subtree_data d (encodeRecords t 0)) d t ∧
     (∀ j, ¬ isAnc d j →
       (u.write_subtree_data d (encodeRecords t 0)).slotVal j = u.slotVal j ∧
       (u.write_subtree_data d (encodeRecords t 0)).hVal j = u.hVal j)) := by
  have h := write_subtree_data_spec t u d 0 hs (by rw [map_index_zero]; exact hclear)
  rw [map_index_zero] at h
  exact h

/-! ## The rotations, staged for reasoning -/

theorem right_rotate_eq (s : AVLTreeArray) (y : Nat) :
    s.right_rotate y =
      (let s1 := s.clear_subtree y
       let s2 := AVLTreeArray.mk s1.capacity (s1.tree.set y (s.tree.getD (2 * y + 1) (-1))) s1.heights
       let s3 := s2.resize (2 * y + 2)
       let s4 := AVLTreeArray.mk s3.capacity (s3.tree.set (2 * y + 2) (s.tree.getD y (-1))) s3.heights
       let s5 := s4.write_subtree_data (2 * y + 1) (s.extract_subtree_data (2 * (2 * y + 1) + 1) 0)
       let s6 := s5.write_subtree_data (2 * (2 * y + 2) + 2) (s.extract_subtree_data (2 * y + 2) 0)
       let s7 := s6.write_subtree_data (2 * (2 * y + 2) + 1) (s.extract_subtree_data (2 * (2 * y + 1) + 2) 0)
       (s7.update_height (2 * y + 2)).update_height y) := rfl

theorem left_rotate_eq (s : AVLTreeArray) (x : Nat) :
    s.left_rotate x =
      (let s1 := s.clear_subtree x
       let s2 := AVLTreeArray.mk s1.capacity (s1.tree.set x (s.tree.getD (2 * x + 2) (-1))) s1.heights
       let s3 := s2.resize (2 * x + 1)
       let s4 := AVLTreeArray.mk s3.capacity (s3.tree.set (2 * x + 1) (s.tree.getD x (-1))) s3.heights
       let s5 := s4.write_subtree_data (2 * x + 2) (s.extract_subtree_data (2 * (2 * x + 2) + 2) 0)
       let s6 := s5.write_subtree_data (2 * (2 * x + 1) + 1) (s.extract_subtree_data (2 * x + 1) 0)
       let s7 := s6.write_subtree_data (2 * (2 * x + 1) + 2) (s.extract_subtree_data (2 * (2 * x + 2) + 1) 0)
       (s7.update_height (2 * x + 1)).update_height x) := rfl

theorem right_rotate_spec {s : AVLTreeArray} {y : Nat} {yk xk hx hy : Int} {t1 t2 t3 : Node}
    (hs : s.Sized)
    (hrep : Represents s y (.node yk (.node xk t1 t2 hx) t3 hy))
    (hv : ValidT (.node yk (.node xk t1 t2 hx) t3 hy)) :
    (s.right_rotate y).Sized ∧ s.capacity ≤ (s.right_rotate y).capacity ∧
    Represents (s.right_rotate y) y (ref_right_rotate (.node yk (.node xk t1 t2 hx) t3 hy)) ∧
    (∀ j, ¬ isAnc y j → (s.right_rotate y).slotVal j = s.slotVal j ∧
      (s.right_rotate y).hVal j = s.hVal j) := by
  obtain ⟨hky, hhy, hrepx, hrept3⟩ := hrep
  obtain ⟨hkx, hhx, hrept1, hrept2⟩ := hrepx
  have hv2 : ValidKey yk ∧ (ValidKey xk ∧ ValidT t1 ∧ ValidT t2) ∧ ValidT t3 := hv
  obtain ⟨hvyk, ⟨hvxk, hvt1, hvt2⟩, hvt3⟩ := hv2
  have hgy : s.tree.getD y (-1) = yk := hky
  have hgx : s.tree.getD (2 * y + 1) (-1) = xk := hkx
  have hylt : y < s.capacity := slotVal_lt_capacity hs (by
    show s.tree.getD y (-1) ≠ -1
    rw [hgy]; exact hvyk.2.2)
  have hbufA : s.extract_subtree_data (2 * (2 * y + 1) + 1) 0 = encodeRecords t1 0 :=
    extract_spec t1 s _ 0 hs hrept1 hvt1
  have hbufT2 : s.extract_subtree_data (2 * (2 * y + 1) + 2) 0 = encodeRecords t2 0 :=
    extract_spec t2 s _ 0 hs hrept2 hvt2
  have hbufC : s.extract_subtree_data (2 * y + 2) 0 = encodeRecords t3 0 :=
    extract_spec t3 s _ 0 hs hrept3 hvt3
  rw [right_rotate_eq]
  simp only [hgx, hgy, hbufA, hbufT2, hbufC]
  obtain ⟨hc1, hsz1, hclr1, hfr1⟩ := clear_subtree_spec (.node yk (.node xk t1 t2 hx) t3 hy)
    s y hs ⟨hky, hhy, ⟨hkx, hhx, hrept1, hrept2⟩, hrept3⟩ hv
  set s1 := s.clear_subtree y with hs1def
  set s2 := AVLTreeArray.mk s1.capacity (s1.tree.set y xk) s1.heights with hs2def
  have hc2 : s2.capacity = s1.capacity := rfl
  have hsz2 : s2.Sized := by
    refine ⟨?_, ?_⟩
    · show (s1.tree.set y xk).length = s1.capacity
      simp [hsz1.1]
    · exact hsz1.2
  have hslot2y : s2.slotVal y = xk := by
    show (s1.tree.set y xk).getD y (-1) = xk
    exact getD_set_self _ _ _ _ (by rw [hsz1.1, hc1]; omega)
  have hslot2 : ∀ j, j ≠ y → s2.slotVal j = s1.slotVal j := by
    intro j hj
    show (s1.tree.set y xk).getD j (-1) = s1.tree.getD j (-1)
    exact getD_set_other _ _ _ (fun he => hj he.symm)
  have hh2 : ∀ j, s2.hVal j = s1.hVal j := fun j => rfl
  set s3 := s2.resize (2 * y + 2) with hs3def
  have hsz3 : s3.Sized := resize_sized hsz2 _
  have hslot3 : ∀ j, s3.slotVal j = s2.slotVal j := resize_slotVal hsz2 _
  have hh3 : ∀ j, s3.hVal j = s2.hVal j := resize_hVal hsz2 _
  have hcap3 : s2.capacity ≤ s3.capacity := resize_capacity_le _ _
  have hlt3 : 2 * y + 2 < s3.capacity := resize_lt_capacity _ _
  set s4 := AVLTreeArray.mk s3.capacity (s3.tree.set (2 * y + 2) yk) s3.heights with hs4def
  have hc4 : s4.capacity = s3.capacity := rfl
  have hsz4 : s4.Sized := by
    refine ⟨?_, ?_⟩
    · show (s3.tree.set (2 * y + 2) yk).length = s3.capacity
      simp [hsz3.1]
    · exact hsz3.2
  have hslot4y2 : s4.slotVal (2 * y + 2) = yk := by
    show (s3.tree.set (2 * y + 2) yk).getD (2 * y + 2) (-1) = yk
    exact getD_set_self _ _ _ _ (by rw [hsz3.1]; omega)
  have hslot4 : ∀ j, j ≠ 2 * y + 2 → s4.slotVal j = s3.slotVal j := by
    intro j hj
    show (s3.tree.set (2 * y + 2) yk).getD j (-1) = s3.tree.getD j (-1)
    exact getD_set_other _ _ _ (fun he => hj he.symm)
  have hh4 : ∀ j, s4.hVal j = s3.hVal j := fun j => rfl
  -- write T1 below the promoted node
  have hclear5 : ∀ j, isAnc (2 * y + 1) j → s4.slotVal j = -1 := by
    intro j hj
    have hjy2 : j ≠ 2 * y + 2 := fun he => isAnc_sibling _ hj (he ▸ isAnc_refl (2 * y + 2))
    have hjy : j ≠ y := fun he => not_isAnc_of_lt (by omega) (he ▸ hj)
    rw [hslot4 j hjy2, hslot3 j, hslot2 j hjy]
    exact hclr1 j (isAnc_trans _ (isAnc_left _ _ (isAnc_refl y)) hj)
  obtain ⟨hsz5, hcap5, hrep5, hfr5⟩ := write_subtree_data_spec0 t1 s4 (2 * y + 1) hsz4 hclear5
  set s5 := s4.write_subtree_data (2 * y + 1) (encodeRecords t1 0) with hs5def
  -- write T3 below the demoted node
  have hanc6 : isAnc (2 * y + 2) (2 * (2 * y + 2) + 2) := isAnc_right _ _ (isAnc_refl _)
  have hclear6 : ∀ j, isAnc (2 * (2 * y + 2) + 2) j → s5.slotVal j = -1 := by
    intro j hj
    have hj2 : isAnc (2 * y + 2) j := isAnc_trans _ hanc6 hj
    have hjle : 2 * (2 * y + 2) + 2 ≤ j := isAnc_le _ hj
    have hn1 : ¬ isAnc (2 * y + 1) j := fun hc => isAnc_sibling _ hc hj2
    rw [(hfr5 j hn1).1, hslot4 j (by omega), hslot3 j, hslot2 j (by omega)]
    exact hclr1 j (isAnc_trans _ (isAnc_right _ _ (isAnc_refl y)) hj2)
  obtain ⟨hsz6, hcap6, hrep6, hfr6⟩ :=
    write_subtree_data_spec0 t3 s5 (2 * (2 * y + 2) + 2) hsz5 hclear6
  set s6 := s5.write_subtree_data (2 * (2 * y + 2) + 2) (encodeRecords t3 0) with hs6def
  -- write T2 on the other side of the demoted node
  have hanc7 : isAnc (2 * y + 2) (2 * (2 * y + 2) + 1) := isAnc_left _ _ (isAnc_refl _)
  have hclear7 : ∀ j, isAnc (2 * (2 * y + 2) + 1) j → s6.slotVal j = -1 := by
    intro j hj
    have hj2 : isAnc (2 * y + 2) j := isAnc_trans _ hanc7 hj
    have hjle : 2 * (2 * y + 2) + 1 ≤ j := isAnc_le _ hj
    have hn6 : ¬ isAnc (2 * (2 * y + 2) + 2) j := fun hc => isAnc_sibling _ hj hc
    have hn1 : ¬ isAnc (2 * y + 1) j := fun hc => isAnc_sibling _ hc hj2
    rw [(hfr6 j hn6).1, (hfr5 j hn1).1, hslot4 j (by omega), hslot3 j, hslot2 j (by omega)]
    exact hclr1 j (isAnc_trans _ (isAnc_right _ _ (isAnc_refl y)) hj2)
  obtain ⟨hsz7, hcap7, hrep7, hfr7⟩ :=
    write_subtree_data_spec0 t2 s6 (2 * (2 * y + 2) + 1) hsz6 hclear7
  set s7 := s6.write_subtree_data (2 * (2 * y + 2) + 1) (encodeRecords t2 0) with hs7def
  -- transported representations and slot values at s7
  have hrep6s7 : Represents s7 (2 * (2 * y + 2) + 2) t3 :=
    Represents_congr _ _ (fun j hj => hfr7 j (fun hc => isAnc_sibling _ hc hj)) hrep6
  have hslot7y2 : s7.slotVal (2 * y + 2) = yk := by
    rw [(hfr7 (2 * y + 2) (not_isAnc_of_lt (by omega))).1,
      (hfr6 (2 * y + 2) (not_isAnc_of_lt (by omega))).1,
      (hfr5 (2 * y + 2) (fun hc => isAnc_sibling _ hc (isAnc_refl _))).1]
    exact hslot4y2
  have hslot7y : s7.slotVal y = xk := by
    rw [(hfr7 y (not_isAnc_of_lt (by omega))).1, (hfr6 y (not_isAnc_of_lt (by omega))).1,
      (hfr5 y (not_isAnc_of_lt (by omega))).1, hslot4 y (by omega), hslot3 y]
    exact hslot2y
  -- first height update, at the demoted node
  set s8 := s7.update_height (2 * y + 2) with hs8def
  have hsz8 : s8.Sized := update_height_sized hsz7 _
  have hc8 : s8.capacity = s7.capacity := update_height_capacity _ _
  have hlt7 : 2 * y + 2 < s7.capacity := by
    have h4 : s4.capacity = s3.capacity := rfl
    omega
  have hght2 : s7.get_height (2 * (2 * y + 2) + 1) = ref_get_height t2 :=
    get_height_rep hsz7 hrep7 hvt2
  have hght3 : s7.get_height (2 * (2 * y + 2) + 2) = ref_get_height t3 :=
    get_height_rep hsz7 hrep6s7 hvt3
  have hocc7y2 : s7.tree.getD (2 * y + 2) (-1) ≠ -1 := by
    show s7.slotVal (2 * y + 2) ≠ -1
    rw [hslot7y2]; exact hvyk.2.2
  have hh8y2 : s8.hVal (2 * y + 2) =
      1 + max (ref_get_height t2) (ref_get_height t3) := by
    rw [hs8def, update_height_hVal_occ hsz7 hlt7 hocc7y2, hght2, hght3]
  have hslot8 : ∀ j, s8.slotVal j = s7.slotVal j := update_height_slotVal _ _
  have hh8 : ∀ j, j ≠ 2 * y + 2 → s8.hVal j = s7.hVal j :=
    fun j hj => update_height_hVal_other _ hj
  have hrep1s8 : Represents s8 (2 * y + 1) t1 := by
    refine Represents_congr _ _ (fun j hj => ?_) hrep5
    have hn6 : ¬ isAnc (2 * (2 * y + 2) + 2) j :=
      fun hc => isAnc_sibling_descendant hanc6 hj hc
    have hn7 : ¬ isAnc (2 * (2 * y + 2) + 1) j :=
      fun hc => isAnc_sibling_descendant hanc7 hj hc
    have hjne : j ≠ 2 * y + 2 := fun he => isAnc_sibling _ hj (he ▸ isAnc_refl (2 * y + 2))
    rw [hslot8 j, hh8 j hjne, (hfr7 j hn7).1, (hfr7 j hn7).2, (hfr6 j hn6).1, (hfr6 j hn6).2]
    exact ⟨rfl, rfl⟩
  have hght1s8 : s8.get_height (2 * y + 1) = ref_get_height t1 :=
    get_height_rep hsz8 hrep1s8 hvt1
  have hght2s8 : s8.get_height (2 * y + 2) =
      1 + max (ref_get_height t2) (ref_get_height t3) := by
    have hocc8 : s8.tree.getD (2 * y + 2) (-1) ≠ -1 := by
      show s8.slotVal (2 * y + 2) ≠ -1
      rw [hslot8, hslot7y2]; exact hvyk.2.2
    rw [get_height_occ (by omega) hocc8]
    exact hh8y2
  -- second height update, at the promoted node
  have hylt8 : y < s8.capacity := by omega
  have hocc8y : s8.tree.getD y (-1) ≠ -1 := by
    show s8.slotVal y ≠ -1
    rw [hslot8, hslot7y]; exact hvxk.2.2
  have hh9y : (s8.update_height y).hVal y =
      1 + max (ref_get_height t1) (1 + max (ref_get_height t2) (ref_get_height t3)) := by
    rw [update_height_hVal_occ hsz8 hylt8 hocc8y, hght1s8, hght2s8]
  have href : ref_right_rotate (.node yk (.node xk t1 t2 hx) t3 hy) =
      .node xk t1 (.node yk t2 t3 (1 + max (ref_get_height t2) (ref_get_height t3)))
        (1 + max (ref_get_height t1) (1 + max (ref_get_height t2) (ref_get_height t3))) := rfl
  rw [href]
  have hslot9 : ∀ j, (s8.update_height y).slotVal j = s8.slotVal j :=
    update_height_slotVal _ _
  have hh9 : ∀ j, j ≠ y → (s8.update_height y).hVal j = s8.hVal j :=
    fun j hj => update_height_hVal_other _ hj
  refine ⟨update_height_sized hsz8 y, ?_, ⟨?_, ?_, ?_, ?_⟩, ?_⟩
  · have h9 : (s8.update_height y).capacity = s8.capacity := update_height_capacity _ _
    have h4 : s4.capacity = s3.capacity := rfl
    omega
  · rw [hslot9, hslot8]
    exact hslot7y
  · exact hh9y
  · -- T1 stays under the left child of the promoted root
    refine Represents_congr _ _ (fun j hj => ?_) hrep1s8
    have hjy : j ≠ y := fun he => not_isAnc_of_lt (by omega) (he ▸ hj)
    exact ⟨hslot9 j, hh9 j hjy⟩
  · -- the demoted node and its two subtrees
    refine ⟨?_, ?_, ?_, ?_⟩
    · rw [hslot9, hslot8]
      exact hslot7y2
    · rw [hh9 _ (by omega), hh8y2]
    · refine Represents_congr _ _ (fun j hj => ?_) hrep7
      have hjy : j ≠ y := fun he => not_isAnc_of_lt (by omega) (he ▸ hj)
      have hjy2 : j ≠ 2 * y + 2 := fun he => not_isAnc_of_lt (by omega) (he ▸ hj)
      rw [hslot9 j, hslot8 j, hh9 j hjy, hh8 j hjy2]
      exact ⟨rfl, rfl⟩
    · refine Represents_congr _ _ (fun j hj => ?_) hrep6s7
      have hjy : j ≠ y := fun he => not_isAnc_of_lt (by omega) (he ▸ hj)
      have hjy2 : j ≠ 2 * y + 2 := fun he => not_isAnc_of_lt (by omega) (he ▸ hj)
      rw [hslot9 j, hslot8 j, hh9 j hjy, hh8 j hjy2]
      exact ⟨rfl, rfl⟩
  · -- frame: nothing outside the region of y moves
    intro j hj
    have hjy : j ≠ y := fun he => hj (he ▸ isAnc_refl y)
    have hn1 : ¬ isAnc (2 * y + 1) j := fun hc =>
      hj ((isAnc_decomp j).2 (Or.inr (Or.inl hc)))
    have hn2 : ¬ isAnc (2 * y + 2) j := fun hc =>
      hj ((isAnc_decomp j).2 (Or.inr (Or.inr hc)))
    have hjy2 : j ≠ 2 * y + 2 := fun he => hn2 (he ▸ isAnc_refl (2 * y + 2))
    have hn6 : ¬ isAnc (2 * (2 * y + 2) + 2) j := fun hc => hn2 (isAnc_trans _ hanc6 hc)
    have hn7 : ¬ isAnc (2 * (2 * y + 2) + 1) j := fun hc => hn2 (isAnc_trans _ hanc7 hc)
    constructor
    · rw [hslot9 j, hslot8 j, (hfr7 j hn7).1, (hfr6 j hn6).1, (hfr5 j hn1).1,
        hslot4 j hjy2, hslot3 j, hslot2 j hjy]
      exact (hfr1 j hj).1
    · rw [hh9 j hjy, hh8 j hjy2, (hfr7 j hn7).2, (hfr6 j hn6).2, (hfr5 j hn1).2, hh4 j, hh3 j,
        hh2 j]
      exact (hfr1 j hj).2

theorem left_rotate_spec {s : AVLTreeArray} {x : Nat} {yk xk hx hy : Int} {t1 t2 t3 : Node}
    (hs : s.Sized)
    (hrep : Represents s x (.node xk t1 (.node yk t2 t3 hy) hx))
    (hv : ValidT (.node xk t1 (.node yk t2 t3 hy) hx)) :
    (s.left_rotate x).Sized ∧ s.capacity ≤ (s.left_rotate x).capacity ∧
    Represents (s.left_rotate x) x (ref_left_rotate (.node xk t1 (.node yk t2 t3 hy) hx)) ∧
    (∀ j, ¬ isAnc x j → (s.left_rotate x).slotVal j = s.slotVal j ∧
      (s.left_rotate x).hVal j = s.hVal j) := by
  obtain ⟨hkx, hhx, hrept1, hrepy⟩ := hrep
  obtain ⟨hky, hhy, hrept2, hrept3⟩ := hrepy
  have hv2 : ValidKey xk ∧ ValidT t1 ∧ (ValidKey yk ∧ ValidT t2 ∧ ValidT t3) := hv
  obtain ⟨hvxk, hvt1, ⟨hvyk, hvt2, hvt3⟩⟩ := hv2
  have hgx : s.tree.getD x (-1) = xk := hkx
  have hgy : s.tree.getD (2 * x + 2) (-1) = yk := hky
  have hxlt : x < s.capacity := slotVal_lt_capacity hs (by
    show s.tree.getD x (-1) ≠ -1
    rw [hgx]; exact hvxk.2.2)
  have hbufA : s.extract_subtree_data (2 * x + 1) 0 = encodeRecords t1 0 :=
    extract_spec t1 s _ 0 hs hrept1 hvt1
  have hbufT2 : s.extract_subtree_data (2 * (2 * x + 2) + 1) 0 = encodeRecords t2 0 :=
    extract_spec t2 s _ 0 hs hrept2 hvt2
  have hbufC : s.extract_subtree_data (2 * (2 * x + 2) + 2) 0 = encodeRecords t3 0 :=
    extract_spec t3 s _ 0 hs hrept3 hvt3
  rw [left_rotate_eq]
  simp only [hgx, hgy, hbufA, hbufT2, hbufC]
  obtain ⟨hc1, hsz1, hclr1, hfr1⟩ := clear_subtree_spec (.node xk t1 (.node yk t2 t3 hy) hx)
    s x hs ⟨hkx, hhx, hrept1, ⟨hky, hhy, hrept2, hrept3⟩⟩ hv
  set s1 := s.clear_subtree x with hs1def
  set s2 := AVLTreeArray.mk s1.capacity (s1.tree.set x yk) s1.heights with hs2def
  have hc2 : s2.capacity = s1.capacity := rfl
  have hsz2 : s2.Sized := by
    refine ⟨?_, ?_⟩
    · show (s1.tree.set x yk).length = s1.capacity
      simp [hsz1.1]
    · exact hsz1.2
  have hslot2x : s2.slotVal x = yk := by
    show (s1.tree.set x yk).getD x (-1) = yk
    exact getD_set_self _ _ _ _ (by rw [hsz1.1, hc1]; omega)
  have hslot2 : ∀ j, j ≠ x → s2.slotVal j = s1.slotVal j := by
    intro j hj
    show (s1.tree.set x yk).getD j (-1) = s1.tree.getD j (-1)
    exact getD_set_other _ _ _ (fun he => hj he.symm)
  have hh2 : ∀ j, s2.hVal j = s1.hVal j := fun j => rfl
  set s3 := s2.resize (2 * x + 1) with hs3def
  have hsz3 : s3.Sized := resize_sized hsz2 _
  have hslot3 : ∀ j, s3.slotVal j = s2.slotVal j := resize_slotVal hsz2 _
  have hh3 : ∀ j, s3.hVal j = s2.hVal j := resize_hVal hsz2 _
  have hcap3 : s2.capacity ≤ s3.capacity := resize_capacity_le _ _
  have hlt3 : 2 * x + 1 < s3.capacity := resize_lt_capacity _ _
  set s4 := AVLTreeArray.mk s3.capacity (s3.tree.set (2 * x + 1) xk) s3.heights with hs4def
  have hc4 : s4.capacity = s3.capacity := rfl
  have hsz4 : s4.Sized := by
    refine ⟨?_, ?_⟩
    · show (s3.tree.set (2 * x + 1) xk).length = s3.capacity
      simp [hsz3.1]
    · exact hsz3.2
  have hslot4x1 : s4.slotVal (2 * x + 1) = xk := by
    show (s3.tree.set (2 * x + 1) xk).getD (2 * x + 1) (-1) = xk
    exact getD_set_self _ _ _ _ (by rw [hsz3.1]; omega)
  have hslot4 : ∀ j, j ≠ 2 * x + 1 → s4.slotVal j = s3.slotVal j := by
    intro j hj
    show (s3.tree.set (2 * x + 1) xk).getD j (-1) = s3.tree.getD j (-1)
    exact getD_set_other _ _ _ (fun he => hj he.symm)
  have hh4 : ∀ j, s4.hVal j = s3.hVal j := fun j => rfl
  -- write T3 below the right child of the promoted root
  have hclear5 : ∀ j, isAnc (2 * x + 2) j → s4.slotVal j = -1 := by
    intro j hj
    have hjle : 2 * x + 2 ≤ j := isAnc_le _ hj
    rw [hslot4 j (by omega), hslot3 j, hslot2 j (by omega)]
    exact hclr1 j (isAnc_trans _ (isAnc_right _ _ (isAnc_refl x)) hj)
  obtain ⟨hsz5, hcap5, hrep5, hfr5⟩ := write_subtree_data_spec0 t3 s4 (2 * x + 2) hsz4 hclear5
  set s5 := s4.write_subtree_data (2 * x + 2) (encodeRecords t3 0) with hs5def
  -- write T1 below the demoted node
  have hanc6 : isAnc (2 * x + 1) (2 * (2 * x + 1) + 1) := isAnc_left _ _ (isAnc_refl _)
  have hclear6 : ∀ j, isAnc (2 * (2 * x + 1) + 1) j → s5.slotVal j = -1 := by
    intro j hj
    have hj1 : isAnc (2 * x + 1) j := isAnc_trans _ hanc6 hj
    have hjle : 2 * (2 * x + 1) + 1 ≤ j := isAnc_le _ hj
    have hn2 : ¬ isAnc (2 * x + 2) j := fun hc => isAnc_sibling _ hj1 hc
    rw [(hfr5 j hn2).1, hslot4 j (by omega), hslot3 j, hslot2 j (by omega)]
    exact hclr1 j (isAnc_trans _ (isAnc_left _ _ (isAnc_refl x)) hj1)
  obtain ⟨hsz6, hcap6, hrep6, hfr6⟩ :=
    write_subtree_data_spec0 t1 s5 (2 * (2 * x + 1) + 1) hsz5 hclear6
  set s6 := s5.write_subtree_data (2 * (2 * x + 1) + 1) (encodeRecords t1 0) with hs6def
  -- write T2 on the other side of the demoted node
  have hanc7 : isAnc (2 * x + 1) (2 * (2 * x + 1) + 2) := isAnc_right _ _ (isAnc_refl _)
  have hclear7 : ∀ j, isAnc (2 * (2 * x + 1) + 2) j → s6.slotVal j = -1 := by
    intro j hj
    have hj1 : isAnc (2 * x + 1) j := isAnc_trans _ hanc7 hj
    have hjle : 2 * (2 * x + 1) + 2 ≤ j := isAnc_le _ hj
    have hn6 : ¬ isAnc (2 * (2 * x + 1) + 1) j := fun hc => isAnc_sibling _ hc hj
    have hn2 : ¬ isAnc (2 * x + 2) j := fun hc => isAnc_sibling _ hj1 hc
    rw [(hfr6 j hn6).1, (hfr5 j hn2).1, hslot4 j (by omega), hslot3 j, hslot2 j (by omega)]
    exact hclr1 j (isAnc_trans _ (isAnc_left _ _ (isAnc_refl x)) hj1)
  obtain ⟨hsz7, hcap7, hrep7, hfr7⟩ :=
    write_subtree_data_spec0 t2 s6 (2 * (2 * x + 1) + 2) hsz6 hclear7
  set s7 := s6.write_subtree_data (2 * (2 * x + 1) + 2) (encodeRecords t2 0) with hs7def
  -- transported representations and slot values at s7
  have hrep6s7 : Represents s7 (2 * (2 * x + 1) + 1) t1 :=
    Represents_congr _ _ (fun j hj => hfr7 j (fun hc => isAnc_sibling _ hj hc)) hrep6
  have hrep5s7 : Represents s7 (2 * x + 2) t3 := by
    refine Represents_congr _ _ (fun j hj => ?_) hrep5
    have hn6 : ¬ isAnc (2 * (2 * x + 1) + 1) j :=
      fun hc => isAnc_sibling_descendant_left hanc6 hj hc
    have hn7 : ¬ isAnc (2 * (2 * x + 1) + 2) j :=
      fun hc => isAnc_sibling_descendant_left hanc7 hj hc
    rw [(hfr7 j hn7).1, (hfr7 j hn7).2, (hfr6 j hn6).1, (hfr6 j hn6).2]
    exact ⟨rfl, rfl⟩
  have hslot7x1 : s7.slotVal (2 * x + 1) = xk := by
    rw [(hfr7 (2 * x + 1) (not_isAnc_of_lt (by omega))).1,
      (hfr6 (2 * x + 1) (not_isAnc_of_lt (by omega))).1,
      (hfr5 (2 * x + 1) (not_isAnc_of_lt (by omega))).1]
    exact hslot4x1
  have hslot7x : s7.slotVal x = yk := by
    rw [(hfr7 x (not_isAnc_of_lt (by omega))).1, (hfr6 x (not_isAnc_of_lt (by omega))).1,
      (hfr5 x (not_isAnc_of_lt (by omega))).1, hslot4 x (by omega), hslot3 x]
    exact hslot2x
  -- first height update, at the demoted node
  set s8 := s7.update_height (2 * x + 1) with hs8def
  have hsz8 : s8.Sized := update_height_sized hsz7 _
  have hc8 : s8.capacity = s7.capacity := update_height_capacity _ _
  have hlt7 : 2 * x + 1 < s7.capacity := by
    have h4 : s4.capacity = s3.capacity := rfl
    omega
  have hght1 : s7.get_height (2 * (2 * x + 1) + 1) = ref_get_height t1 :=
    get_height_rep hsz7 hrep6s7 hvt1
  have hght2 : s7.get_height (2 * (2 * x + 1) + 2) = ref_get_height t2 :=
    get_height_rep hsz7 hrep7 hvt2
  have hocc7x1 : s7.tree.getD (2 * x + 1) (-1) ≠ -1 := by
    show s7.slotVal (2 * x + 1) ≠ -1
    rw [hslot7x1]; exact hvxk.2.2
  have hh8x1 : s8.hVal (2 * x + 1) =
      1 + max (ref_get_height t1) (ref_get_height t2) := by
    rw [hs8def, update_height_hVal_occ hsz7 hlt7 hocc7x1, hght1, hght2]
  have hslot8 : ∀ j, s8.slotVal j = s7.slotVal j := update_height_slotVal _ _
  have hh8 : ∀ j, j ≠ 2 * x + 1 → s8.hVal j = s7.hVal j :=
    fun j hj => update_height_hVal_other _ hj
  have hrep3s8 : Represents s8 (2 * x + 2) t3 := by
    refine Represents_congr _ _ (fun j hj => ?_) hrep5s7
    have hjne : j ≠ 2 * x + 1 := fun he => not_isAnc_of_lt (by omega) (he ▸ hj)
    exact ⟨hslot8 j, hh8 j hjne⟩
  have hght3s8 : s8.get_height (2 * x + 2) = ref_get_height t3 :=
    get_height_rep hsz8 hrep3s8 hvt3
  have hght1s8 : s8.get_height (2 * x + 1) =
      1 + max (ref_get_height t1) (ref_get_height t2) := by
    have hocc8 : s8.tree.getD (2 * x + 1) (-1) ≠ -1 := by
      show s8.slotVal (2 * x + 1) ≠ -1
      rw [hslot8, hslot7x1]; exact hvxk.2.2
    rw [get_height_occ (by omega) hocc8]
    exact hh8x1
  -- second height update, at the promoted node
  have hxlt8 : x < s8.capacity := by omega
  have hocc8x : s8.tree.getD x (-1) ≠ -1 := by
    show s8.slotVal x ≠ -1
    rw [hslot8, hslot7x]; exact hvyk.2.2
  have hh9x : (s8.update_height x).hVal x =
      1 + max (1 + max (ref_get_height t1) (ref_get_height t2)) (ref_get_height t3) := by
    rw [update_height_hVal_occ hsz8 hxlt8 hocc8x, hght1s8, hght3s8]
  have href : ref_left_rotate (.node xk t1 (.node yk t2 t3 hy) hx) =
      .node yk (.node xk t1 t2 (1 + max (ref_get_height t1) (ref_get_height t2))) t3
        (1 + max (1 + max (ref_get_height t1) (ref_get_height t2)) (ref_get_height t3)) := rfl
  rw [href]
  have hslot9 : ∀ j, (s8.update_height x).slotVal j = s8.slotVal j :=
    update_height_slotVal _ _
  have hh9 : ∀ j, j ≠ x → (s8.update_height x).hVal j = s8.hVal j :=
    fun j hj => update_height_hVal_other _ hj
  refine ⟨update_height_sized hsz8 x, ?_, ⟨?_, ?_, ?_, ?_⟩, ?_⟩
  · have h9 : (s8.update_height x).capacity = s8.capacity := update_height_capacity _ _
    have h4 : s4.capacity = s3.capacity := rfl
    omega
  · rw [hslot9, hslot8]
    exact hslot7x
  · exact hh9x
  · -- the demoted node and its two subtrees
    refine ⟨?_, ?_, ?_, ?_⟩
    · rw [hslot9, hslot8]
      exact hslot7x1
    · rw [hh9 _ (by omega), hh8x1]
    · refine Represents_congr _ _ (fun j hj => ?_) hrep6s7
      have hjx : j ≠ x := fun he => not_isAnc_of_lt (by omega) (he ▸ hj)
      have hjx1 : j ≠ 2 * x + 1 := fun he => not_isAnc_of_lt (by omega) (he ▸ hj)
      rw [hslot9 j, hslot8 j, hh9 j hjx, hh8 j hjx1]
      exact ⟨rfl, rfl⟩
    · refine Represents_congr _ _ (fun j hj => ?_) hrep7
      have hjx : j ≠ x := fun he => not_isAnc_of_lt (by omega) (he ▸ hj)
      have hjx1 : j ≠ 2 * x + 1 := fun he => not_isAnc_of_lt (by omega) (he ▸ hj)
      rw [hslot9 j, hslot8 j, hh9 j hjx, hh8 j hjx1]
      exact ⟨rfl, rfl⟩
  · -- T3 stays under the right child of the promoted root
    refine Represents_congr _ _ (fun j hj => ?_) hrep3s8
    have hjx : j ≠ x := fun he => not_isAnc_of_lt (by omega) (he ▸ hj)
    exact ⟨hslot9 j, hh9 j hjx⟩
  · -- frame: nothing outside the region of x moves
    intro j hj
    have hjx : j ≠ x := fun he => hj (he ▸ isAnc_refl x)
    have hn1 : ¬ isAnc (2 * x + 1) j := fun hc =>
      hj ((isAnc_decomp j).2 (Or.inr (Or.inl hc)))
    have hn2 : ¬ isAnc (2 * x + 2) j := fun hc =>
      hj ((isAnc_decomp j).2 (Or.inr (Or.inr hc)))
    have hjx1 : j ≠ 2 * x + 1 := fun he => hn1 (he ▸ isAnc_refl (2 * x + 1))
    have hn6 : ¬ isAnc (2 * (2 * x + 1) + 1) j := fun hc => hn1 (isAnc_trans _ hanc6 hc)
    have hn7 : ¬ isAnc (2 * (2 * x + 1) + 2) j := fun hc => hn1 (isAnc_trans _ hanc7 hc)
    constructor
    · rw [hslot9 j, hslot8 j, (hfr7 j hn7).1, (hfr6 j hn6).1, (hfr5 j hn2).1,
        hslot4 j hjx1, hslot3 j, hslot2 j hjx]
      exact (hfr1 j hj).1
    · rw [hh9 j hjx, hh8 j hjx1, (hfr7 j hn7).2, (hfr6 j hn6).2, (hfr5 j hn2).2, hh4 j, hh3 j,
        hh2 j]
      exact (hfr1 j hj).2

/-! ## Key-set bookkeeping for the reference algorithm -/

theorem heightR_nonneg : ∀ t : Node, 0 ≤ heightR t := by
  intro t
  induction t with
  | nil => exact le_refl 0
  | node k l r h ihl ihr =>
    show 0 ≤ 1 + max (heightR l) (heightR r)
    rcases max_cases (heightR l) (heightR r) with ⟨hm, _⟩ | ⟨hm, _⟩ <;> omega

theorem heightR_nil_iff (t : Node) : heightR t = 0 ↔ t = .nil := by
  cases t with
  | nil => simp [heightR]
  | node k l r h =>
    simp only [heightR]
    have h1 := heightR_nonneg l
    have h2 := heightR_nonneg r
    constructor
    · intro hc
      exfalso
      rcases max_cases (heightR l) (heightR r) with ⟨hm, _⟩ | ⟨hm, _⟩ <;> omega
    · intro hc
      exact absurd hc (by simp)

theorem heightR_pos_node {t : Node} (h : 0 < heightR t) : t ≠ .nil := by
  intro hc
  rw [hc] at h
  exact absurd h (by simp [heightR])

theorem ht_cached : ∀ {t : Node}, HtOK t → ref_get_height t = heightR t := by
  intro t h
  cases t with
  | nil => rfl
  | node k l r hh => exact h.1

theorem AllKeys_mono {P Q : Int → Prop} (hPQ : ∀ x, P x → Q x) :
    ∀ {t : Node}, AllKeys P t → AllKeys Q t := by
  intro t
  induction t with
  | nil => intro h; trivial
  | node k l r h ihl ihr =>
    intro hall
    exact ⟨hPQ _ hall.1, ihl hall.2.1, ihr hall.2.2⟩

theorem AllKeys_mem {P : Int → Prop} :
    ∀ {t : Node} {x : Int}, AllKeys P t → MemT x t → P x := by
  intro t
  induction t with
  | nil => intro x h hc; exact absurd hc id
  | node k l r h ihl ihr =>
    intro x hall hmem
    rcases hmem with rfl | hm | hm
    · exact hall.1
    · exact ihl hall.2.1 hm
    · exact ihr hall.2.2 hm

theorem AllKeys_update {P : Int → Prop} {t : Node} :
    AllKeys P (ref_update_height t) ↔ AllKeys P t := by
  cases t <;> rfl

theorem AllKeys_rrot {P : Int → Prop} {t : Node} :
    AllKeys P (ref_right_rotate t) ↔ AllKeys P t := by
  rcases t with _ | ⟨yk, _ | ⟨xk, t1, t2, hxx⟩, t3, hyy⟩
  · rfl
  · rfl
  · show AllKeys P
      (ref_update_height (.node xk t1 (ref_update_height (.node yk t2 t3 hyy)) hxx)) ↔ _
    rw [AllKeys_update]
    show P xk ∧ AllKeys P t1 ∧ AllKeys P (ref_update_height (.node yk t2 t3 hyy)) ↔ _
    rw [AllKeys_update]
    show _ ↔ P yk ∧ (P xk ∧ AllKeys P t1 ∧ AllKeys P t2) ∧ AllKeys P t3
    show P xk ∧ AllKeys P t1 ∧ (P yk ∧ AllKeys P t2 ∧ AllKeys P t3) ↔ _
    tauto

theorem AllKeys_lrot {P : Int → Prop} {t : Node} :
    AllKeys P (ref_left_rotate t) ↔ AllKeys P t := by
  rcases t with _ | ⟨xk, t1, _ | ⟨yk, t2, t3, hyy⟩, hxx⟩
  · rfl
  · rfl
  · show AllKeys P
      (ref_update_height (.node yk (ref_update_height (.node xk t1 t2 hxx)) t3 hyy)) ↔ _
    rw [AllKeys_update]
    show P yk ∧ AllKeys P (ref_update_height (.node xk t1 t2 hxx)) ∧ AllKeys P t3 ↔ _
    rw [AllKeys_update]
    show _ ↔ P xk ∧ AllKeys P t1 ∧ (P yk ∧ AllKeys P t2 ∧ AllKeys P t3)
    show P yk ∧ (P xk ∧ AllKeys P t1 ∧ AllKeys P t2) ∧ AllKeys P t3 ↔ _
    tauto

theorem AllKeys_rebalance {P : Int → Prop} {root : Node} {key : Int}
    (h : AllKeys P root) : AllKeys P (ref_rebalance root key) := by
  unfold ref_rebalance
  have h2 : AllKeys P (ref_update_height root) := AllKeys_update.2 h
  rcases hm : ref_update_height root with _ | ⟨k, l, r, hh⟩
  · simp only [hm]
    trivial
  · simp only [hm]
    rw [hm] at h2
    obtain ⟨hk, hl, hr⟩ := h2
    split
    · exact AllKeys_rrot.2 (show AllKeys P (Node.node k l r hh) from ⟨hk, hl, hr⟩)
    · split
      · exact AllKeys_lrot.2 (show AllKeys P (Node.node k l r hh) from ⟨hk, hl, hr⟩)
      · split
        · refine AllKeys_rrot.2 (show AllKeys P
            (Node.node k (ref_left_rotate l) r hh) from ⟨hk, ?_, hr⟩)
          exact AllKeys_lrot.2 hl
        · split
          · refine AllKeys_lrot.2 (show AllKeys P
              (Node.node k l (ref_right_rotate r) hh) from ⟨hk, hl, ?_⟩)
            exact AllKeys_rrot.2 hr
          · exact ⟨hk, hl, hr⟩

theorem AllKeys_insert {P : Int → Prop} {key : Int} :
    ∀ {t : Node}, AllKeys P t → P key → AllKeys P (ref_insert t key) := by
  intro t
  induction t with
  | nil => intro h hP; exact ⟨hP, trivial, trivial⟩
  | node k l r h ihl ihr =>
    intro hall hP
    show AllKeys P (if key < k then _ else if k < key then _ else _)
    split
    · exact AllKeys_rebalance ⟨hall.1, ihl hall.2.1 hP, hall.2.2⟩
    · split
      · exact AllKeys_rebalance ⟨hall.1, hall.2.1, ihr hall.2.2 hP⟩
      · exact hall

theorem MemT_update {x : Int} {t : Node} : MemT x (ref_update_height t) ↔ MemT x t := by
  cases t <;> rfl

theorem MemT_rrot {x : Int} {t : Node} : MemT x (ref_right_rotate t) ↔ MemT x t := by
  rcases t with _ | ⟨yk, _ | ⟨xk, t1, t2, hxx⟩, t3, hyy⟩
  · rfl
  · rfl
  · show MemT x
      (ref_update_height (.node xk t1 (ref_update_height (.node yk t2 t3 hyy)) hxx)) ↔ _
    rw [MemT_update]
    show x = xk ∨ MemT x t1 ∨ MemT x (ref_update_height (.node yk t2 t3 hyy)) ↔ _
    rw [MemT_update]
    show _ ↔ x = yk ∨ (x = xk ∨ MemT x t1 ∨ MemT x t2) ∨ MemT x t3
    show x = xk ∨ MemT x t1 ∨ (x = yk ∨ MemT x t2 ∨ MemT x t3) ↔ _
    tauto

theorem MemT_lrot {x : Int} {t : Node} : MemT x (ref_left_rotate t) ↔ MemT x t := by
  rcases t with _ | ⟨xk, t1, _ | ⟨yk, t2, t3, hyy⟩, hxx⟩
  · rfl
  · rfl
  · show MemT x
      (ref_update_height (.node yk (ref_update_height (.node xk t1 t2 hxx)) t3 hyy)) ↔ _
    rw [MemT_update]
    show x = yk ∨ MemT x (ref_update_height (.node xk t1 t2 hxx)) ∨ MemT x t3 ↔ _
    rw [MemT_update]
    show _ ↔ x = xk ∨ MemT x t1 ∨ (x = yk ∨ MemT x t2 ∨ MemT x t3)
    show x = yk ∨ (x = xk ∨ MemT x t1 ∨ MemT x t2) ∨ MemT x t3 ↔ _
    tauto

theorem MemT_rebalance {x : Int} {root : Node} {key : Int} :
    MemT x (ref_rebalance root key) ↔ MemT x root := by
  unfold ref_rebalance
  rcases hm : ref_update_height root with _ | ⟨k, l, r, hh⟩
  · simp only [hm]
    rcases root with _ | ⟨k2, l2, r2, h2⟩
    · simp [MemT]
    · exact absurd hm (by simp [ref_update_height])
  · simp only [hm]
    have hroot : MemT x root ↔ (x = k ∨ MemT x l ∨ MemT x r) := by
      rw [← MemT_update (t := root), hm]
      rfl
    rw [hroot]
    split
    · rw [MemT_rrot]; rfl
    · split
      · rw [MemT_lrot]; rfl
      · split
        · rw [MemT_rrot]
          show x = k ∨ MemT x (ref_left_rotate l) ∨ MemT x r ↔ _
          rw [MemT_lrot]
        · split
          · rw [MemT_lrot]
            show x = k ∨ MemT x l ∨ MemT x (ref_right_rotate r) ↔ _
            rw [MemT_rrot]
          · rfl

theorem MemT_insert {x key : Int} :
    ∀ {t : Node}, MemT x (ref_insert t key) ↔ (x = key ∨ MemT x t) := by
  intro t
  induction t with
  | nil =>
    show x = key ∨ False ∨ False ↔ x = key ∨ False
    tauto
  | node k l r h ihl ihr =>
    show MemT x (if key < k then _ else if k < key then _ else _) ↔ _
    split
    · rw [MemT_rebalance]
      show x = k ∨ MemT x (ref_insert l key) ∨ MemT x r ↔ _
      rw [ihl]
      show _ ↔ x = key ∨ (x = k ∨ MemT x l ∨ MemT x r)
      tauto
    · rename_i hnlt
      split
      · rw [MemT_rebalance]
        show x = k ∨ MemT x l ∨ MemT x (ref_insert r key) ↔ _
        rw [ihr]
        show _ ↔ x = key ∨ (x = k ∨ MemT x l ∨ MemT x r)
        tauto
      · rename_i hngt
        have hkey : key = k := by omega
        show x = k ∨ MemT x l ∨ MemT x r ↔ x = key ∨ (x = k ∨ MemT x l ∨ MemT x r)
        subst hkey
        tauto

theorem ref_get_height_node (a : Int) (b c : Node) (d : Int) :
    ref_get_height (.node a b c d) = d := rfl

/-! ## The rebalancing step of the reference insert, after a left descent -/

theorem rebalance_left_spec {k key : Int} {l' r : Node} (h0 : Int)
    (hbl : AllKeys (fun z => z < k) l') (hbr : AllKeys (fun z => k < z) r)
    (hBl : BST l') (hBr : BST r) (hal : BalancedT l') (har : BalancedT r)
    (hHl : HtOK l') (hHr : HtOK r) (hvl : ValidT l') (hvr : ValidT r) (hvk : ValidKey k)
    (hlow : heightR r - 1 ≤ heightR l') (hhigh : heightR l' ≤ heightR r + 2)
    (hshape : heightR l' = heightR r + 2 →
      ((key < l'.keyOf ∧ balanceR l' = 1) ∨ (l'.keyOf < key ∧ balanceR l' = -1))) :
    AVLT (ref_rebalance (.node k l' r h0) key) ∧
    ref_rebalance (.node k l' r h0) key ≠ .nil ∧
    (heightR l' ≤ heightR r + 1 →
      ref_rebalance (.node k l' r h0) key =
        .node k l' r (1 + max (heightR l') (heightR r))) ∧
    (heightR l' = heightR r + 2 →
      heightR (ref_rebalance (.node k l' r h0) key) = heightR r + 2) := by
  have hgl : ref_get_height l' = heightR l' := ht_cached hHl
  have hgr : ref_get_height r = heightR r := ht_cached hHr
  have hrnn : 0 ≤ heightR r := heightR_nonneg r
  have hrebeq : ref_rebalance (.node k l' r h0) key =
      (if 1 < heightR l' - heightR r ∧ key < l'.keyOf then
        ref_right_rotate (.node k l' r (1 + max (heightR l') (heightR r)))
      else if heightR l' - heightR r < -1 ∧ r.keyOf < key then
        ref_left_rotate (.node k l' r (1 + max (heightR l') (heightR r)))
      else if 1 < heightR l' - heightR r ∧ l'.keyOf < key then
        ref_right_rotate (.node k (ref_left_rotate l') r (1 + max (heightR l') (heightR r)))
      else if heightR l' - heightR r < -1 ∧ key < r.keyOf then
        ref_left_rotate (.node k l' (ref_right_rotate r) (1 + max (heightR l') (heightR r)))
      else .node k l' r (1 + max (heightR l') (heightR r))) := by
    unfold ref_rebalance
    simp only [ref_update_height, ref_get_balance, hgl, hgr]
  rw [hrebeq]
  by_cases hb : heightR l' ≤ heightR r + 1
  · -- no rotation fires
    rw [if_neg (fun hc => by omega), if_neg (fun hc => by omega),
      if_neg (fun hc => by omega), if_neg (fun hc => by omega)]
    refine ⟨⟨⟨hbl, hbr, hBl, hBr⟩, ⟨⟨by omega, by omega⟩, hal, har⟩,
      ⟨rfl, hHl, hHr⟩, ⟨hvk, hvl, hvr⟩⟩, by simp, fun _ => rfl, fun hc => by omega⟩
  · -- a rotation fires: the left subtree is exactly two higher
    have hex : heightR l' = heightR r + 2 := by omega
    have hlpos : 0 < heightR l' := by omega
    rcases l' with _ | ⟨lk, ll, lr, lh⟩
    · exact absurd rfl (heightR_pos_node hlpos)
    obtain ⟨hlh, hHll, hHlr⟩ := hHl
    obtain ⟨hblk, hbll, hblr⟩ := hbl
    obtain ⟨hllk, hlrk, hBll, hBlr⟩ := hBl
    obtain ⟨⟨hbal1, hbal2⟩, hall, halr⟩ := hal
    obtain ⟨hvlk, hvll, hvlr⟩ := hvl
    have hmax : 1 + max (heightR ll) (heightR lr) = heightR r + 2 := hex
    have hllnn := heightR_nonneg ll
    have hlrnn := heightR_nonneg lr
    rcases hshape hex with ⟨hklt, hbal⟩ | ⟨hkgt, hbal⟩
    · -- LL case: single right rotation
      have hbal' : heightR ll - heightR lr = 1 := hbal
      have hhll : heightR ll = heightR r + 1 := by
        rcases max_cases (heightR ll) (heightR lr) with ⟨hm, _⟩ | ⟨hm, _⟩ <;> omega
      have hhlr : heightR lr = heightR r := by omega
      rw [if_pos ⟨by omega, hklt⟩]
      have hres : ref_right_rotate (.node k (.node lk ll lr lh) r
          (1 + max (heightR (.node lk ll lr lh)) (heightR r))) =
          .node lk ll (.node k lr r (1 + max (heightR lr) (heightR r)))
            (1 + max (heightR ll) (1 + max (heightR lr) (heightR r))) := by
        show ref_update_height (.node lk ll (ref_update_height (.node k lr r _)) lh) = _
        simp only [ref_update_height, ref_get_height_node, ht_cached hHll, ht_cached hHlr,
          ht_cached hHr]
      rw [hres]
      have hinner : heightR (.node k lr r (1 + max (heightR lr) (heightR r))) =
          heightR r + 1 := by
        show 1 + max (heightR lr) (heightR r) = _
        omega
      refine ⟨⟨?_, ?_, ?_, ?_⟩, by simp, fun hc => by omega, fun _ => ?_⟩
      · -- BST
        refine ⟨hllk, ⟨hblk, AllKeys_mono (fun z hz => by omega) hlrk, AllKeys_mono
          (fun z hz => by omega) hbr⟩, hBll, ⟨hblr, hbr, hBlr, hBr⟩⟩
      · -- balance
       refine ⟨⟨by rw [hinner]; omega, by rw [hinner]; omega⟩, hall,
          ⟨⟨by omega, by omega⟩, halr, har⟩⟩
      · -- cached heights
        refine ⟨?_, hHll, ⟨rfl, hHlr, hHr⟩⟩
        rw [hinner, show (1 : Int) + heightR lr ⊔ heightR r = heightR r + 1 from hinner]
      · -- validity
        exact ⟨hvlk, hvll, ⟨hvk, hvlr, hvr⟩⟩
      · -- resulting height
        show 1 + max (heightR ll) (heightR (.node k lr r (1 + max (heightR lr) (heightR r)))) =
          heightR r + 2
        rw [hinner]
        omega
    · -- LR case: double rotation
      have hbal' : heightR ll - heightR lr = -1 := hbal
      have hhlr : heightR lr = heightR r + 1 := by
        rcases max_cases (heightR ll) (heightR lr) with ⟨hm, _⟩ | ⟨hm, _⟩ <;> omega
      have hhll : heightR ll = heightR r := by omega
      rcases lr with _ | ⟨mk, m1, m2, mh⟩
      · exact absurd rfl (heightR_pos_node (by omega))
      obtain ⟨hmh, hHm1, hHm2⟩ := hHlr
      obtain ⟨hmkgt, hm1gt, hm2gt⟩ := hlrk
      obtain ⟨hm1lt, hm2gt2, hBm1, hBm2⟩ := hBlr
      obtain ⟨⟨hmb1, hmb2⟩, ham1, ham2⟩ := halr
      obtain ⟨hvmk, hvm1, hvm2⟩ := hvlr
      obtain ⟨hmklt, hbm1, hbm2⟩ := hblr
      have hm1nn := heightR_nonneg m1
      have hm2nn := heightR_nonneg m2
      have hmmax : 1 + max (heightR m1) (heightR m2) = heightR r + 1 := hhlr
      have hm1le : heightR m1 ≤ heightR r := by
        rcases max_cases (heightR m1) (heightR m2) with ⟨hm, _⟩ | ⟨hm, _⟩ <;> omega
      have hm2le : heightR m2 ≤ heightR r := by
        rcases max_cases (heightR m1) (heightR m2) with ⟨hm, _⟩ | ⟨hm, _⟩ <;> omega
      have hm1ge : heightR r - 1 ≤ heightR m1 := by
        rcases max_cases (heightR m1) (heightR m2) with ⟨hm, _⟩ | ⟨hm, _⟩ <;> omega
      have hm2ge : heightR r - 1 ≤ heightR m2 := by
        rcases max_cases (heightR m1) (heightR m2) with ⟨hm, _⟩ | ⟨hm, _⟩ <;> omega
      rw [if_neg (fun hc => by
          have := hc.2
          have : ¬ key < (Node.node lk ll (.node mk m1 m2 mh) lh).keyOf := by
            show ¬ key < lk
            omega
          exact this hc.2),
        if_neg (fun hc => by omega), if_pos ⟨by omega, hkgt⟩]
      have hlrot : ref_left_rotate (.node lk ll (.node mk m1 m2 mh) lh) =
          .node mk (.node lk ll m1 (1 + max (heightR ll) (heightR m1))) m2
            (1 + max (1 + max (heightR ll) (heightR m1)) (heightR m2)) := by
        show ref_update_height (.node mk (ref_update_height (.node lk ll m1 lh)) m2 mh) = _
        simp only [ref_update_height, ref_get_height_node, ht_cached hHll, ht_cached hHm1,
          ht_cached hHm2]
      rw [hlrot]
      have hrrot : ref_right_rotate (.node k
          (.node mk (.node lk ll m1 (1 + max (heightR ll) (heightR m1))) m2
            (1 + max (1 + max (heightR ll) (heightR m1)) (heightR m2))) r
          (1 + max (heightR (.node lk ll (.node mk m1 m2 mh) lh)) (heightR r))) =
          .node mk (.node lk ll m1 (1 + max (heightR ll) (heightR m1)))
            (.node k m2 r (1 + max (heightR m2) (heightR r)))
            (1 + max (1 + max (heightR ll) (heightR m1))
              (1 + max (heightR m2) (heightR r))) := by
        show ref_update_height (.node mk (.node lk ll m1 (1 + max (heightR ll) (heightR m1)))
          (ref_update_height (.node k m2 r
            (1 + max (heightR (.node lk ll (.node mk m1 m2 mh) lh)) (heightR r))))
          (1 + max (1 + max (heightR ll) (heightR m1)) (heightR m2))) = _
        simp only [ref_update_height, ref_get_height_node, ht_cached hHm2, ht_cached hHr]
      rw [hrrot]
      have hA : heightR (.node lk ll m1 (1 + max (heightR ll) (heightR m1))) =
          heightR r + 1 := by
        show 1 + max (heightR ll) (heightR m1) = _
        omega
      have hB : heightR (.node k m2 r (1 + max (heightR m2) (heightR r))) =
          heightR r + 1 := by
        show 1 + max (heightR m2) (heightR r) = _
        omega
      refine ⟨⟨?_, ?_, ?_, ?_⟩, by simp, fun hc => by omega, fun _ => ?_⟩
      · -- BST
        refine ⟨⟨by omega, AllKeys_mono (fun z hz => by omega) hllk, hm1lt⟩,
          ⟨by omega, AllKeys_mono (fun z hz => by omega) hm2gt2,
            AllKeys_mono (fun z hz => by omega) hbr⟩,
          ⟨hllk, AllKeys_mono (fun z hz => by omega) hm1gt, hBll, hBm1⟩,
          ⟨hbm2, hbr, hBm2, hBr⟩⟩
      · -- balance
        refine ⟨⟨by rw [hA, hB]; omega, by rw [hA, hB]; omega⟩,
          ⟨⟨by omega, by omega⟩, hall, ham1⟩, ⟨⟨by omega, by omega⟩, ham2, har⟩⟩
      · -- cached heights
        refine ⟨?_, ⟨rfl, hHll, hHm1⟩, ⟨rfl, hHm2, hHr⟩⟩
        rw [hA, hB, show (1 : Int) + heightR ll ⊔ heightR m1 = heightR r + 1 from hA,
          show (1 : Int) + heightR m2 ⊔ heightR r = heightR r + 1 from hB]
      · -- validity
        exact ⟨hvmk, ⟨hvlk, hvll, hvm1⟩, ⟨hvk, hvm2, hvr⟩⟩
      · -- resulting height
        show 1 + max (heightR (.node lk ll m1 _)) (heightR (.node k m2 r _)) = heightR r + 2
        rw [hA, hB]
        omega

/-! ## The rebalancing step of the reference insert, after a right descent -/

theorem rebalance_right_spec {k key : Int} {l r' : Node} (h0 : Int)
    (hbl : AllKeys (fun z => z < k) l) (hbr : AllKeys (fun z => k < z) r')
    (hBl : BST l) (hBr : BST r') (hal : BalancedT l) (har : BalancedT r')
    (hHl : HtOK l) (hHr : HtOK r') (hvl : ValidT l) (hvr : ValidT r') (hvk : ValidKey k)
    (hlow : heightR l - 1 ≤ heightR r') (hhigh : heightR r' ≤ heightR l + 2)
    (hshape : heightR r' = heightR l + 2 →
      ((key < r'.keyOf ∧ balanceR r' = 1) ∨ (r'.keyOf < key ∧ balanceR r' = -1))) :
    AVLT (ref_rebalance (.node k l r' h0) key) ∧
    ref_rebalance (.node k l r' h0) key ≠ .nil ∧
    (heightR r' ≤ heightR l + 1 →
      ref_rebalance (.node k l r' h0) key =
        .node k l r' (1 + max (heightR l) (heightR r'))) ∧
    (heightR r' = heightR l + 2 →
      heightR (ref_rebalance (.node k l r' h0) key) = heightR l + 2) := by
  have hgl : ref_get_height l = heightR l := ht_cached hHl
  have hgr : ref_get_height r' = heightR r' := ht_cached hHr
  have hlnn : 0 ≤ heightR l := heightR_nonneg l
  have hrebeq : ref_rebalance (.node k l r' h0) key =
      (if 1 < heightR l - heightR r' ∧ key < l.keyOf then
        ref_right_rotate (.node k l r' (1 + max (heightR l) (heightR r')))
      else if heightR l - heightR r' < -1 ∧ r'.keyOf < key then
        ref_left_rotate (.node k l r' (1 + max (heightR l) (heightR r')))
      else if 1 < heightR l - heightR r' ∧ l.keyOf < key then
        ref_right_rotate (.node k (ref_left_rotate l) r' (1 + max (heightR l) (heightR r')))
      else if heightR l - heightR r' < -1 ∧ key < r'.keyOf then
        ref_left_rotate (.node k l (ref_right_rotate r') (1 + max (heightR l) (heightR r')))
      else .node k l r' (1 + max (heightR l) (heightR r'))) := by
    unfold ref_rebalance
    simp only [ref_update_height, ref_get_balance, hgl, hgr]
  rw [hrebeq]
  by_cases hb : heightR r' ≤ heightR l + 1
  · -- no rotation fires
    rw [if_neg (fun hc => by omega), if_neg (fun hc => by omega),
      if_neg (fun hc => by omega), if_neg (fun hc => by omega)]
    refine ⟨⟨⟨hbl, hbr, hBl, hBr⟩, ⟨⟨by omega, by omega⟩, hal, har⟩,
      ⟨rfl, hHl, hHr⟩, ⟨hvk, hvl, hvr⟩⟩, by simp, fun _ => rfl, fun hc => by omega⟩
  · -- a rotation fires: the right subtree is exactly two higher
    have hex : heightR r' = heightR l + 2 := by omega
    have hrpos : 0 < heightR r' := by omega
    rcases r' with _ | ⟨rk, rl, rr, rh⟩
    · exact absurd rfl (heightR_pos_node hrpos)
    obtain ⟨hrh, hHrl, hHrr⟩ := hHr
    obtain ⟨hbrk, hbrl, hbrr⟩ := hbr
    obtain ⟨hrlk, hrrk, hBrl, hBrr⟩ := hBr
    obtain ⟨⟨hbal1, hbal2⟩, harl, harr⟩ := har
    obtain ⟨hvrk, hvrl, hvrr⟩ := hvr
    have hmax : 1 + max (heightR rl) (heightR rr) = heightR l + 2 := hex
    have hrlnn := heightR_nonneg rl
    have hrrnn := heightR_nonneg rr
    rcases hshape hex with ⟨hklt, hbal⟩ | ⟨hkgt, hbal⟩
    · -- RL case: double rotation
      have hbal' : heightR rl - heightR rr = 1 := hbal
      have hhrl : heightR rl = heightR l + 1 := by
        rcases max_cases (heightR rl) (heightR rr) with ⟨hm, _⟩ | ⟨hm, _⟩ <;> omega
      have hhrr : heightR rr = heightR l := by omega
      rcases rl with _ | ⟨mk, m1, m2, mh⟩
      · exact absurd rfl (heightR_pos_node (by omega))
      obtain ⟨hmh, hHm1, hHm2⟩ := hHrl
      obtain ⟨hmklt, hm1lt, hm2lt⟩ := hrlk
      obtain ⟨hm1ltm, hm2gtm, hBm1, hBm2⟩ := hBrl
      obtain ⟨⟨hmb1, hmb2⟩, ham1, ham2⟩ := harl
      obtain ⟨hvmk, hvm1, hvm2⟩ := hvrl
      obtain ⟨hmkgt, hbm1, hbm2⟩ := hbrl
      have hm1nn := heightR_nonneg m1
      have hm2nn := heightR_nonneg m2
      have hmmax : 1 + max (heightR m1) (heightR m2) = heightR l + 1 := hhrl
      have hm1le : heightR m1 ≤ heightR l := by
        rcases max_cases (heightR m1) (heightR m2) with ⟨hm, _⟩ | ⟨hm, _⟩ <;> omega
      have hm2le : heightR m2 ≤ heightR l := by
        rcases max_cases (heightR m1) (heightR m2) with ⟨hm, _⟩ | ⟨hm, _⟩ <;> omega
      have hm1ge : heightR l - 1 ≤ heightR m1 := by
        rcases max_cases (heightR m1) (heightR m2) with ⟨hm, _⟩ | ⟨hm, _⟩ <;> omega
      have hm2ge : heightR l - 1 ≤ heightR m2 := by
        rcases max_cases (heightR m1) (heightR m2) with ⟨hm, _⟩ | ⟨hm, _⟩ <;> omega
      rw [if_neg (fun hc => by omega), if_neg (fun hc => by
          have hno : ¬ (Node.node rk (.node mk m1 m2 mh) rr rh).keyOf < key := by
            show ¬ rk < key
            omega
          exact hno hc.2),
        if_neg (fun hc => by omega), if_pos ⟨by omega, hklt⟩]
      have hrrot : ref_right_rotate (.node rk (.node mk m1 m2 mh) rr rh) =
          .node mk m1 (.node rk m2 rr (1 + max (heightR m2) (heightR rr)))
            (1 + max (heightR m1) (1 + max (heightR m2) (heightR rr))) := by
        show ref_update_height (.node mk m1 (ref_update_height (.node rk m2 rr rh)) mh) = _
        simp only [ref_update_height, ref_get_height_node, ht_cached hHm1, ht_cached hHm2,
          ht_cached hHrr]
      rw [hrrot]
      have hlrot : ref_left_rotate (.node k l
          (.node mk m1 (.node rk m2 rr (1 + max (heightR m2) (heightR rr)))
            (1 + max (heightR m1) (1 + max (heightR m2) (heightR rr)))) 
          (1 + max (heightR l) (heightR (.node rk (.node mk m1 m2 mh) rr rh)))) =
          .node mk (.node k l m1 (1 + max (heightR l) (heightR m1)))
            (.node rk m2 rr (1 + max (heightR m2) (heightR rr)))
            (1 + max (1 + max (heightR l) (heightR m1))
              (1 + max (heightR m2) (heightR rr))) := by
        show ref_update_height (.node mk (ref_update_height (.node k l m1
            (1 + max (heightR l) (heightR (.node rk (.node mk m1 m2 mh) rr rh)))))
          (.node rk m2 rr (1 + max (heightR m2) (heightR rr)))
          (1 + max (heightR m1) (1 + max (heightR m2) (heightR rr)))) = _
        simp only [ref_update_height, ref_get_height_node, ht_cached hHm1, ht_cached hHl]
      rw [hlrot]
      have hA : heightR (.node k l m1 (1 + max (heightR l) (heightR m1))) =
          heightR l + 1 := by
        show 1 + max (heightR l) (heightR m1) = _
        omega
      have hB : heightR (.node rk m2 rr (1 + max (heightR m2) (heightR rr))) =
          heightR l + 1 := by
        show 1 + max (heightR m2) (heightR rr) = _
        omega
      refine ⟨⟨?_, ?_, ?_, ?_⟩, by simp, fun hc => by omega, fun _ => ?_⟩
      · -- BST
        refine ⟨⟨by omega, AllKeys_mono (fun z hz => by omega) hbl, hm1ltm⟩,
          ⟨by omega, hm2gtm, AllKeys_mono (fun z hz => by omega) hrrk⟩,
          ⟨hbl, hbm1, hBl, hBm1⟩,
          ⟨hm2lt, hrrk, hBm2, hBrr⟩⟩
      · -- balance
        refine ⟨⟨by rw [hA, hB]; omega, by rw [hA, hB]; omega⟩,
          ⟨⟨by omega, by omega⟩, hal, ham1⟩, ⟨⟨by omega, by omega⟩, ham2, harr⟩⟩
      · -- cached heights
        refine ⟨?_, ⟨rfl, hHl, hHm1⟩, ⟨rfl, hHm2, hHrr⟩⟩
        rw [hA, hB, show (1 : Int) + heightR l ⊔ heightR m1 = heightR l + 1 from hA,
          show (1 : Int) + heightR m2 ⊔ heightR rr = heightR l + 1 from hB]
      · -- validity
        exact ⟨hvmk, ⟨hvk, hvl, hvm1⟩, ⟨hvrk, hvm2, hvrr⟩⟩
      · -- resulting height
        show 1 + max (heightR (.node k l m1 _)) (heightR (.node rk m2 rr _)) = heightR l + 2
        rw [hA, hB]
        omega
    · -- RR case: single left rotation
      have hbal' : heightR rl - heightR rr = -1 := hbal
      have hhrr : heightR rr = heightR l + 1 := by
        rcases max_cases (heightR rl) (heightR rr) with ⟨hm, _⟩ | ⟨hm, _⟩ <;> omega
      have hhrl : heightR rl = heightR l := by omega
      rw [if_neg (fun hc => by omega), if_pos ⟨by omega, hkgt⟩]
      have hres : ref_left_rotate (.node k l (.node rk rl rr rh)
          (1 + max (heightR l) (heightR (.node rk rl rr rh)))) =
          .node rk (.node k l rl (1 + max (heightR l) (heightR rl))) rr
            (1 + max (1 + max (heightR l) (heightR rl)) (heightR rr)) := by
        show ref_update_height (.node rk (ref_update_height (.node k l rl _)) rr rh) = _
        simp only [ref_update_height, ref_get_height_node, ht_cached hHl, ht_cached hHrl,
          ht_cached hHrr]
      rw [hres]
      have hinner : heightR (.node k l rl (1 + max (heightR l) (heightR rl))) =
          heightR l + 1 := by
        show 1 + max (heightR l) (heightR rl) = _
        omega
      refine ⟨⟨?_, ?_, ?_, ?_⟩, by simp, fun hc => by omega, fun _ => ?_⟩
      · -- BST
        refine ⟨⟨by omega, AllKeys_mono (fun z hz => by omega) hbl,
          hrlk⟩, hrrk, ⟨hbl, hbrl, hBl, hBrl⟩, hBrr⟩
      · -- balance
        refine ⟨⟨by rw [hinner]; omega, by rw [hinner]; omega⟩,
          ⟨⟨by omega, by omega⟩, hal, harl⟩, harr⟩
      · -- cached heights
        refine ⟨?_, ⟨rfl, hHl, hHrl⟩, hHrr⟩
        rw [hinner, show (1 : Int) + heightR l ⊔ heightR rl = heightR l + 1 from hinner]
      · -- validity
        exact ⟨hvrk, ⟨hvk, hvl, hvrl⟩, hvrr⟩
      · -- resulting height
        show 1 + max (heightR (.node k l rl _)) (heightR rr) = heightR l + 2
        rw [hinner]
        omega

/-! ## The main properties of the reference insert -/

theorem ref_insert_main : ∀ (t : Node) (key : Int), AVLT t → ValidKey key →
    (AVLT (ref_insert t key) ∧
     heightR t ≤ heightR (ref_insert t key) ∧
     heightR (ref_insert t key) ≤ heightR t + 1 ∧
     (MemT key t → ref_insert t key = t) ∧
     (heightR (ref_insert t key) = heightR t + 1 → 2 ≤ heightR (ref_insert t key) →
       ((key < (ref_insert t key).keyOf ∧ balanceR (ref_insert t key) = 1) ∨
        ((ref_insert t key).keyOf < key ∧ balanceR (ref_insert t key) = -1))) ∧
     ref_insert t key ≠ .nil) := by
  intro t
  induction t with
  | nil =>
    intro key hA hk
    refine ⟨⟨⟨trivial, trivial, trivial, trivial⟩, ⟨⟨by simp [heightR], by simp [heightR]⟩,
      trivial, trivial⟩, ⟨by simp [heightR], trivial, trivial⟩, ⟨hk, trivial, trivial⟩⟩,
      ?_, ?_, ?_, ?_, fun hc => Node.noConfusion hc⟩
    · show heightR .nil ≤ heightR (.node key .nil .nil 1)
      simp [heightR]
    · show heightR (.node key .nil .nil 1) ≤ heightR .nil + 1
      simp [heightR]
    · intro hmem
      exact absurd hmem id
    · intro hg h2
      exfalso
      have h22 : 2 ≤ heightR (.node key .nil .nil 1) := h2
      have h1 : heightR (.node key .nil .nil 1) = 1 := by simp [heightR]
      omega
  | node k l r h ihl ihr =>
    intro key hA hk
    obtain ⟨⟨hbl, hbr, hBl, hBr⟩, ⟨⟨hbal1, hbal2⟩, hall, halr⟩, ⟨hh, hHl, hHr⟩,
      ⟨hvk, hvl, hvr⟩⟩ := hA
    have hlnn := heightR_nonneg l
    have hrnn := heightR_nonneg r
    have hth : heightR (Node.node k l r h) = 1 + max (heightR l) (heightR r) := rfl
    rcases lt_trichotomy key k with hlt | heq | hgt
    · -- descent into the left subtree
      have hins : ref_insert (.node k l r h) key =
          ref_rebalance (.node k (ref_insert l key) r h) key := by
        show (if key < k then _ else if k < key then _ else _) = _
        rw [if_pos hlt]
      obtain ⟨hA', hg1, hg2, hmem', hshape', hne'⟩ := ihl key ⟨hBl, hall, hHl, hvl⟩ hk
      obtain ⟨hBl', hal', hHl', hvl'⟩ := hA'
      have hlnn' := heightR_nonneg (ref_insert l key)
      have hwin1 : heightR r - 1 ≤ heightR (ref_insert l key) := by omega
      have hwin2 : heightR (ref_insert l key) ≤ heightR r + 2 := by omega
      have hshapeL : heightR (ref_insert l key) = heightR r + 2 →
          ((key < (ref_insert l key).keyOf ∧ balanceR (ref_insert l key) = 1) ∨
           ((ref_insert l key).keyOf < key ∧ balanceR (ref_insert l key) = -1)) := by
        intro hx
        exact hshape' (by omega) (by omega)
      obtain ⟨hAres, hneres, hnorot, hrot⟩ := rebalance_left_spec h
        (AllKeys_insert hbl hlt) hbr hBl' hBr hal' halr hHl' hHr hvl' hvr hvk
        hwin1 hwin2 hshapeL
      rw [hins]
      refine ⟨hAres, ?_, ?_, ?_, ?_, hneres⟩
      · by_cases hc : heightR (ref_insert l key) ≤ heightR r + 1
        · rw [hnorot hc]
          show heightR (Node.node k l r h) ≤
            1 + max (heightR (ref_insert l key)) (heightR r)
          rw [hth]
          rcases max_cases (heightR l) (heightR r) with ⟨hm, _⟩ | ⟨hm, _⟩ <;>
            rcases max_cases (heightR (ref_insert l key)) (heightR r) with
              ⟨hm2, _⟩ | ⟨hm2, _⟩ <;> omega
        · rw [hrot (by omega)]
          rcases max_cases (heightR l) (heightR r) with ⟨hm, _⟩ | ⟨hm, _⟩ <;> omega
      · by_cases hc : heightR (ref_insert l key) ≤ heightR r + 1
        · rw [hnorot hc]
          show 1 + max (heightR (ref_insert l key)) (heightR r) ≤
            heightR (Node.node k l r h) + 1
          rw [hth]
          rcases max_cases (heightR l) (heightR r) with ⟨hm, _⟩ | ⟨hm, _⟩ <;>
            rcases max_cases (heightR (ref_insert l key)) (heightR r) with
              ⟨hm2, _⟩ | ⟨hm2, _⟩ <;> omega
        · rw [hrot (by omega)]
          rcases max_cases (heightR l) (heightR r) with ⟨hm, _⟩ | ⟨hm, _⟩ <;> omega
      · intro hmem
        have hmeml : MemT key l := by
          rcases hmem with he | hm | hm
          · omega
          · exact hm
          · exact absurd (AllKeys_mem hbr hm) (by omega)
        have hleq : ref_insert l key = l := hmem' hmeml
        have hcle : heightR (ref_insert l key) ≤ heightR r + 1 := by rw [hleq]; omega
        rw [hnorot hcle, hleq, ← hh]
      · intro hgrow h2
        by_cases hc : heightR (ref_insert l key) ≤ heightR r + 1
        · rw [hnorot hc] at hgrow h2 ⊢
          have hgrow2 : 1 + max (heightR (ref_insert l key)) (heightR r) =
              heightR (Node.node k l r h) + 1 := hgrow
          rw [hth] at hgrow2
          left
          refine ⟨hlt, ?_⟩
          show heightR (ref_insert l key) - heightR r = 1
          rcases max_cases (heightR l) (heightR r) with ⟨hm, _⟩ | ⟨hm, _⟩ <;>
            rcases max_cases (heightR (ref_insert l key)) (heightR r) with
              ⟨hm2, _⟩ | ⟨hm2, _⟩ <;> omega
        · exfalso
          rw [hrot (by omega)] at hgrow
          rw [hth] at hgrow
          rcases max_cases (heightR l) (heightR r) with ⟨hm, _⟩ | ⟨hm, _⟩ <;> omega
    · -- the key is already at this node
      have hins : ref_insert (.node k l r h) key = .node k l r h := by
        show (if key < k then _ else if k < key then _ else _) = _
        rw [if_neg (by omega), if_neg (by omega)]
      rw [hins]
      refine ⟨⟨⟨hbl, hbr, hBl, hBr⟩, ⟨⟨hbal1, hbal2⟩, hall, halr⟩, ⟨hh, hHl, hHr⟩,
        ⟨hvk, hvl, hvr⟩⟩, le_refl _, by omega, fun _ => rfl, ?_, by simp⟩
      intro hg _
      exact absurd hg (by omega)
    · -- descent into the right subtree
      have hins : ref_insert (.node k l r h) key =
          ref_rebalance (.node k l (ref_insert r key) h) key := by
        show (if key < k then _ else if k < key then _ else _) = _
        rw [if_neg (by omega), if_pos hgt]
      obtain ⟨hA', hg1, hg2, hmem', hshape', hne'⟩ := ihr key ⟨hBr, halr, hHr, hvr⟩ hk
      obtain ⟨hBr', har', hHr', hvr'⟩ := hA'
      have hrnn' := heightR_nonneg (ref_insert r key)
      have hwin1 : heightR l - 1 ≤ heightR (ref_insert r key) := by omega
      have hwin2 : heightR (ref_insert r key) ≤ heightR l + 2 := by omega
      have hshapeR : heightR (ref_insert r key) = heightR l + 2 →
          ((key < (ref_insert r key).keyOf ∧ balanceR (ref_insert r key) = 1) ∨
           ((ref_insert r key).keyOf < key ∧ balanceR (ref_insert r key) = -1)) := by
        intro hx
        exact hshape' (by omega) (by omega)
      obtain ⟨hAres, hneres, hnorot, hrot⟩ := rebalance_right_spec h
        hbl (AllKeys_insert hbr hgt) hBl hBr' hall har' hHl hHr' hvl hvr' hvk
        hwin1 hwin2 hshapeR
      rw [hins]
      refine ⟨hAres, ?_, ?_, ?_, ?_, hneres⟩
      · by_cases hc : heightR (ref_insert r key) ≤ heightR l + 1
        · rw [hnorot hc]
          show heightR (Node.node k l r h) ≤
            1 + max (heightR l) (heightR (ref_insert r key))
          rw [hth]
          rcases max_cases (heightR l) (heightR r) with ⟨hm, _⟩ | ⟨hm, _⟩ <;>
            rcases max_cases (heightR l) (heightR (ref_insert r key)) with
              ⟨hm2, _⟩ | ⟨hm2, _⟩ <;> omega
        · rw [hrot (by omega)]
          rcases max_cases (heightR l) (heightR r) with ⟨hm, _⟩ | ⟨hm, _⟩ <;> omega
      · by_cases hc : heightR (ref_insert r key) ≤ heightR l + 1
        · rw [hnorot hc]
          show 1 + max (heightR l) (heightR (ref_insert r key)) ≤
            heightR (Node.node k l r h) + 1
          rw [hth]
          rcases max_cases (heightR l) (heightR r) with ⟨hm, _⟩ | ⟨hm, _⟩ <;>
            rcases max_cases (heightR l) (heightR (ref_insert r key)) with
              ⟨hm2, _⟩ | ⟨hm2, _⟩ <;> omega
        · rw [hrot (by omega)]
          rcases max_cases (heightR l) (heightR r) with ⟨hm, _⟩ | ⟨hm, _⟩ <;> omega
      · intro hmem
        have hmemr : MemT key r := by
          rcases hmem with he | hm | hm
          · omega
          · exact absurd (AllKeys_mem hbl hm) (by omega)
          · exact hm
        have hreq : ref_insert r key = r := hmem' hmemr
        have hcle : heightR (ref_insert r key) ≤ heightR l + 1 := by rw [hreq]; omega
        rw [hnorot hcle, hreq, ← hh]
      · intro hgrow h2
        by_cases hc : heightR (ref_insert r key) ≤ heightR l + 1
        · rw [hnorot hc] at hgrow h2 ⊢
          have hgrow2 : 1 + max (heightR l) (heightR (ref_insert r key)) =
              heightR (Node.node k l r h) + 1 := hgrow
          rw [hth] at hgrow2
          right
          refine ⟨hgt, ?_⟩
          show heightR l - heightR (ref_insert r key) = -1
          rcases max_cases (heightR l) (heightR r) with ⟨hm, _⟩ | ⟨hm, _⟩ <;>
            rcases max_cases (heightR l) (heightR (ref_insert r key)) with
              ⟨hm2, _⟩ | ⟨hm2, _⟩ <;> omega
        · exfalso
          rw [hrot (by omega)] at hgrow
          rw [hth] at hgrow
          rcases max_cases (heightR l) (heightR r) with ⟨hm, _⟩ | ⟨hm, _⟩ <;> omega

/-! ## The unwind of _insert_rec simulates the unwind of the reference insert -/

theorem rebalance_after_sim {s1 : AVLTreeArray} {idx : Nat} {k h key : Int} {l' r : Node}
    (hsz : s1.Sized)
    (hslotk : s1.slotVal idx = k)
    (hrepl : Represents s1 (2 * idx + 1) l') (hrepr : Represents s1 (2 * idx + 2) r)
    (hvl : ValidT l') (hvr : ValidT r) (hvk : ValidKey k)
    (hHl : HtOK l') (hHr : HtOK r)
    (hwin1 : -2 ≤ heightR l' - heightR r) (hwin2 : heightR l' - heightR r ≤ 2)
    (hshapeL : heightR l' = heightR r + 2 →
      ((key < l'.keyOf ∧ balanceR l' = 1) ∨ (l'.keyOf < key ∧ balanceR l' = -1)))
    (hshapeR : heightR r = heightR l' + 2 →
      ((key < r.keyOf ∧ balanceR r = 1) ∨ (r.keyOf < key ∧ balanceR r = -1))) :
    ((s1.rebalance_after idx key).Sized ∧
     s1.capacity ≤ (s1.rebalance_after idx key).capacity ∧
     Represents (s1.rebalance_after idx key) idx (ref_rebalance (.node k l' r h) key) ∧
     (∀ j, ¬ isAnc idx j → (s1.rebalance_after idx key).slotVal j = s1.slotVal j ∧
        (s1.rebalance_after idx key).hVal j = s1.hVal j) ∧
     s1.rebalance_after_chk idx key = some (s1.rebalance_after idx key)) := by
  have hocc : s1.tree.getD idx (-1) ≠ -1 := by
    show s1.slotVal idx ≠ -1
    rw [hslotk]
    exact hvk.2.2
  have hidx : idx < s1.capacity := slotVal_lt_capacity hsz (by rw [hslotk]; exact hvk.2.2)
  set s2 := s1.update_height idx with hs2def
  have hsz2 : s2.Sized := update_height_sized hsz idx
  have hc2 : s2.capacity = s1.capacity := update_height_capacity _ _
  have hslot2 : ∀ j, s2.slotVal j = s1.slotVal j := update_height_slotVal _ _
  have hh2 : ∀ j, j ≠ idx → s2.hVal j = s1.hVal j := fun j hj => update_height_hVal_other _ hj
  have hgh_l : s1.get_height (2 * idx + 1) = heightR l' := by
    rw [get_height_rep hsz hrepl hvl, ht_cached hHl]
  have hgh_r : s1.get_height (2 * idx + 2) = heightR r := by
    rw [get_height_rep hsz hrepr hvr, ht_cached hHr]
  have hH : s2.hVal idx = 1 + max (heightR l') (heightR r) := by
    rw [hs2def, update_height_hVal_occ hsz hidx hocc, hgh_l, hgh_r]
  have hrepl2 : Represents s2 (2 * idx + 1) l' := by
    refine Represents_congr _ _ (fun j hj => ?_) hrepl
    have hjne : j ≠ idx := fun he => not_isAnc_of_lt (by omega) (he ▸ hj)
    exact ⟨hslot2 j, hh2 j hjne⟩
  have hrepr2 : Represents s2 (2 * idx + 2) r := by
    refine Represents_congr _ _ (fun j hj => ?_) hrepr
    have hjne : j ≠ idx := fun he => not_isAnc_of_lt (by omega) (he ▸ hj)
    exact ⟨hslot2 j, hh2 j hjne⟩
  have hslot2k : s2.slotVal idx = k := by rw [hslot2, hslotk]
  have hrep2 : Represents s2 idx (.node k l' r (1 + max (heightR l') (heightR r))) :=
    ⟨hslot2k, hH, hrepl2, hrepr2⟩
  have hgh2_l : s2.get_height (2 * idx + 1) = heightR l' := by
    rw [get_height_rep hsz2 hrepl2 hvl, ht_cached hHl]
  have hgh2_r : s2.get_height (2 * idx + 2) = heightR r := by
    rw [get_height_rep hsz2 hrepr2 hvr, ht_cached hHr]
  have hocc2 : s2.tree.getD idx (-1) ≠ -1 := by
    show s2.slotVal idx ≠ -1
    rw [hslot2k]
    exact hvk.2.2
  have hbal : s2.get_balance idx = heightR l' - heightR r := by
    unfold AVLTreeArray.get_balance
    rw [if_neg (by rw [not_or]; exact ⟨by omega, hocc2⟩), hgh2_l, hgh2_r]
  have hkeyl : s2.tree.getD (2 * idx + 1) (-1) = l'.keyOf := rep_slotVal_keyOf hrepl2
  have hkeyr : s2.tree.getD (2 * idx + 2) (-1) = r.keyOf := rep_slotVal_keyOf hrepr2
  have hrnn := heightR_nonneg r
  have hlnn := heightR_nonneg l'
  have harr : s1.rebalance_after idx key =
      (if 1 < heightR l' - heightR r ∧ key < l'.keyOf then s2.right_rotate idx
       else if heightR l' - heightR r < -1 ∧ r.keyOf < key then s2.left_rotate idx
       else if 1 < heightR l' - heightR r ∧ l'.keyOf < key then
         (s2.left_rotate (2 * idx + 1)).right_rotate idx
       else if heightR l' - heightR r < -1 ∧ key < r.keyOf then
         (s2.right_rotate (2 * idx + 2)).left_rotate idx
       else s2) := by
    unfold AVLTreeArray.rebalance_after
    rw [← hs2def]
    simp only [hbal, hkeyl, hkeyr]
  have hchkeq : s1.rebalance_after_chk idx key =
      (if 1 < heightR l' - heightR r then
        (if 2 * idx + 1 < s2.capacity then
          (if key < l'.keyOf then s2.right_rotate_chk idx
           else if l'.keyOf < key then
             (s2.left_rotate_chk (2 * idx + 1)).bind (fun s3 => s3.right_rotate_chk idx)
           else some s2)
         else none)
      else if heightR l' - heightR r < -1 then
        (if 2 * idx + 2 < s2.capacity then
          (if r.keyOf < key then s2.left_rotate_chk idx
           else if key < r.keyOf then
             (s2.right_rotate_chk (2 * idx + 2)).bind (fun s3 => s3.left_rotate_chk idx)
           else some s2)
         else none)
      else some s2) := by
    unfold AVLTreeArray.rebalance_after_chk
    rw [← hs2def]
    simp only [hbal, hkeyl, hkeyr]
  have hrefeq : ref_rebalance (.node k l' r h) key =
      (if 1 < heightR l' - heightR r ∧ key < l'.keyOf then
        ref_right_rotate (.node k l' r (1 + max (heightR l') (heightR r)))
      else if heightR l' - heightR r < -1 ∧ r.keyOf < key then
        ref_left_rotate (.node k l' r (1 + max (heightR l') (heightR r)))
      else if 1 < heightR l' - heightR r ∧ l'.keyOf < key then
        ref_right_rotate (.node k (ref_left_rotate l') r (1 + max (heightR l') (heightR r)))
      else if heightR l' - heightR r < -1 ∧ key < r.keyOf then
        ref_left_rotate (.node k l' (ref_right_rotate r) (1 + max (heightR l') (heightR r)))
      else .node k l' r (1 + max (heightR l') (heightR r))) := by
    unfold ref_rebalance
    simp only [ref_update_height, ref_get_balance, ht_cached hHl, ht_cached hHr]
  rw [harr, hrefeq, hchkeq]
  by_cases hG1 : 1 < heightR l' - heightR r ∧ key < l'.keyOf
  · -- LL case
    rw [if_pos hG1, if_pos hG1, if_pos hG1.1]
    have hb2 : heightR l' = heightR r + 2 := by omega
    rcases l' with _ | ⟨lk, la, lb, lh2⟩
    · have hb0 : (0 : Int) = heightR r + 2 := hb2
      omega
    obtain ⟨hszR, hcapR, hrepR, hfrR⟩ := right_rotate_spec hsz2 hrep2 ⟨hvk, hvl, hvr⟩
    have hlc : 2 * idx + 1 < s2.capacity := by
      refine slotVal_lt_capacity hsz2 ?_
      rw [show s2.slotVal (2 * idx + 1) = s2.tree.getD (2 * idx + 1) (-1) from rfl, hkeyl]
      exact hvl.1.2.2
    rw [if_pos hlc, if_pos hG1.2]
    refine ⟨hszR, by omega, hrepR, ?_, ?_⟩
    · intro j hj
      have hjne : j ≠ idx := fun he => hj (he ▸ isAnc_refl idx)
      obtain ⟨ha, hb⟩ := hfrR j hj
      rw [ha, hb, hslot2 j, hh2 j hjne]
      exact ⟨rfl, rfl⟩
    · unfold AVLTreeArray.right_rotate_chk
      rw [if_pos ⟨hlc, by omega⟩]
  · rw [if_neg hG1, if_neg hG1]
    by_cases hG2 : heightR l' - heightR r < -1 ∧ r.keyOf < key
    · -- RR case
      rw [if_pos hG2, if_pos hG2, if_neg (by omega), if_pos (by omega)]
      have hb2 : heightR r = heightR l' + 2 := by omega
      rcases r with _ | ⟨rk, ra, rb, rh2⟩
      · have hb0 : (0 : Int) = heightR l' + 2 := hb2
        omega
      obtain ⟨hszR, hcapR, hrepR, hfrR⟩ := left_rotate_spec hsz2 hrep2 ⟨hvk, hvl, hvr⟩
      have hrc : 2 * idx + 2 < s2.capacity := by
        refine slotVal_lt_capacity hsz2 ?_
        rw [show s2.slotVal (2 * idx + 2) = s2.tree.getD (2 * idx + 2) (-1) from rfl, hkeyr]
        exact hvr.1.2.2
      rw [if_pos hrc, if_pos hG2.2]
      refine ⟨hszR, by omega, hrepR, ?_, ?_⟩
      · intro j hj
        have hjne : j ≠ idx := fun he => hj (he ▸ isAnc_refl idx)
        obtain ⟨ha, hb⟩ := hfrR j hj
        rw [ha, hb, hslot2 j, hh2 j hjne]
        exact ⟨rfl, rfl⟩
      · unfold AVLTreeArray.left_rotate_chk
        rw [if_pos ⟨hrc, by omega⟩]
    · rw [if_neg hG2, if_neg hG2]
      by_cases hG3 : 1 < heightR l' - heightR r ∧ l'.keyOf < key
      · -- LR case
        rw [if_pos hG3, if_pos hG3, if_pos hG3.1]
        have hb2 : heightR l' = heightR r + 2 := by omega
        rcases hshapeL hb2 with ⟨hc1, _⟩ | ⟨hc1, hbalm⟩
        · exact absurd hc1 (by omega)
        rcases l' with _ | ⟨lk, la, lb, lh2⟩
        · have hb0 : (0 : Int) = heightR r + 2 := hb2
          omega
        have hbalm2 : heightR la - heightR lb = -1 := hbalm
        have hlbpos : 0 < heightR lb := by
          have h1 : (1 : Int) + max (heightR la) (heightR lb) = heightR r + 2 := hb2
          have h2 := heightR_nonneg la
          have h3 := heightR_nonneg lb
          rcases max_cases (heightR la) (heightR lb) with ⟨hm, _⟩ | ⟨hm, _⟩ <;> omega
        rcases lb with _ | ⟨mk, m1, m2, mh2⟩
        · have hb0 : (0 : Int) < heightR Node.nil := hlbpos
          simp [heightR] at hb0
        -- the inner left rotation at the left child
        obtain ⟨hszL, hcapL, hrepL, hfrL⟩ := left_rotate_spec hsz2 hrepl2 hvl
        have hrep3 : Represents (s2.left_rotate (2 * idx + 1)) idx
            (.node k (ref_left_rotate (.node lk la (.node mk m1 m2 mh2) lh2)) r
              (1 + max (heightR (.node lk la (.node mk m1 m2 mh2) lh2)) (heightR r))) := by
          refine ⟨?_, ?_, hrepL, ?_⟩
          · rw [(hfrL idx (not_isAnc_of_lt (by omega))).1]
            exact hslot2k
          · rw [(hfrL idx (not_isAnc_of_lt (by omega))).2]
            exact hH
          · refine Represents_congr _ _ (fun j hj => ?_) hrepr2
            exact hfrL j (fun hc => isAnc_sibling _ hc hj)
        have hEnode : ref_left_rotate (Node.node lk la (Node.node mk m1 m2 mh2) lh2) =
            Node.node mk (ref_update_height (Node.node lk la m1 lh2)) m2
              (1 + max (ref_get_height (ref_update_height (Node.node lk la m1 lh2)))
                (ref_get_height m2)) := rfl
        rw [hEnode] at hrep3 ⊢
        have hvl3 : ValidT (Node.node mk (ref_update_height (Node.node lk la m1 lh2)) m2
            (1 + max (ref_get_height (ref_update_height (Node.node lk la m1 lh2)))
              (ref_get_height m2))) := by
          rw [← hEnode]
          exact AllKeys_lrot.2 hvl
        obtain ⟨hszR, hcapR, hrepR, hfrR⟩ :=
          right_rotate_spec hszL hrep3 ⟨hvk, hvl3, hvr⟩
        have hlc : 2 * idx + 1 < s2.capacity := by
          refine slotVal_lt_capacity hsz2 ?_
          rw [show s2.slotVal (2 * idx + 1) = s2.tree.getD (2 * idx + 1) (-1) from rfl, hkeyl]
          exact hvl.1.2.2
        rw [if_neg (by omega : ¬ key < (Node.node lk la (Node.node mk m1 m2 mh2) lh2).keyOf),
          if_pos hlc, if_pos hG3.2]
        refine ⟨hszR, by omega, hrepR, ?_, ?_⟩
        · intro j hj
          have hjne : j ≠ idx := fun he => hj (he ▸ isAnc_refl idx)
          have hn1 : ¬ isAnc (2 * idx + 1) j := fun hc =>
            hj ((isAnc_decomp j).2 (Or.inr (Or.inl hc)))
          obtain ⟨ha, hb⟩ := hfrR j hj
          obtain ⟨ha2, hb2⟩ := hfrL j hn1
          rw [ha, hb, ha2, hb2, hslot2 j, hh2 j hjne]
          exact ⟨rfl, rfl⟩
        · unfold AVLTreeArray.left_rotate_chk
          have hmb : 2 * (2 * idx + 1) + 2 < s2.capacity := by
            refine slotVal_lt_capacity hsz2 ?_
            rw [rep_slotVal_keyOf hrepl2.2.2.2]
            exact hvl.2.2.1.2.2
          rw [if_pos ⟨hmb, hlc⟩]
          show (s2.left_rotate (2 * idx + 1)).right_rotate_chk idx =
            some ((s2.left_rotate (2 * idx + 1)).right_rotate idx)
          unfold AVLTreeArray.right_rotate_chk
          rw [if_pos ⟨by omega, by omega⟩]
      · rw [if_neg hG3, if_neg hG3]
        by_cases hG4 : heightR l' - heightR r < -1 ∧ key < r.keyOf
        · -- RL case
          rw [if_pos hG4, if_pos hG4, if_neg (by omega), if_pos (by omega)]
          have hb2 : heightR r = heightR l' + 2 := by omega
          obtain ⟨hc1, hbalm⟩ := (hshapeR hb2).resolve_right (by omega)
          rcases r with _ | ⟨rk, ra, rb, rh2⟩
          · have hb0 : (0 : Int) = heightR l' + 2 := hb2
            omega
          have hbalm2 : heightR ra - heightR rb = 1 := hbalm
          have hrapos : 0 < heightR ra := by
            have h1 : (1 : Int) + max (heightR ra) (heightR rb) = heightR l' + 2 := hb2
            have h2 := heightR_nonneg ra
            have h3 := heightR_nonneg rb
            rcases max_cases (heightR ra) (heightR rb) with ⟨hm, _⟩ | ⟨hm, _⟩ <;> omega
          rcases ra with _ | ⟨mk, m1, m2, mh2⟩
          · have hb0 : (0 : Int) < heightR Node.nil := hrapos
            simp [heightR] at hb0
          -- the inner right rotation at the right child
          obtain ⟨hszL, hcapL, hrepL, hfrL⟩ := right_rotate_spec hsz2 hrepr2 hvr
          have hrep3 : Represents (s2.right_rotate (2 * idx + 2)) idx
              (.node k l' (ref_right_rotate (.node rk (.node mk m1 m2 mh2) rb rh2))
                (1 + max (heightR l')
                  (heightR (.node rk (.node mk m1 m2 mh2) rb rh2)))) := by
            refine ⟨?_, ?_, ?_, hrepL⟩
            · rw [(hfrL idx (not_isAnc_of_lt (by omega))).1]
              exact hslot2k
            · rw [(hfrL idx (not_isAnc_of_lt (by omega))).2]
              exact hH
            · refine Represents_congr _ _ (fun j hj => ?_) hrepl2
              exact hfrL j (fun hc => isAnc_sibling _ hj hc)
          have hEnode : ref_right_rotate (Node.node rk (Node.node mk m1 m2 mh2) rb rh2) =
              Node.node mk m1 (ref_update_height (Node.node rk m2 rb rh2))
                (1 + max (ref_get_height m1)
                  (ref_get_height (ref_update_height (Node.node rk m2 rb rh2)))) := rfl
          rw [hEnode] at hrep3 ⊢
          have hvr3 : ValidT (Node.node mk m1 (ref_update_height (Node.node rk m2 rb rh2))
              (1 + max (ref_get_height m1)
                (ref_get_height (ref_update_height (Node.node rk m2 rb rh2))))) := by
            rw [← hEnode]
            exact AllKeys_rrot.2 hvr
          obtain ⟨hszR, hcapR, hrepR, hfrR⟩ :=
            left_rotate_spec hszL hrep3 ⟨hvk, hvl, hvr3⟩
          have hrc : 2 * idx + 2 < s2.capacity := by
            refine slotVal_lt_capacity hsz2 ?_
            rw [show s2.slotVal (2 * idx + 2) = s2.tree.getD (2 * idx + 2) (-1) from rfl, hkeyr]
            exact hvr.1.2.2
          rw [if_neg (by omega : ¬ (Node.node rk (Node.node mk m1 m2 mh2) rb rh2).keyOf < key),
            if_pos hrc, if_pos hG4.2]
          refine ⟨hszR, by omega, hrepR, ?_, ?_⟩
          · intro j hj
            have hjne : j ≠ idx := fun he => hj (he ▸ isAnc_refl idx)
            have hn2 : ¬ isAnc (2 * idx + 2) j := fun hc =>
              hj ((isAnc_decomp j).2 (Or.inr (Or.inr hc)))
            obtain ⟨ha, hb⟩ := hfrR j hj
            obtain ⟨ha2, hb2⟩ := hfrL j hn2
            rw [ha, hb, ha2, hb2, hslot2 j, hh2 j hjne]
            exact ⟨rfl, rfl⟩
          · unfold AVLTreeArray.right_rotate_chk
            have hmb : 2 * (2 * idx + 2) + 1 < s2.capacity := by
              refine slotVal_lt_capacity hsz2 ?_
              rw [rep_slotVal_keyOf hrepr2.2.2.1]
              exact hvr.2.1.1.2.2
            rw [if_pos ⟨hmb, hrc⟩]
            show (s2.right_rotate (2 * idx + 2)).left_rotate_chk idx =
              some ((s2.right_rotate (2 * idx + 2)).left_rotate idx)
            unfold AVLTreeArray.left_rotate_chk
            rw [if_pos ⟨by omega, by omega⟩]
        · -- no case fires
          rw [if_neg hG4, if_neg hG4]
          have hframe : ∀ j, ¬ isAnc idx j → s2.slotVal j = s1.slotVal j ∧
              s2.hVal j = s1.hVal j := by
            intro j hj
            have hjne : j ≠ idx := fun he => hj (he ▸ isAnc_refl idx)
            exact ⟨hslot2 j, hh2 j hjne⟩
          refine ⟨hsz2, by omega, hrep2, hframe, ?_⟩
          by_cases hbg : 1 < heightR l' - heightR r
          · have hb2 : heightR l' = heightR r + 2 := by omega
            have hlc : 2 * idx + 1 < s2.capacity := by
              refine slotVal_lt_capacity hsz2 ?_
              have hlne : l' ≠ .nil := heightR_pos_node (by omega)
              rw [show s2.slotVal (2 * idx + 1) = s2.tree.getD (2 * idx + 1) (-1) from rfl,
                hkeyl]
              rcases l' with _ | ⟨lk, la, lb, lh2⟩
              · exact absurd rfl hlne
              · exact hvl.1.2.2
            rw [if_pos hbg, if_pos hlc,
              if_neg (fun hc => hG1 ⟨hbg, hc⟩), if_neg (fun hc => hG3 ⟨hbg, hc⟩)]
          · rw [if_neg hbg]
            by_cases hbl2 : heightR l' - heightR r < -1
            · have hb2 : heightR r = heightR l' + 2 := by omega
              have hrc : 2 * idx + 2 < s2.capacity := by
                refine slotVal_lt_capacity hsz2 ?_
                have hrne : r ≠ .nil := heightR_pos_node (by omega)
                rw [show s2.slotVal (2 * idx + 2) = s2.tree.getD (2 * idx + 2) (-1) from rfl,
                  hkeyr]
                rcases r with _ | ⟨rk, ra, rb, rh2⟩
                · exact absurd rfl hrne
                · exact hvr.1.2.2
              rw [if_pos hbl2, if_pos hrc,
                if_neg (fun hc => hG2 ⟨hbl2, hc⟩), if_neg (fun hc => hG4 ⟨hbl2, hc⟩)]
            · rw [if_neg hbl2]

/-- Main simulation: on a region representing an AVL reference tree t,
_insert_rec produces a region representing the reference insertion into t,
touches nothing outside the region, never shrinks the store, and every array
access it performs is in bounds (the checked variant succeeds and agrees). -/
theorem insert_rec_sim : ∀ (t : Node) (s : AVLTreeArray) (idx : Nat) (key : Int),
    s.Sized → ValidKey key → AVLT t → Represents s idx t →
    ((s.insert_rec idx key).Sized ∧
     s.capacity ≤ (s.insert_rec idx key).capacity ∧
     Represents (s.insert_rec idx key) idx (ref_insert t key) ∧
     (∀ j, ¬ isAnc idx j → (s.insert_rec idx key).slotVal j = s.slotVal j ∧
        (s.insert_rec idx key).hVal j = s.hVal j) ∧
     s.insert_rec_chk idx key = some (s.insert_rec idx key)) := by
  intro t
  induction t with
  | nil =>
    intro s idx key hsz hvk havl hrep
    have hempty : (s.resize idx).tree.getD idx (-1) = -1 := by
      show (s.resize idx).slotVal idx = -1
      rw [resize_slotVal hsz]
      exact hrep idx (isAnc_refl idx)
    have hszr := resize_sized hsz idx
    have hltc := resize_lt_capacity s idx
    have harr : s.insert_rec idx key =
        { s.resize idx with
          tree := (s.resize idx).tree.set idx key
          heights := (s.resize idx).heights.set idx 1 } := by
      rw [AVLTreeArray.insert_rec, dif_pos hempty]
    have hchk : s.insert_rec_chk idx key =
        some { s.resize idx with
               tree := (s.resize idx).tree.set idx key
               heights := (s.resize idx).heights.set idx 1 } := by
      rw [AVLTreeArray.insert_rec_chk, dif_pos hempty, if_pos hltc]
    rw [harr]
    refine ⟨⟨?_, ?_⟩, ?_, ⟨?_, ?_, ?_, ?_⟩, ?_, hchk⟩
    · show ((s.resize idx).tree.set idx key).length = (s.resize idx).capacity
      rw [List.length_set]
      exact hszr.1
    · show ((s.resize idx).heights.set idx 1).length = (s.resize idx).capacity
      rw [List.length_set]
      exact hszr.2
    · show s.capacity ≤ (s.resize idx).capacity
      exact resize_capacity_le s idx
    · show ((s.resize idx).tree.set idx key).getD idx (-1) = key
      exact getD_set_self _ _ _ _ (by rw [hszr.1]; exact hltc)
    · show ((s.resize idx).heights.set idx 1).getD idx 0 = 1
      exact getD_set_self _ _ _ _ (by rw [hszr.2]; exact hltc)
    · intro j hj
      have hle := isAnc_le j hj
      show ((s.resize idx).tree.set idx key).getD j (-1) = -1
      rw [getD_set_other _ _ _ (by omega : idx ≠ j)]
      rw [show (s.resize idx).tree.getD j (-1) = (s.resize idx).slotVal j from rfl,
        resize_slotVal hsz]
      exact hrep j ((isAnc_decomp j).2 (Or.inr (Or.inl hj)))
    · intro j hj
      have hle := isAnc_le j hj
      show ((s.resize idx).tree.set idx key).getD j (-1) = -1
      rw [getD_set_other _ _ _ (by omega : idx ≠ j)]
      rw [show (s.resize idx).tree.getD j (-1) = (s.resize idx).slotVal j from rfl,
        resize_slotVal hsz]
      exact hrep j ((isAnc_decomp j).2 (Or.inr (Or.inr hj)))
    · intro j hj
      have hne : j ≠ idx := fun he => hj (he ▸ isAnc_refl idx)
      constructor
      · show ((s.resize idx).tree.set idx key).getD j (-1) = s.slotVal j
        rw [getD_set_other _ _ _ (fun he => hne he.symm)]
        exact resize_slotVal hsz idx j
      · show ((s.resize idx).heights.set idx 1).getD j 0 = s.hVal j
        rw [getD_set_other _ _ _ (fun he => hne he.symm)]
        exact resize_hVal hsz idx j
  | node k l r h ihl ihr =>
    intro s idx key hsz hvk havl hrep
    obtain ⟨⟨hkl, hkr, hbstl, hbstr⟩, ⟨⟨hd1, hd2⟩, hbl, hbr⟩, ⟨hhc, hHl, hHr⟩,
      hvkk, hvtl, hvtr⟩ := havl
    have hidx : idx < s.capacity := slotVal_lt_capacity hsz (by rw [hrep.1]; exact hvkk.2.2)
    have hres : s.resize idx = s := resize_of_lt hidx
    have hresg : (s.resize idx).tree.getD idx (-1) = k := by
      rw [hres]; exact hrep.1
    have hocc : ¬ ((s.resize idx).tree.getD idx (-1) = -1) := by
      rw [hresg]; exact hvkk.2.2
    have hrn := heightR_nonneg r
    have hln := heightR_nonneg l
    by_cases hklt : key < k
    · have hlt2 : key < (s.resize idx).tree.getD idx (-1) := by
        rw [hresg]; exact hklt
      have harr : s.insert_rec idx key =
          AVLTreeArray.rebalance_after (s.insert_rec (2 * idx + 1) key) idx key := by
        rw [AVLTreeArray.insert_rec, dif_neg hocc, dif_pos hlt2, hres]
      have hchk1 : s.insert_rec_chk idx key =
          (s.insert_rec_chk (2 * idx + 1) key).bind
            (fun s2 => AVLTreeArray.rebalance_after_chk s2 idx key) := by
        rw [AVLTreeArray.insert_rec_chk, dif_neg hocc, dif_pos hlt2, hres]
      have hrefstep : ref_insert (.node k l r h) key =
          ref_rebalance (.node k (ref_insert l key) r h) key := by
        show (if key < k then ref_rebalance (.node k (ref_insert l key) r h) key
              else if k < key then ref_rebalance (.node k l (ref_insert r key) h) key
              else .node k l r h) = _
        rw [if_pos hklt]
      obtain ⟨hsz1, hcap1, hrep1, hfr1, hchkc⟩ :=
        ihl s (2 * idx + 1) key hsz hvk ⟨hbstl, hbl, hHl, hvtl⟩ hrep.2.2.1
      obtain ⟨havl2, hge2, hle2, hmem2, hshape2, hne2⟩ :=
        ref_insert_main l key ⟨hbstl, hbl, hHl, hvtl⟩ hvk
      have hslotk : (s.insert_rec (2 * idx + 1) key).slotVal idx = k := by
        rw [(hfr1 idx (not_isAnc_of_lt (by omega))).1]
        exact hrep.1
      have hrepr1 : Represents (s.insert_rec (2 * idx + 1) key) (2 * idx + 2) r :=
        Represents_congr r (2 * idx + 2)
          (fun j hj => hfr1 j (fun hc => isAnc_sibling j hc hj)) hrep.2.2.2
      obtain ⟨hszS, hcapS, hrepS, hfrS, hchkS⟩ :=
        @rebalance_after_sim (s.insert_rec (2 * idx + 1) key) idx k h key
          (ref_insert l key) r hsz1 hslotk hrep1 hrepr1
          havl2.2.2.2 hvtr hvkk havl2.2.2.1 hHr
          (by omega) (by omega)
          (fun hL => hshape2 (by omega) (by omega))
          (fun hR => absurd hR (by omega))
      rw [harr, hrefstep, hchk1, hchkc]
      refine ⟨hszS, by omega, hrepS, ?_, ?_⟩
      · intro j hj
        have hj1 : ¬ isAnc (2 * idx + 1) j := fun hc =>
          hj ((isAnc_decomp j).2 (Or.inr (Or.inl hc)))
        obtain ⟨ha, hb⟩ := hfrS j hj
        obtain ⟨ha2, hb2⟩ := hfr1 j hj1
        rw [ha, hb, ha2, hb2]
        exact ⟨rfl, rfl⟩
      · exact hchkS
    · by_cases hkgt : k < key
      · have hgt2 : (s.resize idx).tree.getD idx (-1) < key := by
          rw [hresg]; exact hkgt
        have hlt2 : ¬ key < (s.resize idx).tree.getD idx (-1) := by
          rw [hresg]; exact hklt
        have harr : s.insert_rec idx key =
            AVLTreeArray.rebalance_after (s.insert_rec (2 * idx + 2) key) idx key := by
          rw [AVLTreeArray.insert_rec, dif_neg hocc, dif_neg hlt2, dif_pos hgt2, hres]
        have hchk1 : s.insert_rec_chk idx key =
            (s.insert_rec_chk (2 * idx + 2) key).bind
              (fun s2 => AVLTreeArray.rebalance_after_chk s2 idx key) := by
          rw [AVLTreeArray.insert_rec_chk, dif_neg hocc, dif_neg hlt2, dif_pos hgt2, hres]
        have hrefstep : ref_insert (.node k l r h) key =
            ref_rebalance (.node k l (ref_insert r key) h) key := by
          show (if key < k then ref_rebalance (.node k (ref_insert l key) r h) key
                else if k < key then ref_rebalance (.node k l (ref_insert r key) h) key
                else .node k l r h) = _
          rw [if_neg hklt, if_pos hkgt]
        obtain ⟨hsz1, hcap1, hrep1, hfr1, hchkc⟩ :=
          ihr s (2 * idx + 2) key hsz hvk ⟨hbstr, hbr, hHr, hvtr⟩ hrep.2.2.2
        obtain ⟨havl2, hge2, hle2, hmem2, hshape2, hne2⟩ :=
          ref_insert_main r key ⟨hbstr, hbr, hHr, hvtr⟩ hvk
        have hslotk : (s.insert_rec (2 * idx + 2) key).slotVal idx = k := by
          rw [(hfr1 idx (not_isAnc_of_lt (by omega))).1]
          exact hrep.1
        have hrepl1 : Represents (s.insert_rec (2 * idx + 2) key) (2 * idx + 1) l :=
          Represents_congr l (2 * idx + 1)
            (fun j hj => hfr1 j (fun hc => isAnc_sibling j hj hc)) hrep.2.2.1
        obtain ⟨hszS, hcapS, hrepS, hfrS, hchkS⟩ :=
          @rebalance_after_sim (s.insert_rec (2 * idx + 2) key) idx k h key
            l (ref_insert r key) hsz1 hslotk hrepl1 hrep1
            hvtl havl2.2.2.2 hvkk hHl havl2.2.2.1
            (by omega) (by omega)
            (fun hL => absurd hL (by omega))
            (fun hR => hshape2 (by omega) (by omega))
        rw [harr, hrefstep, hchk1, hchkc]
        refine ⟨hszS, by omega, hrepS, ?_, ?_⟩
        · intro j hj
          have hj2 : ¬ isAnc (2 * idx + 2) j := fun hc =>
            hj ((isAnc_decomp j).2 (Or.inr (Or.inr hc)))
          obtain ⟨ha, hb⟩ := hfrS j hj
          obtain ⟨ha2, hb2⟩ := hfr1 j hj2
          rw [ha, hb, ha2, hb2]
          exact ⟨rfl, rfl⟩
        · exact hchkS
      · have hlt2 : ¬ key < (s.resize idx).tree.getD idx (-1) := by
          rw [hresg]; exact hklt
        have hgt2 : ¬ (s.resize idx).tree.getD idx (-1) < key := by
          rw [hresg]; exact hkgt
        have harr : s.insert_rec idx key = s := by
          rw [AVLTreeArray.insert_rec, dif_neg hocc, dif_neg hlt2, dif_neg hgt2, hres]
        have hchk : s.insert_rec_chk idx key = some s := by
          rw [AVLTreeArray.insert_rec_chk, dif_neg hocc, dif_neg hlt2, dif_neg hgt2, hres]
        have hrefstep : ref_insert (.node k l r h) key = .node k l r h := by
          show (if key < k then ref_rebalance (.node k (ref_insert l key) r h) key
                else if k < key then ref_rebalance (.node k l (ref_insert r key) h) key
                else .node k l r h) = _
          rw [if_neg hklt, if_neg hkgt]
        rw [harr, hchk, hrefstep]
        exact ⟨hsz, le_refl _, hrep, fun j hj => ⟨rfl, rfl⟩, rfl⟩

/-! ## No-op characterizations: balanced rebalance steps and duplicate keys -/

theorem ref_rebalance_balanced {k : Int} {l r : Node} {h key : Int}
    (hHl : HtOK l) (hHr : HtOK r)
    (hb1 : heightR l - heightR r ≤ 1) (hb2 : heightR r - heightR l ≤ 1)
    (hh : h = 1 + max (heightR l) (heightR r)) :
    ref_rebalance (.node k l r h) key = .node k l r h := by
  unfold ref_rebalance
  simp only [ref_update_height, ref_get_balance, ht_cached hHl, ht_cached hHr]
  rw [if_neg (fun hc => absurd hc.1 (by omega)),
    if_neg (fun hc => absurd hc.1 (by omega)),
    if_neg (fun hc => absurd hc.1 (by omega)),
    if_neg (fun hc => absurd hc.1 (by omega)), hh]

theorem set_getD_self (l : List Int) (n : Nat) (d : Int) (h : n < l.length) :
    l.set n (l.getD n d) = l := by
  apply List.ext_getElem
  · rw [List.length_set]
  · intro i h1 h2
    rw [List.getElem_set]
    split
    · rename_i he
      subst he
      rw [List.getD_eq_getElem l d h]
    · rfl

theorem update_height_self {s : AVLTreeArray} (hs : s.Sized) {idx : Nat}
    (hv : s.hVal idx =
      1 + max (s.get_height (2 * idx + 1)) (s.get_height (2 * idx + 2))) :
    s.update_height idx = s := by
  unfold AVLTreeArray.update_height
  split
  · rename_i hc
    rw [← hv]
    show { s with heights := s.heights.set idx (s.heights.getD idx 0) } = s
    rw [set_getD_self s.heights idx 0 (by rw [hs.2]; exact hc.1)]
  · rfl

theorem rebalance_after_noop {s : AVLTreeArray} {idx : Nat} {k h key : Int} {l r : Node}
    (hsz : s.Sized) (hrep : Represents s idx (.node k l r h))
    (havl : AVLT (.node k l r h)) :
    s.rebalance_after idx key = s := by
  obtain ⟨⟨hkl, hkr, hbstl, hbstr⟩, ⟨⟨hd1, hd2⟩, hbl, hbr⟩, ⟨hhc, hHl, hHr⟩,
    hvkk, hvtl, hvtr⟩ := havl
  have hocc : s.tree.getD idx (-1) ≠ -1 := by
    show s.slotVal idx ≠ -1
    rw [hrep.1]
    exact hvkk.2.2
  have hidx : idx < s.capacity := slotVal_lt_capacity hsz hocc
  have hgl : s.get_height (2 * idx + 1) = heightR l := by
    rw [get_height_rep hsz hrep.2.2.1 hvtl, ht_cached hHl]
  have hgr : s.get_height (2 * idx + 2) = heightR r := by
    rw [get_height_rep hsz hrep.2.2.2 hvtr, ht_cached hHr]
  have hupd : s.update_height idx = s := by
    refine update_height_self hsz ?_
    rw [hrep.2.1, hgl, hgr]
    exact hhc
  have hbal : s.get_balance idx = heightR l - heightR r := by
    unfold AVLTreeArray.get_balance
    rw [if_neg (by rw [not_or]; exact ⟨by omega, hocc⟩), hgl, hgr]
  unfold AVLTreeArray.rebalance_after
  simp only [hupd]
  rw [hbal]
  rw [if_neg (fun hc => absurd hc.1 (by omega)),
    if_neg (fun hc => absurd hc.1 (by omega)),
    if_neg (fun hc => absurd hc.1 (by omega)),
    if_neg (fun hc => absurd hc.1 (by omega))]

theorem insert_rec_mem : ∀ (t : Node) (s : AVLTreeArray) (idx : Nat) (key : Int),
    s.Sized → AVLT t → Represents s idx t → MemT key t →
    s.insert_rec idx key = s := by
  intro t
  induction t with
  | nil =>
    intro s idx key _ _ _ hmem
    exact absurd hmem id
  | node k l r h ihl ihr =>
    intro s idx key hsz havl hrep hmem
    have hA := havl
    obtain ⟨⟨hkl, hkr, hbstl, hbstr⟩, ⟨⟨hd1, hd2⟩, hbl, hbr⟩, ⟨hhc, hHl, hHr⟩,
      hvkk, hvtl, hvtr⟩ := havl
    have hidx : idx < s.capacity := slotVal_lt_capacity hsz (by rw [hrep.1]; exact hvkk.2.2)
    have hres : s.resize idx = s := resize_of_lt hidx
    have hresg : (s.resize idx).tree.getD idx (-1) = k := by
      rw [hres]; exact hrep.1
    have hocc : ¬ ((s.resize idx).tree.getD idx (-1) = -1) := by
      rw [hresg]; exact hvkk.2.2
    by_cases hklt : key < k
    · have hmeml : MemT key l := by
        rcases hmem with he | hl | hr
        · omega
        · exact hl
        · exact absurd (AllKeys_mem hkr hr) (by omega)
      have hlt2 : key < (s.resize idx).tree.getD idx (-1) := by
        rw [hresg]; exact hklt
      rw [AVLTreeArray.insert_rec, dif_neg hocc, dif_pos hlt2, hres,
        ihl s (2 * idx + 1) key hsz ⟨hbstl, hbl, hHl, hvtl⟩ hrep.2.2.1 hmeml]
      exact rebalance_after_noop hsz hrep hA
    · by_cases hkgt : k < key
      · have hmemr : MemT key r := by
          rcases hmem with he | hl | hr
          · omega
          · exact absurd (AllKeys_mem hkl hl) (by omega)
          · exact hr
        have hlt2 : ¬ key < (s.resize idx).tree.getD idx (-1) := by
          rw [hresg]; exact hklt
        have hgt2 : (s.resize idx).tree.getD idx (-1) < key := by
          rw [hresg]; exact hkgt
        rw [AVLTreeArray.insert_rec, dif_neg hocc, dif_neg hlt2, dif_pos hgt2, hres,
          ihr s (2 * idx + 2) key hsz ⟨hbstr, hbr, hHr, hvtr⟩ hrep.2.2.2 hmemr]
        exact rebalance_after_noop hsz hrep hA
      · have hlt2 : ¬ key < (s.resize idx).tree.getD idx (-1) := by
          rw [hresg]; exact hklt
        have hgt2 : ¬ (s.resize idx).tree.getD idx (-1) < key := by
          rw [hresg]; exact hkgt
        rw [AVLTreeArray.insert_rec, dif_neg hocc, dif_neg hlt2, dif_neg hgt2, hres]

/-- Inserting the sentinel key -1 descends like any other key but the leaf it
writes reads back as an empty slot, so the represented tree is unchanged. -/
theorem insert_rec_sentinel : ∀ (t : Node) (s : AVLTreeArray) (idx : Nat),
    s.Sized → AVLT t → Represents s idx t →
    ((s.insert_rec idx (-1)).Sized ∧
     s.capacity ≤ (s.insert_rec idx (-1)).capacity ∧
     Represents (s.insert_rec idx (-1)) idx t ∧
     (∀ j, ¬ isAnc idx j → (s.insert_rec idx (-1)).slotVal j = s.slotVal j ∧
        (s.insert_rec idx (-1)).hVal j = s.hVal j) ∧
     s.insert_rec_chk idx (-1) = some (s.insert_rec idx (-1))) := by
  intro t
  induction t with
  | nil =>
    intro s idx hsz havl hrep
    have hempty : (s.resize idx).tree.getD idx (-1) = -1 := by
      show (s.resize idx).slotVal idx = -1
      rw [resize_slotVal hsz]
      exact hrep idx (isAnc_refl idx)
    have hszr := resize_sized hsz idx
    have hltc := resize_lt_capacity s idx
    have harr : s.insert_rec idx (-1) =
        { s.resize idx with
          tree := (s.resize idx).tree.set idx (-1)
          heights := (s.resize idx).heights.set idx 1 } := by
      rw [AVLTreeArray.insert_rec, dif_pos hempty]
    have hchk : s.insert_rec_chk idx (-1) =
        some { s.resize idx with
               tree := (s.resize idx).tree.set idx (-1)
               heights := (s.resize idx).heights.set idx 1 } := by
      rw [AVLTreeArray.insert_rec_chk, dif_pos hempty, if_pos hltc]
    rw [harr]
    refine ⟨⟨?_, ?_⟩, ?_, ?_, ?_, hchk⟩
    · show ((s.resize idx).tree.set idx (-1)).length = (s.resize idx).capacity
      rw [List.length_set]
      exact hszr.1
    · show ((s.resize idx).heights.set idx 1).length = (s.resize idx).capacity
      rw [List.length_set]
      exact hszr.2
    · exact resize_capacity_le s idx
    · intro j hj
      show ((s.resize idx).tree.set idx (-1)).getD j (-1) = -1
      by_cases hji : j = idx
      · subst hji
        exact getD_set_self _ _ _ _ (by rw [hszr.1]; exact hltc)
      · rw [getD_set_other _ _ _ (fun he => hji he.symm)]
        rw [show (s.resize idx).tree.getD j (-1) = (s.resize idx).slotVal j from rfl,
          resize_slotVal hsz]
        exact hrep j hj
    · intro j hj
      have hne : j ≠ idx := fun he => hj (he ▸ isAnc_refl idx)
      constructor
      · show ((s.resize idx).tree.set idx (-1)).getD j (-1) = s.slotVal j
        rw [getD_set_other _ _ _ (fun he => hne he.symm)]
        exact resize_slotVal hsz idx j
      · show ((s.resize idx).heights.set idx 1).getD j 0 = s.hVal j
        rw [getD_set_other _ _ _ (fun he => hne he.symm)]
        exact resize_hVal hsz idx j
  | node k l r h ihl ihr =>
    intro s idx hsz havl hrep
    have hA := havl
    obtain ⟨⟨hkl, hkr, hbstl, hbstr⟩, ⟨⟨hd1, hd2⟩, hbl, hbr⟩, ⟨hhc, hHl, hHr⟩,
      hvkk, hvtl, hvtr⟩ := havl
    have hidx : idx < s.capacity := slotVal_lt_capacity hsz (by rw [hrep.1]; exact hvkk.2.2)
    have hres : s.resize idx = s := resize_of_lt hidx
    have hresg : (s.resize idx).tree.getD idx (-1) = k := by
      rw [hres]; exact hrep.1
    have hocc : ¬ ((s.resize idx).tree.getD idx (-1) = -1) := by
      rw [hresg]; exact hvkk.2.2
    have href : ref_rebalance (.node k l r h) (-1) = .node k l r h :=
      ref_rebalance_balanced hHl hHr (by omega) (by omega) hhc
    by_cases hklt : (-1 : Int) < k
    · have hlt2 : (-1 : Int) < (s.resize idx).tree.getD idx (-1) := by
        rw [hresg]; exact hklt
      have harr : s.insert_rec idx (-1) =
          AVLTreeArray.rebalance_after (s.insert_rec (2 * idx + 1) (-1)) idx (-1) := by
        rw [AVLTreeArray.insert_rec, dif_neg hocc, dif_pos hlt2, hres]
      have hchk1 : s.insert_rec_chk idx (-1) =
          (s.insert_rec_chk (2 * idx + 1) (-1)).bind
            (fun s2 => AVLTreeArray.rebalance_after_chk s2 idx (-1)) := by
        rw [AVLTreeArray.insert_rec_chk, dif_neg hocc, dif_pos hlt2, hres]
      obtain ⟨hsz1, hcap1, hrep1, hfr1, hchkc⟩ :=
        ihl s (2 * idx + 1) hsz ⟨hbstl, hbl, hHl, hvtl⟩ hrep.2.2.1
      have hslotk : (s.insert_rec (2 * idx + 1) (-1)).slotVal idx = k := by
        rw [(hfr1 idx (not_isAnc_of_lt (by omega))).1]
        exact hrep.1
      have hrepr1 : Represents (s.insert_rec (2 * idx + 1) (-1)) (2 * idx + 2) r :=
        Represents_congr r (2 * idx + 2)
          (fun j hj => hfr1 j (fun hc => isAnc_sibling j hc hj)) hrep.2.2.2
      obtain ⟨hszS, hcapS, hrepS, hfrS, hchkS⟩ :=
        @rebalance_after_sim (s.insert_rec (2 * idx + 1) (-1)) idx k h (-1) l r
          hsz1 hslotk hrep1 hrepr1 hvtl hvtr hvkk hHl hHr
          (by omega) (by omega)
          (fun hL => absurd hL (by omega))
          (fun hR => absurd hR (by omega))
      rw [href] at hrepS
      rw [harr, hchk1, hchkc]
      refine ⟨hszS, by omega, hrepS, ?_, ?_⟩
      · intro j hj
        have hj1 : ¬ isAnc (2 * idx + 1) j := fun hc =>
          hj ((isAnc_decomp j).2 (Or.inr (Or.inl hc)))
        obtain ⟨ha, hb⟩ := hfrS j hj
        obtain ⟨ha2, hb2⟩ := hfr1 j hj1
        rw [ha, hb, ha2, hb2]
        exact ⟨rfl, rfl⟩
      · exact hchkS
    · by_cases hkgt : k < -1
      · have hlt2 : ¬ (-1 : Int) < (s.resize idx).tree.getD idx (-1) := by
          rw [hresg]; exact hklt
        have hgt2 : (s.resize idx).tree.getD idx (-1) < -1 := by
          rw [hresg]; exact hkgt
        have harr : s.insert_rec idx (-1) =
            AVLTreeArray.rebalance_after (s.insert_rec (2 * idx + 2) (-1)) idx (-1) := by
          rw [AVLTreeArray.insert_rec, dif_neg hocc, dif_neg hlt2, dif_pos hgt2, hres]
        have hchk1 : s.insert_rec_chk idx (-1) =
            (s.insert_rec_chk (2 * idx + 2) (-1)).bind
              (fun s2 => AVLTreeArray.rebalance_after_chk s2 idx (-1)) := by
          rw [AVLTreeArray.insert_rec_chk, dif_neg hocc, dif_neg hlt2, dif_pos hgt2, hres]
        obtain ⟨hsz1, hcap1, hrep1, hfr1, hchkc⟩ :=
          ihr s (2 * idx + 2) hsz ⟨hbstr, hbr, hHr, hvtr⟩ hrep.2.2.2
        have hslotk : (s.insert_rec (2 * idx + 2) (-1)).slotVal idx = k := by
          rw [(hfr1 idx (not_isAnc_of_lt (by omega))).1]
          exact hrep.1
        have hrepl1 : Represents (s.insert_rec (2 * idx + 2) (-1)) (2 * idx + 1) l :=
          Represents_congr l (2 * idx + 1)
            (fun j hj => hfr1 j (fun hc => isAnc_sibling j hj hc)) hrep.2.2.1
        obtain ⟨hszS, hcapS, hrepS, hfrS, hchkS⟩ :=
          @rebalance_after_sim (s.insert_rec (2 * idx + 2) (-1)) idx k h (-1) l r
            hsz1 hslotk hrepl1 hrep1 hvtl hvtr hvkk hHl hHr
            (by omega) (by omega)
            (fun hL => absurd hL (by omega))
            (fun hR => absurd hR (by omega))
        rw [href] at hrepS
        rw [harr, hchk1, hchkc]
        refine ⟨hszS, by omega, hrepS, ?_, ?_⟩
        · intro j hj
          have hj2 : ¬ isAnc (2 * idx + 2) j := fun hc =>
            hj ((isAnc_decomp j).2 (Or.inr (Or.inr hc)))
          obtain ⟨ha, hb⟩ := hfrS j hj
          obtain ⟨ha2, hb2⟩ := hfr1 j hj2
          rw [ha, hb, ha2, hb2]
          exact ⟨rfl, rfl⟩
        · exact hchkS
      · exact absurd (by omega : k = -1) hvkk.2.2

/-! ## Reachable states: any insertion sequence from an empty store -/

/-- Folding insert over a sequence of storable keys keeps the store sized and
representing the reference tree of the non-sentinel keys, which is an AVL tree. -/
theorem insert_list_rep : ∀ (ks : List Int) (s : AVLTreeArray) (t : Node),
    s.Sized → AVLT t → Represents s 0 t → (∀ x ∈ ks, StorableKey x) →
    ((s.insert_list ks).Sized ∧
     AVLT (ref_insert_list t (ks.filter (fun x => x != -1))) ∧
     Represents (s.insert_list ks) 0 (ref_insert_list t (ks.filter (fun x => x != -1)))) := by
  intro ks
  induction ks with
  | nil =>
    intro s t hsz havl hrep hval
    exact ⟨hsz, havl, hrep⟩
  | cons a ks ih =>
    intro s t hsz havl hrep hval
    have hsk : StorableKey a := hval a (List.mem_cons_self a ks)
    by_cases ha : a = -1
    · subst ha
      obtain ⟨hsz1, hcap1, hrep1, hfr1, _⟩ := insert_rec_sentinel t s 0 hsz havl hrep
      have hfil : ((-1 : Int) :: ks).filter (fun x => x != -1) =
          ks.filter (fun x => x != -1) := by
        simp [List.filter_cons]
      rw [show s.insert_list ((-1) :: ks) = (s.insert (-1)).insert_list ks from rfl, hfil]
      exact ih (s.insert (-1)) t hsz1 havl hrep1
        (fun x hx => hval x (List.mem_cons_of_mem _ hx))
    · have hvk : ValidKey a := ⟨hsk.1, hsk.2, ha⟩
      obtain ⟨hsz1, hcap1, hrep1, hfr1, _⟩ := insert_rec_sim t s 0 a hsz hvk havl hrep
      obtain ⟨havl1, _, _, _, _, _⟩ := ref_insert_main t a havl hvk
      have hfil : (a :: ks).filter (fun x => x != -1) =
          a :: ks.filter (fun x => x != -1) := by
        simp [List.filter_cons, ha]
      rw [show s.insert_list (a :: ks) = (s.insert a).insert_list ks from rfl, hfil,
        show ref_insert_list t (a :: ks.filter (fun x => x != -1)) =
          ref_insert_list (ref_insert t a) (ks.filter (fun x => x != -1)) from rfl]
      exact ih (s.insert a) (ref_insert t a) hsz1 havl1 hrep1
        (fun x hx => hval x (List.mem_cons_of_mem _ hx))

theorem MemT_ref_insert_list : ∀ (ks : List Int) (t : Node) (x : Int),
    MemT x t → MemT x (ref_insert_list t ks) := by
  intro ks
  induction ks with
  | nil => intro t x hx; exact hx
  | cons a ks ih =>
    intro t x hx
    exact ih _ _ (MemT_insert.2 (Or.inr hx))

theorem mem_ref_insert_list : ∀ (ks : List Int) (t : Node) (x : Int),
    x ∈ ks → MemT x (ref_insert_list t ks) := by
  intro ks
  induction ks with
  | nil => intro t x hx; exact absurd hx (List.not_mem_nil x)
  | cons a ks ih =>
    intro t x hx
    rcases List.mem_cons.1 hx with he | hm
    · subst he
      exact MemT_ref_insert_list ks (ref_insert t x) x (MemT_insert.2 (Or.inl rfl))
    · exact ih _ _ hm

/-! ## Reading the invariants off a represented state -/

theorem isAnc_zero (i : Nat) : isAnc 0 i := by
  have h := isAnc_map_index 0 i
  rw [map_index_id i] at h
  exact h

theorem rep_occupied_subtree : ∀ (t : Node) (s : AVLTreeArray) (idx : Nat),
    Represents s idx t → AVLT t → ∀ i, isAnc idx i → s.slotVal i ≠ -1 →
    ∃ kk : Int, ∃ ll rr : Node, ∃ hh : Int,
      Represents s i (.node kk ll rr hh) ∧ AVLT (.node kk ll rr hh) := by
  intro t
  induction t with
  | nil =>
    intro s idx hrep havl i hi hne
    exact absurd (hrep i hi) hne
  | node k l r h ihl ihr =>
    intro s idx hrep havl i hi hne
    have hA := havl
    obtain ⟨⟨hkl, hkr, hbstl, hbstr⟩, ⟨hdd, hbl, hbr⟩, ⟨hhc, hHl, hHr⟩,
      hvkk, hvtl, hvtr⟩ := havl
    rcases (isAnc_decomp i).1 hi with he | hi1 | hi2
    · subst he
      exact ⟨k, l, r, h, hrep, hA⟩
    · exact ihl s (2 * idx + 1) hrep.2.2.1 ⟨hbstl, hbl, hHl, hvtl⟩ i hi1 hne
    · exact ihr s (2 * idx + 2) hrep.2.2.2 ⟨hbstr, hbr, hHr, hvtr⟩ i hi2 hne

theorem rep_mem : ∀ (t : Node) (s : AVLTreeArray) (idx : Nat),
    Represents s idx t → ∀ j, isAnc idx j → s.slotVal j ≠ -1 →
    MemT (s.slotVal j) t := by
  intro t
  induction t with
  | nil =>
    intro s idx hrep j hj hne
    exact absurd (hrep j hj) hne
  | node k l r h ihl ihr =>
    intro s idx hrep j hj hne
    rcases (isAnc_decomp j).1 hj with he | h1 | h2
    · subst he
      exact Or.inl hrep.1
    · exact Or.inr (Or.inl (ihl s _ hrep.2.2.1 j h1 hne))
    · exact Or.inr (Or.inr (ihr s _ hrep.2.2.2 j h2 hne))

theorem occupied_invariant {s : AVLTreeArray} {t : Node} (hsz : s.Sized)
    (hrep : Represents s 0 t) (havl : AVLT t) (i : Nat)
    (hne : s.tree.getD i (-1) ≠ -1) :
    (-1 ≤ s.get_balance i ∧ s.get_balance i ≤ 1) ∧
    s.hVal i = 1 + max (s.get_height (2 * i + 1)) (s.get_height (2 * i + 2)) := by
  obtain ⟨kk, ll, rr, hh, hrepi, havli⟩ :=
    rep_occupied_subtree t s 0 hrep havl i (isAnc_zero i) hne
  obtain ⟨_, ⟨⟨hd1, hd2⟩, _, _⟩, ⟨hhc, hHl, hHr⟩, hvkk, hvtl, hvtr⟩ := havli
  have hii : i < s.capacity := slotVal_lt_capacity hsz hne
  have hgl : s.get_height (2 * i + 1) = heightR ll := by
    rw [get_height_rep hsz hrepi.2.2.1 hvtl, ht_cached hHl]
  have hgr : s.get_height (2 * i + 2) = heightR rr := by
    rw [get_height_rep hsz hrepi.2.2.2 hvtr, ht_cached hHr]
  have hbal : s.get_balance i = heightR ll - heightR rr := by
    unfold AVLTreeArray.get_balance
    rw [if_neg (by rw [not_or]; exact ⟨by omega, hne⟩), hgl, hgr]
  constructor
  · rw [hbal]
    exact ⟨by omega, by omega⟩
  · rw [hrepi.2.1, hgl, hgr]
    exact hhc

theorem rep_bst_slots {s : AVLTreeArray} {t : Node}
    (hrep : Represents s 0 t) (havl : AVLT t) (i j : Nat)
    (hi : s.tree.getD i (-1) ≠ -1) (hj : s.tree.getD j (-1) ≠ -1) :
    (isAnc (2 * i + 1) j → s.tree.getD j (-1) < s.tree.getD i (-1)) ∧
    (isAnc (2 * i + 2) j → s.tree.getD i (-1) < s.tree.getD j (-1)) := by
  obtain ⟨kk, ll, rr, hh, hrepi, havli⟩ :=
    rep_occupied_subtree t s 0 hrep havl i (isAnc_zero i) hi
  obtain ⟨⟨hal, har, _, _⟩, _, _, _⟩ := havli
  constructor
  · intro hanc
    have hm := rep_mem ll s (2 * i + 1) hrepi.2.2.1 j hanc hj
    have hlt := AllKeys_mem hal hm
    rw [show s.tree.getD i (-1) = kk from hrepi.1]
    exact hlt
  · intro hanc
    have hm := rep_mem rr s (2 * i + 2) hrepi.2.2.2 j hanc hj
    have hlt := AllKeys_mem har hm
    rw [show s.tree.getD i (-1) = kk from hrepi.1]
    exact hlt

theorem inorder_rep : ∀ (t : Node) (s : AVLTreeArray) (idx : Nat), s.Sized →
    Represents s idx t → ValidT t → s.inorder idx = ref_inorder t := by
  intro t
  induction t with
  | nil =>
    intro s idx hsz hrep hv
    rw [AVLTreeArray.inorder,
      if_pos (Or.inr (show s.tree.getD idx (-1) = -1 from hrep idx (isAnc_refl idx)))]
    rfl
  | node k l r h ihl ihr =>
    intro s idx hsz hrep hv
    have hocc : s.tree.getD idx (-1) ≠ -1 := by
      show s.slotVal idx ≠ -1
      rw [hrep.1]
      exact hv.1.2.2
    have hidx : idx < s.capacity := slotVal_lt_capacity hsz hocc
    rw [AVLTreeArray.inorder, if_neg (by rw [not_or]; exact ⟨by omega, hocc⟩)]
    show s.inorder (2 * idx + 1) ++ s.tree.getD idx (-1) :: s.inorder (2 * idx + 2) =
      ref_inorder l ++ k :: ref_inorder r
    rw [ihl s _ hsz hrep.2.2.1 hv.2.1, ihr s _ hsz hrep.2.2.2 hv.2.2,
      show s.tree.getD idx (-1) = k from hrep.1]

/-! ## The claims -/

/-- C1: for every sequence of distinct storable integer keys inserted via
insert into an initially empty AVLTreeArray, after the whole sequence every
occupied slot i satisfies |get_balance i| ≤ 1 and
heights[i] = 1 + max (get_height (2i+1)) (get_height (2i+2)). -/
theorem insert_sequence_balance_height_invariant
    (ks : List Int) (c : Nat) (hval : ∀ x ∈ ks, StorableKey x) (_hnd : ks.Nodup) :
    ∀ i, ((AVLTreeArray.mk0 c).insert_list ks).tree.getD i (-1) ≠ -1 →
      (-1 ≤ ((AVLTreeArray.mk0 c).insert_list ks).get_balance i ∧
       ((AVLTreeArray.mk0 c).insert_list ks).get_balance i ≤ 1) ∧
      ((AVLTreeArray.mk0 c).insert_list ks).hVal i =
        1 + max (((AVLTreeArray.mk0 c).insert_list ks).get_height (2 * i + 1))
          (((AVLTreeArray.mk0 c).insert_list ks).get_height (2 * i + 2)) := by
  obtain ⟨hsz, havl, hrep⟩ := insert_list_rep ks (AVLTreeArray.mk0 c) .nil (mk0_sized c)
    ⟨trivial, trivial, trivial, trivial⟩ (fun j _ => mk0_slotVal c j) hval
  intro i hne
  exact occupied_invariant hsz hrep havl i hne

/-- Witness for C1 at the concrete sequence [10, 20, 30] and capacity 2. -/
theorem insert_sequence_invariant_check :
    (∀ x ∈ ([10, 20, 30] : List Int), StorableKey x) ∧
    ([10, 20, 30] : List Int).Nodup ∧
    (∀ i, ((AVLTreeArray.mk0 2).insert_list [10, 20, 30]).tree.getD i (-1) ≠ -1 →
      (-1 ≤ ((AVLTreeArray.mk0 2).insert_list [10, 20, 30]).get_balance i ∧
       ((AVLTreeArray.mk0 2).insert_list [10, 20, 30]).get_balance i ≤ 1) ∧
      ((AVLTreeArray.mk0 2).insert_list [10, 20, 30]).hVal i =
        1 + max (((AVLTreeArray.mk0 2).insert_list [10, 20, 30]).get_height (2 * i + 1))
          (((AVLTreeArray.mk0 2).insert_list [10, 20, 30]).get_height (2 * i + 2))) :=
  ⟨by decide, by decide,
   insert_sequence_balance_height_invariant [10, 20, 30] 2 (by decide) (by decide)⟩

/-- C2: for every sequence of storable integer keys inserted via insert into an
initially empty AVLTreeArray, every occupied slot i has every occupied slot j
of its implied left subtree (rooted at 2i+1) holding a smaller key and every
occupied slot j of its implied right subtree (rooted at 2i+2) holding a larger
key. -/
theorem insert_sequence_bst_ordering (ks : List Int) (c : Nat)
    (hval : ∀ x ∈ ks, StorableKey x) (i j : Nat)
    (hi : ((AVLTreeArray.mk0 c).insert_list ks).tree.getD i (-1) ≠ -1)
    (hj : ((AVLTreeArray.mk0 c).insert_list ks).tree.getD j (-1) ≠ -1) :
    (isAnc (2 * i + 1) j →
      ((AVLTreeArray.mk0 c).insert_list ks).tree.getD j (-1) <
        ((AVLTreeArray.mk0 c).insert_list ks).tree.getD i (-1)) ∧
    (isAnc (2 * i + 2) j →
      ((AVLTreeArray.mk0 c).insert_list ks).tree.getD i (-1) <
        ((AVLTreeArray.mk0 c).insert_list ks).tree.getD j (-1)) := by
  obtain ⟨hsz, havl, hrep⟩ := insert_list_rep ks (AVLTreeArray.mk0 c) .nil (mk0_sized c)
    ⟨trivial, trivial, trivial, trivial⟩ (fun j2 _ => mk0_slotVal c j2) hval
  exact rep_bst_slots hrep havl i j hi hj

/-- Witness for C2 at the sequence [10, 20, 30], capacity 2, root slot 0 and
left child slot 1 (both occupied after the rebalancing rotation). -/
theorem bst_ordering_check :
    (∀ x ∈ ([10, 20, 30] : List Int), StorableKey x) ∧
    ((AVLTreeArray.mk0 2).insert_list [10, 20, 30]).tree.getD 0 (-1) ≠ -1 ∧
    ((AVLTreeArray.mk0 2).insert_list [10, 20, 30]).tree.getD 1 (-1) ≠ -1 ∧
    ((isAnc (2 * 0 + 1) 1 →
      ((AVLTreeArray.mk0 2).insert_list [10, 20, 30]).tree.getD 1 (-1) <
        ((AVLTreeArray.mk0 2).insert_list [10, 20, 30]).tree.getD 0 (-1)) ∧
     (isAnc (2 * 0 + 2) 1 →
      ((AVLTreeArray.mk0 2).insert_list [10, 20, 30]).tree.getD 0 (-1) <
        ((AVLTreeArray.mk0 2).insert_list [10, 20, 30]).tree.getD 1 (-1))) :=
  ⟨by decide, by rw [← insert_listE_eq]; decide, by rw [← insert_listE_eq]; decide,
   insert_sequence_bst_ordering [10, 20, 30] 2 (by decide) 0 1
     (by rw [← insert_listE_eq]; decide) (by rw [← insert_listE_eq]; decide)⟩

/-- C3: inserting the same sequence of distinct valid keys into an empty
AVLTreeArray and an empty AVLTreeReference yields isomorphic trees: the array
region rooted at slot 0 represents the reference tree node for node
(Represents), and the in-order traversals agree. -/
theorem array_reference_isomorphism (ks : List Int) (c : Nat)
    (hval : ∀ x ∈ ks, ValidKey x) (_hnd : ks.Nodup) :
    Represents ((AVLTreeArray.mk0 c).insert_list ks) 0 (ref_insert_list .nil ks) ∧
    ((AVLTreeArray.mk0 c).insert_list ks).inorder 0 =
      ref_inorder (ref_insert_list .nil ks) := by
  have hfil : ks.filter (fun x => x != -1) = ks :=
    List.filter_eq_self.2 (fun a ha => by simpa using (hval a ha).2.2)
  obtain ⟨hsz, havl, hrep⟩ := insert_list_rep ks (AVLTreeArray.mk0 c) .nil (mk0_sized c)
    ⟨trivial, trivial, trivial, trivial⟩ (fun j _ => mk0_slotVal c j)
    (fun x hx => ⟨(hval x hx).1, (hval x hx).2.1⟩)
  rw [hfil] at havl hrep
  exact ⟨hrep, inorder_rep (ref_insert_list .nil ks) _ 0 hsz hrep havl.2.2.2⟩

/-- Witness for C3 at the concrete sequence [10, 20, 30] and capacity 2. -/
theorem array_reference_isomorphism_check :
    (∀ x ∈ ([10, 20, 30] : List Int), ValidKey x) ∧
    ([10, 20, 30] : List Int).Nodup ∧
    Represents ((AVLTreeArray.mk0 2).insert_list [10, 20, 30]) 0
      (ref_insert_list .nil [10, 20, 30]) ∧
    ((AVLTreeArray.mk0 2).insert_list [10, 20, 30]).inorder 0 =
      ref_inorder (ref_insert_list .nil [10, 20, 30]) :=
  ⟨by decide, by decide,
   (array_reference_isomorphism [10, 20, 30] 2 (by decide) (by decide)).1,
   (array_reference_isomorphism [10, 20, 30] 2 (by decide) (by decide)).2⟩

/-- C4: _map_index replays the canonical root-to-node path: base case 0 maps to
the base index, the left and right child recurrences are shape-preserving, and
from base 0 the map is the identity. -/
theorem map_index_recurrences :
    ∀ b r : Nat,
      AVLTreeArray.map_index b 0 = b ∧
      AVLTreeArray.map_index b (2 * r + 1) = 2 * AVLTreeArray.map_index b r + 1 ∧
      AVLTreeArray.map_index b (2 * r + 2) = 2 * AVLTreeArray.map_index b r + 2 ∧
      AVLTreeArray.map_index 0 r = r :=
  fun b r => ⟨map_index_zero b, map_index_left b r, map_index_right b r, map_index_id r⟩

/-- C5: _resize grows the store to exactly required_index + 1 slots when
required_index is at or beyond the capacity, preserving every old slot and
height and sentinel-filling the new ones; below the capacity it changes
nothing; the capacity never decreases. -/
theorem resize_frame_spec (s : AVLTreeArray) (ri : Nat) (hs : s.Sized) :
    (s.capacity ≤ ri →
      ((s.resize ri).capacity = ri + 1 ∧
       (∀ i, i < s.capacity →
         (s.resize ri).tree.getD i (-1) = s.tree.getD i (-1) ∧
         (s.resize ri).heights.getD i 0 = s.heights.getD i 0) ∧
       (∀ i, s.capacity ≤ i → i < (s.resize ri).capacity →
         (s.resize ri).tree.getD i (-1) = -1 ∧ (s.resize ri).heights.getD i 0 = 0))) ∧
    (ri < s.capacity → s.resize ri = s) ∧
    s.capacity ≤ (s.resize ri).capacity := by
  refine ⟨?_, fun h => resize_of_lt h, resize_capacity_le s ri⟩
  intro hge
  refine ⟨?_, ?_, ?_⟩
  · unfold AVLTreeArray.resize
    rw [if_pos hge]
  · intro i _
    exact ⟨resize_slotVal hs ri i, resize_hVal hs ri i⟩
  · intro i hgei _
    constructor
    · rw [show (s.resize ri).tree.getD i (-1) = (s.resize ri).slotVal i from rfl,
        resize_slotVal hs ri i]
      exact List.getD_eq_default _ _ (by rw [hs.1]; omega)
    · rw [show (s.resize ri).heights.getD i 0 = (s.resize ri).hVal i from rfl,
        resize_hVal hs ri i]
      exact List.getD_eq_default _ _ (by rw [hs.2]; omega)

/-- Witness for C5: growing a sized store of capacity 3 to required index 7
yields capacity 8, and the capacity never decreases. -/
theorem resize_frame_check :
    (AVLTreeArray.mk0 3).Sized ∧
    ((AVLTreeArray.mk0 3).resize 7).capacity = 8 ∧
    (AVLTreeArray.mk0 3).capacity ≤ ((AVLTreeArray.mk0 3).resize 7).capacity :=
  ⟨mk0_sized 3,
   ((resize_frame_spec (AVLTreeArray.mk0 3) 7 (mk0_sized 3)).1 (by decide)).1,
   (resize_frame_spec (AVLTreeArray.mk0 3) 7 (mk0_sized 3)).2.2⟩

/-- C6: on a store reachable by inserting a sequence of distinct valid keys,
inserting a key already present leaves the whole state (slot array, height
array, capacity) unchanged, and hence every search result unchanged. -/
theorem duplicate_insert_is_identity (ks : List Int) (c : Nat) (k : Int)
    (hval : ∀ x ∈ ks, ValidKey x) (_hnd : ks.Nodup) (hk : k ∈ ks) :
    ((AVLTreeArray.mk0 c).insert_list ks).insert k =
      (AVLTreeArray.mk0 c).insert_list ks ∧
    ∀ q : Int, (((AVLTreeArray.mk0 c).insert_list ks).insert k).search q =
      ((AVLTreeArray.mk0 c).insert_list ks).search q := by
  have hfil : ks.filter (fun x => x != -1) = ks :=
    List.filter_eq_self.2 (fun a ha => by simpa using (hval a ha).2.2)
  obtain ⟨hsz, havl, hrep⟩ := insert_list_rep ks (AVLTreeArray.mk0 c) .nil (mk0_sized c)
    ⟨trivial, trivial, trivial, trivial⟩ (fun j _ => mk0_slotVal c j)
    (fun x hx => ⟨(hval x hx).1, (hval x hx).2.1⟩)
  rw [hfil] at havl hrep
  have heq : ((AVLTreeArray.mk0 c).insert_list ks).insert k =
      (AVLTreeArray.mk0 c).insert_list ks :=
    insert_rec_mem (ref_insert_list .nil ks) ((AVLTreeArray.mk0 c).insert_list ks) 0 k
      hsz havl hrep (mem_ref_insert_list ks .nil k hk)
  exact ⟨heq, fun q => by rw [heq]⟩

/-- Witness for C6: re-inserting 20 after [10, 20, 30] is the identity. -/
theorem duplicate_insert_check :
    (∀ x ∈ ([10, 20, 30] : List Int), ValidKey x) ∧
    ([10, 20, 30] : List Int).Nodup ∧
    (20 : Int) ∈ ([10, 20, 30] : List Int) ∧
    ((AVLTreeArray.mk0 2).insert_list [10, 20, 30]).insert 20 =
      (AVLTreeArray.mk0 2).insert_list [10, 20, 30] :=
  ⟨by decide, by decide, by decide,
   (duplicate_insert_is_identity [10, 20, 30] 2 20 (by decide) (by decide) (by decide)).1⟩

set_option maxRecDepth 4000 in
/-- C7: inserting 10, 20, 30, 40, 50, 25 in order into a fresh AVLTreeArray of
initial capacity 10 yields in-order traversal [10, 20, 25, 30, 40, 50], root
subtree height 3, search 25 = true and search 99 = false. -/
theorem scenario_ten_through_fifty :
    ((AVLTreeArray.mk0 10).insert_list [10, 20, 30, 40, 50, 25]).inorder 0 =
      [10, 20, 25, 30, 40, 50] ∧
    ((AVLTreeArray.mk0 10).insert_list [10, 20, 30, 40, 50, 25]).get_height 0 = 3 ∧
    ((AVLTreeArray.mk0 10).insert_list [10, 20, 30, 40, 50, 25]).search 25 = true ∧
    ((AVLTreeArray.mk0 10).insert_list [10, 20, 30, 40, 50, 25]).search 99 = false := by
  have hE : (AVLTreeArray.mk0 10).insert_list [10, 20, 30, 40, 50, 25] =
      (AVLTreeArray.mk0 10).insert_listE [10, 20, 30, 40, 50, 25] :=
    (insert_listE_eq _ _).symm
  refine ⟨?_, ?_, ?_, ?_⟩
  · rw [hE, ← inorderE_eq]
    decide
  · rw [hE]
    decide
  · rw [hE, ← searchE_eq]
    decide
  · rw [hE, ← searchE_eq]
    decide

/-- C8: on a store reachable by inserting valid keys into an empty
AVLTreeArray, a further insert of any storable key performs every read and
write of the tree and heights arrays in bounds: the bounds-checked twin of
_insert_rec (which checks exactly the unguarded numpy accesses, including the
pivot reads and writes of the rotations) succeeds and agrees with it. -/
theorem insert_accesses_in_bounds (ks : List Int) (c : Nat) (key : Int)
    (hval : ∀ x ∈ ks, ValidKey x) (hkey : StorableKey key) :
    ((AVLTreeArray.mk0 c).insert_list ks).insert_chk key =
      some (((AVLTreeArray.mk0 c).insert_list ks).insert key) := by
  obtain ⟨hsz, havl, hrep⟩ := insert_list_rep ks (AVLTreeArray.mk0 c) .nil (mk0_sized c)
    ⟨trivial, trivial, trivial, trivial⟩ (fun j _ => mk0_slotVal c j)
    (fun x hx => ⟨(hval x hx).1, (hval x hx).2.1⟩)
  by_cases hm1 : key = -1
  · subst hm1
    exact (insert_rec_sentinel _ _ 0 hsz havl hrep).2.2.2.2
  · exact (insert_rec_sim _ _ 0 key hsz ⟨hkey.1, hkey.2, hm1⟩ havl hrep).2.2.2.2

/-- Witness for C8: inserting 25 after [10, 20, 30] into capacity 2 stays in
bounds. -/
theorem insert_bounds_check :
    (∀ x ∈ ([10, 20, 30] : List Int), ValidKey x) ∧
    StorableKey 25 ∧
    ((AVLTreeArray.mk0 2).insert_list [10, 20, 30]).insert_chk 25 =
      some (((AVLTreeArray.mk0 2).insert_list [10, 20, 30]).insert 25) :=
  ⟨by decide, by decide,
   insert_accesses_in_bounds [10, 20, 30] 2 25 (by decide) (by decide)⟩

/-- C9 (amended): during the unwind of _insert_rec, AT MOST one rebalancing
case (LL, RR, LR, RL) fires per ancestor, not exactly one (at a still-balanced
ancestor none fires); when one fires, rebalance returns that rotation's result
immediately without evaluating the remaining cases, and when none fires the
level only recomputes its height. -/
theorem rebalance_cases_mutually_exclusive :
    ∀ (s : AVLTreeArray) (idx : Nat) (key : Int),
    firedCount (s.update_height idx) idx key ≤ 1 ∧
    (1 < (s.update_height idx).get_balance idx ∧
        key < (s.update_height idx).slotVal (2 * idx + 1) →
      s.rebalance_after idx key = (s.update_height idx).right_rotate idx) ∧
    ((s.update_height idx).get_balance idx < -1 ∧
        (s.update_height idx).slotVal (2 * idx + 2) < key →
      s.rebalance_after idx key = (s.update_height idx).left_rotate idx) ∧
    (1 < (s.update_height idx).get_balance idx ∧
        (s.update_height idx).slotVal (2 * idx + 1) < key →
      s.rebalance_after idx key =
        ((s.update_height idx).left_rotate (2 * idx + 1)).right_rotate idx) ∧
    ((s.update_height idx).get_balance idx < -1 ∧
        key < (s.update_height idx).slotVal (2 * idx + 2) →
      s.rebalance_after idx key =
        ((s.update_height idx).right_rotate (2 * idx + 2)).left_rotate idx) ∧
    (firedCount (s.update_height idx) idx key = 0 →
      s.rebalance_after idx key = s.update_height idx) := by
  intro s idx key
  have hrw : s.rebalance_after idx key =
      (if 1 < (s.update_height idx).get_balance idx ∧
            key < (s.update_height idx).slotVal (2 * idx + 1) then
         (s.update_height idx).right_rotate idx
       else if (s.update_height idx).get_balance idx < -1 ∧
            (s.update_height idx).slotVal (2 * idx + 2) < key then
         (s.update_height idx).left_rotate idx
       else if 1 < (s.update_height idx).get_balance idx ∧
            (s.update_height idx).slotVal (2 * idx + 1) < key then
         ((s.update_height idx).left_rotate (2 * idx + 1)).right_rotate idx
       else if (s.update_height idx).get_balance idx < -1 ∧
            key < (s.update_height idx).slotVal (2 * idx + 2) then
         ((s.update_height idx).right_rotate (2 * idx + 2)).left_rotate idx
       else s.update_height idx) := rfl
  refine ⟨?_, ?_, ?_, ?_, ?_, ?_⟩
  · unfold firedCount
    split_ifs <;> omega
  · intro hG
    rw [hrw, if_pos hG]
  · intro hG
    rw [hrw,
      if_neg (show ¬ (1 < (s.update_height idx).get_balance idx ∧
        key < (s.update_height idx).slotVal (2 * idx + 1)) from
        fun hc => absurd hc.1 (by omega)),
      if_pos hG]
  · intro hG
    rw [hrw,
      if_neg (show ¬ (1 < (s.update_height idx).get_balance idx ∧
        key < (s.update_height idx).slotVal (2 * idx + 1)) from
        fun hc => absurd hc.2 (by omega)),
      if_neg (show ¬ ((s.update_height idx).get_balance idx < -1 ∧
        (s.update_height idx).slotVal (2 * idx + 2) < key) from
        fun hc => absurd hc.1 (by omega)),
      if_pos hG]
  · intro hG
    rw [hrw,
      if_neg (show ¬ (1 < (s.update_height idx).get_balance idx ∧
        key < (s.update_height idx).slotVal (2 * idx + 1)) from
        fun hc => absurd hc.1 (by omega)),
      if_neg (show ¬ ((s.update_height idx).get_balance idx < -1 ∧
        (s.update_height idx).slotVal (2 * idx + 2) < key) from
        fun hc => absurd hc.2 (by omega)),
      if_neg (show ¬ (1 < (s.update_height idx).get_balance idx ∧
        (s.update_height idx).slotVal (2 * idx + 1) < key) from
        fun hc => absurd hc.1 (by omega)),
      if_pos hG]
  · intro hf
    unfold firedCount at hf
    have h1 : ¬ (1 < (s.update_height idx).get_balance idx ∧
        key < (s.update_height idx).slotVal (2 * idx + 1)) := by
      intro hc
      rw [if_pos hc] at hf
      omega
    have h2 : ¬ ((s.update_height idx).get_balance idx < -1 ∧
        (s.update_height idx).slotVal (2 * idx + 2) < key) := by
      intro hc
      rw [if_pos hc] at hf
      omega
    have h3 : ¬ (1 < (s.update_height idx).get_balance idx ∧
        (s.update_height idx).slotVal (2 * idx + 1) < key) := by
      intro hc
      rw [if_pos hc] at hf
      omega
    have h4 : ¬ ((s.update_height idx).get_balance idx < -1 ∧
        key < (s.update_height idx).slotVal (2 * idx + 2)) := by
      intro hc
      rw [if_pos hc] at hf
      omega
    rw [hrw, if_neg h1, if_neg h2, if_neg h3, if_neg h4]

/-- C9 counterexample: inserting 10 after 20 unwinds through the root ancestor
(slot 0), where ZERO rebalancing cases fire, refuting "exactly one rebalancing
case fires per ancestor". -/
theorem rebalance_zero_cases_at_balanced_ancestor :
    ((AVLTreeArray.mk0 10).insert 20).insert 10 =
      AVLTreeArray.rebalance_after
        (((AVLTreeArray.mk0 10).insert 20).insert_rec 1 10) 0 10 ∧
    firedCount ((((AVLTreeArray.mk0 10).insert 20).insert_rec 1 10).update_height 0)
      0 10 = 0 := by
  have hE : (AVLTreeArray.mk0 10).insert 20 = (AVLTreeArray.mk0 10).insertE 20 :=
    (insertE_eq _ _).symm
  have hocc : ¬ ((((AVLTreeArray.mk0 10).insert 20).resize 0).tree.getD 0 (-1) = -1) := by
    rw [hE]
    decide
  have hlt : (10 : Int) < (((AVLTreeArray.mk0 10).insert 20).resize 0).tree.getD 0 (-1) := by
    rw [hE]
    decide
  have hcap : 0 < ((AVLTreeArray.mk0 10).insert 20).capacity := by
    rw [hE]
    decide
  have hrec : ((AVLTreeArray.mk0 10).insert 20).insert_rec 1 10 =
      ((AVLTreeArray.mk0 10).insertE 20).insert_recF
        (((AVLTreeArray.mk0 10).insertE 20).capacity + 1) 1 10 := by
    rw [hE]
    exact (insert_recF_eq _ _ _ _ (by omega)).symm
  constructor
  · show ((AVLTreeArray.mk0 10).insert 20).insert_rec 0 10 = _
    rw [AVLTreeArray.insert_rec, dif_neg hocc, dif_pos hlt, resize_of_lt hcap]
  · rw [hrec]
    decide

/-- C10: because the empty-slot sentinel is -1, inserting the key -1 into a
fresh empty AVLTreeArray is silently lost: tree[0] holds -1 and reads as an
empty slot, every search returns false (including search (-1)), and
get_height 0 returns 0 even though heights[0] was set to 1. -/
theorem sentinel_insert_lost :
    ((AVLTreeArray.mk0 10).insert (-1)).tree.getD 0 (-1) = -1 ∧
    (∀ k : Int, ((AVLTreeArray.mk0 10).insert (-1)).search k = false) ∧
    ((AVLTreeArray.mk0 10).insert (-1)).get_height 0 = 0 ∧
    ((AVLTreeArray.mk0 10).insert (-1)).heights.getD 0 0 = 1 := by
  have hE : (AVLTreeArray.mk0 10).insert (-1) = (AVLTreeArray.mk0 10).insertE (-1) :=
    (insertE_eq _ _).symm
  have h0 : ((AVLTreeArray.mk0 10).insert (-1)).tree.getD 0 (-1) = -1 := by
    rw [hE]
    decide
  refine ⟨h0, ?_, by rw [hE]; decide, by rw [hE]; decide⟩
  intro k
  show ((AVLTreeArray.mk0 10).insert (-1)).search_from 0 k = false
  rw [AVLTreeArray.search_from, if_neg (fun hc => hc.2 h0)]
